import Mathlib

set_option linter.unusedSectionVars false
set_option linter.unnecessarySimpa false

/-!
Verification development for the v1quantum software-defined quantum network
controller.  The Python sources are shallowly embedded: dictionaries become
association lists (insertion order preserved, updates in place, as for Python
dicts), crashes (assertion failures, KeyError, NameError) become `none`, and
every port transmission is recorded in an `outputs` trace.
-/

namespace V1Q

section AssocList

variable {α : Type} {β : Type} [DecidableEq α]

/-- Association-list lookup: first entry with the given key. -/
def lookupA : List (α × β) → α → Option β
  | [], _ => none
  | (k', v') :: rest, k => if k' = k then some v' else lookupA rest k

/-- Association-list update: replace the first entry in place (Python dict
assignment keeps the key position), or append a fresh entry at the end. -/
def insertA : List (α × β) → α → β → List (α × β)
  | [], k, v => [(k, v)]
  | (k', v') :: rest, k, v =>
      if k' = k then (k, v) :: rest else (k', v') :: insertA rest k v

/-- Association-list deletion of the first entry with the given key. -/
def eraseA : List (α × β) → α → List (α × β)
  | [], _ => []
  | (k', v') :: rest, k => if k' = k then rest else (k', v') :: eraseA rest k

/-- The keys of an association list. -/
def keysA (l : List (α × β)) : List α := l.map Prod.fst

end AssocList

end V1Q

namespace V1Q

/-!
## Control-plane message types

Embedded from `v1quantum/protocol/control_plane/protocol.py`.  Table keys and
action data are lists of `Option Nat`: the controller inserts routing egress
ports obtained from `Routing.egress`, which is `Optional[int]` in the source.
-/

inductive QcpOp
  | OP_PING
  | OP_RSRV
  | OP_FREE
  | OP_RULE
deriving DecidableEq, Repr

/-- `RequestMsg` from `protocol.py`: a reserve/free request. -/
structure RequestMsg where
  msg_type : QcpOp
  source : String
  remote : String
  request_id : Nat
deriving DecidableEq, Repr

inductive RuleAction
  | INSERT_TABLE_ENTRY
  | REMOVE_TABLE_ENTRY
  | CREATE_BSM_GRP
  | DESTROY_BSM_GRP
deriving DecidableEq, Repr

/-- `BsmGroupEntry` from `v1quantum/processor.py`. -/
structure BsmGroupEntry where
  egress_port : Option Nat
  bsm_info : Option Nat
deriving DecidableEq, Repr

/-- Variant payloads of the `RuleMsg` subclasses from `protocol.py`. -/
inductive RulePayload
  | tableInsert (block table : String) (key : List (Option Nat)) (action_name : String)
      (action_data : List (Option Nat)) (handle : Option Nat)
  | tableRemove (block table : String) (handle : Nat)
  | bsmGrpCreate (bsm_grp_id : Nat) (bsm_grp_entry_0 bsm_grp_entry_1 : BsmGroupEntry)
  | bsmGrpDestroy (bsm_grp_id : Nat)
deriving DecidableEq, Repr

/-- Common `RuleMsg` fields plus the subclass payload. -/
structure RuleMsg where
  circuit_id : Nat
  node : String
  rule_id : Nat
  rule_action : RuleAction
  payload : RulePayload
deriving DecidableEq, Repr

/-- A transmission recorded by the controller: `node.ports[port].tx_output(msg)`. -/
inductive OutMsg
  | rule (port : String) (msg : RuleMsg)
  | request (port : String) (msg : RequestMsg)
deriving DecidableEq, Repr

/-- `TableHandle` dataclass from `controller.py`. -/
structure TableHandle where
  node : String
  block : String
  table : String
  handle : Nat
deriving DecidableEq, Repr

/-- `BsmGrpHandle` dataclass from `controller.py`. -/
structure BsmGrpHandle where
  node : String
  bsm_grp_id : Nat
deriving DecidableEq, Repr

/-- `RouteHandles` dataclass from `controller.py`. -/
structure RouteHandles where
  tables : List TableHandle
  bsm_grps : List BsmGrpHandle
deriving DecidableEq, Repr

/-- `ActiveCircuit` dataclass from `controller.py`. -/
structure ActiveCircuit where
  circuit_id : Nat
  pair : String × String
deriving DecidableEq, Repr

/-!
## Controller state

The `Controller` instance attributes, with dictionaries as association lists
and every port transmission appended to the `outputs` trace.  `ext` holds the
variant-specific state: `Unit` for the point-to-point controller, `HubExt`
for the hub controller.
-/

structure CtrlState (σ : Type) where
  pending : List (String × List (Nat × RequestMsg))
  reserveQueue : List ((Nat × String × String) × RequestMsg)
  releaseQueue : List RequestMsg
  installing : List (Nat × ActiveCircuit)
  active : List (Nat × ActiveCircuit)
  nextRuleId : Nat
  reserveMsgs : List (Nat × List Nat)
  releaseMsgs : List (Nat × List Nat)
  handles : List (Nat × RouteHandles)
  outputs : List OutMsg
  ext : σ
deriving DecidableEq, Repr

/-- The point-to-point controller carries no variant state. -/
abbrev P2PState := CtrlState Unit

/-- Topology services used by the controller: what `self._routing` provides
(`routes`, `egress`) plus the node-type and ethernet-address tables. -/
structure Env where
  routes : String → String → Option (List String)
  egress : String → String → Option Nat
  nodeType : String → String
  ethaddr : String → Option Nat

/-- The two methods overridden by `HubController`:
`_assign_bsm_grp_id` and `_release_bsm_grp_id`. -/
structure Variant (σ : Type) where
  assign : String → σ → Option (Nat × σ)
  release : String → Nat → σ → Option σ

/-- The point-to-point controller: BSM group id is always `0`, and
`_release_bsm_grp_id` asserts the id is `0` for non-`qrx` nodes. -/
def p2pVariant : Variant Unit where
  assign := fun _node u => some (0, u)
  release := fun node bsm_grp_id u =>
    if node.startsWith "qrx" then some u
    else if bsm_grp_id = 0 then some u else none

/-- Python list indexing with negative wrap-around; `none` is an `IndexError`. -/
def pyGet {γ : Type} (l : List γ) (i : Int) : Option γ :=
  if 0 ≤ i then l.get? i.toNat
  else if 0 ≤ i + l.length then l.get? (i + l.length).toNat else none

/-- Lexicographic string comparison by Unicode code point (the order Python
string comparison uses). -/
def charListLe : List Char → List Char → Bool
  | [], _ => true
  | _ :: _, [] => false
  | a :: as, b :: bs =>
    if a.toNat < b.toNat then true
    else if b.toNat < a.toNat then false
    else charListLe as bs

/-- `sorted((a, b))` on a pair of strings. -/
def sortPair (a b : String) : String × String :=
  if charListLe a.data b.data then (a, b) else (b, a)

/-- The reservation queue key `(request_id, *sorted((source, remote)))`. -/
def rsrvId (m : RequestMsg) : Nat × String × String :=
  (m.request_id, sortPair m.source m.remote)

/-- The in-flight rule-id set for a circuit (`defaultdict(set)` read). -/
def rmGet (m : List (Nat × List Nat)) (cid : Nat) : List Nat := (lookupA m cid).getD []

/-- Fresh state: all reservation maps and queues empty, no rules sent. -/
def initState {σ : Type} (e : σ) : CtrlState σ :=
  ⟨[], [], [], [], [], 0, [], [], [], [], e⟩

/-!
## Rule emission

Each emitted rule message carries the fresh, monotonically increasing
`rule_id` (`__assign_rule_id`), is transmitted on the target node port, and is
added to the circuit in-flight set (`__reserve_msgs` / `__release_msgs`).
-/

def emitReserveRule {σ : Type} (s : CtrlState σ) (cid : Nat) (node : String)
    (action : RuleAction) (payload : RulePayload) : CtrlState σ :=
  { s with
    nextRuleId := s.nextRuleId + 1
    outputs := s.outputs ++ [OutMsg.rule node ⟨cid, node, s.nextRuleId, action, payload⟩]
    reserveMsgs := insertA s.reserveMsgs cid (rmGet s.reserveMsgs cid ++ [s.nextRuleId]) }

def emitReleaseRule {σ : Type} (s : CtrlState σ) (cid : Nat) (node : String)
    (action : RuleAction) (payload : RulePayload) : CtrlState σ :=
  { s with
    nextRuleId := s.nextRuleId + 1
    outputs := s.outputs ++ [OutMsg.rule node ⟨cid, node, s.nextRuleId, action, payload⟩]
    releaseMsgs := insertA s.releaseMsgs cid (rmGet s.releaseMsgs cid ++ [s.nextRuleId]) }

/-!
## Path installation (`__install_path` and helpers)
-/

/-- `__install_path_node`: two table inserts on a host endpoint. -/
def installPathNode {σ : Type} (env : Env) (cid : Nat) (route : List String)
    (n_i : Nat) (label : Nat) (s : CtrlState σ) : Option (CtrlState σ) :=
  match pyGet route n_i with
  | none => none
  | some node =>
    let head_end : Bool := n_i = 0
    match pyGet route (if head_end then (n_i : Int) + 2 else (n_i : Int) - 2) with
    | none => none
    | some remote =>
      match env.ethaddr remote with
      | none => none
      | some addr =>
        let s := emitReserveRule s cid node RuleAction.INSERT_TABLE_ENTRY
          (RulePayload.tableInsert "qdevice" "xQDevice.egp_tbl" [some label]
            "xQDevice.egp_to_qnp" [some cid, some (if head_end then 1 else 0), some addr] none)
        some (emitReserveRule s cid node RuleAction.INSERT_TABLE_ENTRY
          (RulePayload.tableInsert "qdevice" "xQDevice.qnp_tbl" [some cid]
            "xQDevice.qnp_to_cpu" [some (if head_end then 1 else 0)] none))

/-- `__install_path_heralding_station`: BSM group creation (with a
variant-assigned group id) plus one `bsm_tbl` insert. -/
def installPathHeraldingStation {σ : Type} (V : Variant σ) (env : Env) (cid : Nat)
    (route : List String) (n_i : Nat) (label : Nat) (s : CtrlState σ) :
    Option (CtrlState σ) :=
  match pyGet route n_i with
  | none => none
  | some node =>
    match pyGet route ((n_i : Int) - 1), pyGet route ((n_i : Int) + 1) with
    | some nl, some nr =>
      let port_l := env.egress node nl
      let port_r := env.egress node nr
      match V.assign node s.ext with
      | none => none
      | some (bsm_grp_id, ext) =>
        let s := { s with ext := ext }
        let s := emitReserveRule s cid node RuleAction.CREATE_BSM_GRP
          (RulePayload.bsmGrpCreate bsm_grp_id ⟨port_l, port_r⟩ ⟨port_r, port_l⟩)
        some (emitReserveRule s cid node RuleAction.INSERT_TABLE_ENTRY
          (RulePayload.tableInsert "qdevice" "xQDevice.bsm_tbl" [some bsm_grp_id, some 1]
            "xQDevice.bsm_to_egp" [some label] none))
    | _, _ => none

/-- One direction of `__install_path_router`: three table inserts. -/
def installRouterDir {σ : Type} (cid : Nat) (node : String) (port other_port : Option Nat)
    (lbl other_lbl : Nat) (addr : Nat) (s : CtrlState σ) : CtrlState σ :=
  let s := emitReserveRule s cid node RuleAction.INSERT_TABLE_ENTRY
    (RulePayload.tableInsert "qdevice" "xQDevice.egp_tbl" [port, some lbl]
      "xQDevice.egp_to_qnp" [some cid, other_port, some other_lbl] none)
  let s := emitReserveRule s cid node RuleAction.INSERT_TABLE_ENTRY
    (RulePayload.tableInsert "qdevice" "xQDevice.qnp_tbl" [port, some cid]
      "xQDevice.qnp_forward" [other_port] none)
  emitReserveRule s cid node RuleAction.INSERT_TABLE_ENTRY
    (RulePayload.tableInsert "egress" "xEgress.ethernet_tbl" [port, some cid]
      "xEgress.ethernet_address" [some addr] none)

/-- `__install_path_router`: one BSM group creation (keyed by the circuit id)
plus three table inserts per direction. -/
def installPathRouter {σ : Type} (env : Env) (cid : Nat) (route : List String)
    (n_i : Nat) (lbl_l lbl_r : Nat) (s : CtrlState σ) : Option (CtrlState σ) :=
  match pyGet route n_i with
  | none => none
  | some node =>
    match pyGet route ((n_i : Int) - 2), pyGet route ((n_i : Int) + 2) with
    | some n_l, some n_r =>
      let port_l := env.egress node n_l
      let port_r := env.egress node n_r
      let s := emitReserveRule s cid node RuleAction.CREATE_BSM_GRP
        (RulePayload.bsmGrpCreate cid ⟨port_l, port_r⟩ ⟨port_r, port_l⟩)
      match env.ethaddr n_l with
      | none => none
      | some addr_l =>
        let s := installRouterDir cid node port_l port_r lbl_l lbl_r addr_l s
        match env.ethaddr n_r with
        | none => none
        | some addr_r =>
          some (installRouterDir cid node port_r port_l lbl_r lbl_l addr_r s)
    | _, _ => none

/-- The per-node loop of `__install_path`, walking the route with the running
edge label; the label advances by `0x10` at each router/repeater. -/
def installLoop {σ : Type} (V : Variant σ) (env : Env) (cid : Nat) (route : List String) :
    List Nat → Nat → CtrlState σ → Option (CtrlState σ)
  | [], _, s => some s
  | n_i :: rest, label, s =>
    match pyGet route n_i with
    | none => none
    | some node =>
      let step1 : Option (CtrlState σ) :=
        if env.nodeType node = "host" then
          if n_i = 0 ∨ n_i = route.length - 1 then installPathNode env cid route n_i label s
          else none
        else some s
      match step1 with
      | none => none
      | some s =>
        let step2 : Option (CtrlState σ) :=
          if env.nodeType node = "heralding_station" then
            if n_i % 2 = 1 then installPathHeraldingStation V env cid route n_i label s
            else none
          else some s
        match step2 with
        | none => none
        | some s =>
          if env.nodeType node = "repeater" ∨ env.nodeType node = "router" then
            if n_i % 2 = 0 then
              match installPathRouter env cid route n_i label (label + 0x10) s with
              | none => none
              | some s => installLoop V env cid route rest (label + 0x10) s
            else none
          else installLoop V env cid route rest label s

/-- `__install_path`: look up the route, check its shape, reset the circuit
handle store, and walk the route. -/
def installPath {σ : Type} (V : Variant σ) (env : Env) (cid : Nat) (src dst : String)
    (s : CtrlState σ) : Option (CtrlState σ) :=
  match env.routes src dst with
  | none => none
  | some route =>
    if 3 ≤ route.length ∧ route.length % 2 = 1 then
      installLoop V env cid route (List.range route.length) 0x10
        { s with handles := insertA s.handles cid ⟨[], []⟩ }
    else none

/-- `_reserve`: mark the circuit as installing and install the path. -/
def reserveOp {σ : Type} (V : Variant σ) (env : Env) (m : RequestMsg) (s : CtrlState σ) :
    Option (CtrlState σ) :=
  if (lookupA s.installing m.request_id).isSome then none
  else if (lookupA s.active m.request_id).isSome then none
  else
    let c : ActiveCircuit := ⟨m.request_id, sortPair m.source m.remote⟩
    installPath V env m.request_id m.source m.remote
      { s with installing := insertA s.installing m.request_id c }

/-!
## Path removal (`__uninstall_path`)
-/

/-- Emit one `TableRemoveMsg` per table handle; called on the reversed handle
list since the source pops from the end of the list (LIFO). -/
def uninstallTables {σ : Type} (cid : Nat) : List TableHandle → CtrlState σ → CtrlState σ
  | [], s => s
  | th :: rest, s =>
      uninstallTables cid rest
        (emitReleaseRule s cid th.node RuleAction.REMOVE_TABLE_ENTRY
          (RulePayload.tableRemove th.block th.table th.handle))

/-- Emit one `BsmGrpDestroyMsg` per BSM group handle (reversed list, LIFO) and
release the group id.  The node passed to `_release_bsm_grp_id` is the node of
the *last popped table handle* (the stale loop variable in the source). -/
def uninstallBsmGrps {σ : Type} (V : Variant σ) (cid : Nat) (tnode : String) :
    List BsmGrpHandle → CtrlState σ → Option (CtrlState σ)
  | [], s => some s
  | bh :: rest, s =>
    let s := emitReleaseRule s cid bh.node RuleAction.DESTROY_BSM_GRP
      (RulePayload.bsmGrpDestroy bh.bsm_grp_id)
    match V.release tnode bh.bsm_grp_id s.ext with
    | none => none
    | some ext => uninstallBsmGrps V cid tnode rest { s with ext := ext }

/-- `__uninstall_path`: requires no release already in flight, then drains the
table handles and the BSM group handles in LIFO order. -/
def uninstallPath {σ : Type} (V : Variant σ) (cid : Nat) (s : CtrlState σ) :
    Option (CtrlState σ) :=
  if rmGet s.releaseMsgs cid = [] then
    match lookupA s.handles cid with
    | none => none
    | some rh =>
      let s := uninstallTables cid rh.tables.reverse s
      match rh.bsm_grps with
      | [] => some { s with handles := insertA s.handles cid ⟨[], []⟩ }
      | _ :: _ =>
        match rh.tables.head? with
        | none => none
        | some th0 =>
          match uninstallBsmGrps V cid th0.node rh.bsm_grps.reverse s with
          | none => none
          | some s => some { s with handles := insertA s.handles cid ⟨[], []⟩ }
  else none

/-- `_release`: the circuit must be active (not installing) with the matching
pair; then uninstall its path. -/
def releaseOp {σ : Type} (V : Variant σ) (m : RequestMsg) (s : CtrlState σ) :
    Option (CtrlState σ) :=
  if (lookupA s.installing m.request_id).isSome then none
  else
    match lookupA s.active m.request_id with
    | none => none
    | some c =>
      if c.pair = sortPair m.source m.remote then uninstallPath V m.request_id s
      else none

/-- `_notify`: a deep copy to the `source` host port, then the same message
with `source` and `remote` swapped to the `remote` host port. -/
def notifyOut (m : RequestMsg) : List OutMsg :=
  [OutMsg.request m.source m,
   OutMsg.request m.remote { m with source := m.remote, remote := m.source }]

def notify {σ : Type} (s : CtrlState σ) (m : RequestMsg) : CtrlState σ :=
  { s with outputs := s.outputs ++ notifyOut m }

/-!
## `_reserve_release`

The release queue is drained with `pop()` (most recently queued first); the
admission loop then pops reservations from the end of the ordered reservation
queue.  Both `while` loops are modeled with explicit fuel; every call site
passes the queue length, which suffices since iterations only shrink the
queues.
-/

/-- One iteration body of the release-drain loop.  `chk` is the extra
precondition the hub variant asserts on each popped release. -/
def drainStep {σ : Type} (V : Variant σ) (chk : RequestMsg → CtrlState σ → Bool)
    (m : RequestMsg) (s : CtrlState σ) : Option (CtrlState σ) :=
  if chk m s then
    match lookupA s.active m.request_id with
    | some c =>
      if c.pair = sortPair m.source m.remote then releaseOp V m s else none
    | none =>
      if (lookupA s.reserveQueue (rsrvId m)).isSome then
        some (notify { s with reserveQueue := eraseA s.reserveQueue (rsrvId m) } m)
      else some s
  else none

def drainLoop {σ : Type} (V : Variant σ) (chk : RequestMsg → CtrlState σ → Bool) :
    Nat → CtrlState σ → Option (CtrlState σ)
  | 0, s => match s.releaseQueue with
            | [] => some s
            | _ :: _ => none
  | fuel+1, s =>
    match s.releaseQueue.getLast? with
    | none => some s
    | some m =>
      match drainStep V chk m { s with releaseQueue := s.releaseQueue.dropLast } with
      | none => none
      | some s' => drainLoop V chk fuel s'

/-- The point-to-point admission loop: while the reservation queue is nonempty
and no circuit is active or installing, pop the most recent reservation and
reserve it. -/
def admitLoop {σ : Type} (V : Variant σ) (env : Env) :
    Nat → CtrlState σ → Option (CtrlState σ)
  | 0, s => if s.reserveQueue = [] ∨ s.installing ≠ [] ∨ s.active ≠ [] then some s else none
  | fuel+1, s =>
    if s.reserveQueue ≠ [] ∧ s.installing = [] ∧ s.active = [] then
      match s.reserveQueue.getLast? with
      | none => none
      | some (_, m) =>
        match reserveOp V env m { s with reserveQueue := s.reserveQueue.dropLast } with
        | none => none
        | some s' => admitLoop V env fuel s'
    else some s

/-- `Controller._reserve_release`. -/
def reserveRelease (env : Env) (s : P2PState) : Option P2PState :=
  match drainLoop p2pVariant (fun _ _ => true) s.releaseQueue.length s with
  | none => none
  | some s₁ => admitLoop p2pVariant env s₁.reserveQueue.length s₁

/-!
## Message handlers (`__request_msg`, `__rule_msg`)
-/

/-- Remove a matched request from the nested pending map, dropping the outer
key when its inner map empties; `none` models the `KeyError` on a missing
entry. -/
def pendingErase (p : List (String × List (Nat × RequestMsg))) (host : String)
    (rid : Nat) : Option (List (String × List (Nat × RequestMsg))) :=
  match lookupA p host with
  | none => none
  | some inner =>
    if (lookupA inner rid).isSome then
      let inner' := eraseA inner rid
      some (if inner' = [] then eraseA p host else insertA p host inner')
    else none

/-- `__request_msg` up to (but not including) the trailing `_reserve_release`
call: note the request as pending and, if the matching request from the peer
is already pending, move the matched pair to the reserve or release queue. -/
def requestMsgCore {σ : Type} (m : RequestMsg) (s : CtrlState σ) : Option (CtrlState σ) :=
  if m.msg_type = QcpOp.OP_RSRV ∨ m.msg_type = QcpOp.OP_FREE then
    let inner := (lookupA s.pending m.source).getD []
    if (lookupA inner m.request_id).isSome then none
    else
      let s := { s with pending := insertA s.pending m.source (insertA inner m.request_id m) }
      match (lookupA s.pending m.remote).bind (fun mm => lookupA mm m.request_id) with
      | some pm =>
        if pm.remote = m.source then
          if pm.msg_type = m.msg_type ∧ pm.request_id = m.request_id then
            let queued : Option (CtrlState σ) :=
              if m.msg_type = QcpOp.OP_RSRV then
                if (lookupA s.reserveQueue (rsrvId m)).isSome then none
                else some { s with reserveQueue := s.reserveQueue ++ [(rsrvId m, m)] }
              else some { s with releaseQueue := s.releaseQueue ++ [m] }
            match queued with
            | none => none
            | some s =>
              match pendingErase s.pending m.source m.request_id with
              | none => none
              | some p =>
                match pendingErase p m.remote m.request_id with
                | none => none
                | some p => some { s with pending := p }
          else none
        else some s
      | none => some s
  else none

/-- A full `__request_msg` call: the queueing core followed by the variant
`_reserve_release`. -/
def requestMsgWith {σ : Type} (rr : CtrlState σ → Option (CtrlState σ)) (m : RequestMsg)
    (s : CtrlState σ) : Option (CtrlState σ) :=
  match requestMsgCore m s with
  | none => none
  | some s' => rr s'

/-- `__rule_msg`: process one rule acknowledgment.  The trailing
`_reserve_release` is scheduled as a separate zero-delay event in the source
and is therefore a separate step of the transition system. -/
def ruleMsg {σ : Type} (m : RuleMsg) (s : CtrlState σ) : Option (CtrlState σ) :=
  if m.rule_action = RuleAction.INSERT_TABLE_ENTRY ∨
      m.rule_action = RuleAction.CREATE_BSM_GRP then
    if m.rule_id ∈ rmGet s.reserveMsgs m.circuit_id then
      let upd : Option (CtrlState σ) :=
        if m.rule_action = RuleAction.INSERT_TABLE_ENTRY then
          match m.payload with
          | RulePayload.tableInsert block table _ _ _ ohdl =>
            match ohdl with
            | none => none
            | some hdl =>
              match lookupA s.handles m.circuit_id with
              | none => none
              | some rh =>
                let rh' := { rh with tables := rh.tables ++ [⟨m.node, block, table, hdl⟩] }
                some { s with handles := insertA s.handles m.circuit_id rh' }
          | _ => none
        else
          match m.payload with
          | RulePayload.bsmGrpCreate gid _ _ =>
            match lookupA s.handles m.circuit_id with
            | none => none
            | some rh =>
              let rh' := { rh with bsm_grps := rh.bsm_grps ++ [⟨m.node, gid⟩] }
              some { s with handles := insertA s.handles m.circuit_id rh' }
          | _ => none
      match upd with
      | none => none
      | some s =>
        let remaining := (rmGet s.reserveMsgs m.circuit_id).erase m.rule_id
        if remaining = [] then
          match lookupA s.installing m.circuit_id with
          | none => none
          | some c =>
            some { s with
              reserveMsgs := eraseA s.reserveMsgs m.circuit_id
              outputs := s.outputs ++
                notifyOut ⟨QcpOp.OP_RSRV, c.pair.1, c.pair.2, m.circuit_id⟩
              active := insertA s.active m.circuit_id c
              installing := eraseA s.installing m.circuit_id }
        else some { s with reserveMsgs := insertA s.reserveMsgs m.circuit_id remaining }
    else none
  else if m.rule_action = RuleAction.REMOVE_TABLE_ENTRY ∨
      m.rule_action = RuleAction.DESTROY_BSM_GRP then
    if m.rule_id ∈ rmGet s.releaseMsgs m.circuit_id then
      let remaining := (rmGet s.releaseMsgs m.circuit_id).erase m.rule_id
      if remaining = [] then
        match lookupA s.active m.circuit_id with
        | none => none
        | some c =>
          some { s with
            releaseMsgs := eraseA s.releaseMsgs m.circuit_id
            outputs := s.outputs ++
              notifyOut ⟨QcpOp.OP_FREE, c.pair.1, c.pair.2, m.circuit_id⟩
            active := eraseA s.active m.circuit_id }
      else some { s with releaseMsgs := insertA s.releaseMsgs m.circuit_id remaining }
    else none
  else none

/-- The agent echo of a previously emitted rule message: the handle of a table
insert is filled in, every other message is returned verbatim
(`Agent._process`). -/
def ackEcho (orig : RuleMsg) (hdl : Nat) : RuleMsg :=
  { orig with payload :=
      match orig.payload with
      | RulePayload.tableInsert b t k an ad _ => RulePayload.tableInsert b t k an ad (some hdl)
      | p => p }

/-!
## Point-to-point transition system

Steps: processing a `RSRV`/`FREE` request (which runs `_reserve_release`
inline), processing the agent acknowledgment of a previously emitted rule
message, and the zero-delay deferred `_reserve_release` event scheduled by
`__rule_msg`.
-/

inductive PStep (env : Env) : P2PState → P2PState → Prop
  | request (m : RequestMsg) (s s' : P2PState) :
      requestMsgWith (reserveRelease env) m s = some s' → PStep env s s'
  | ack (port : String) (orig : RuleMsg) (hdl : Nat) (s s' : P2PState) :
      OutMsg.rule port orig ∈ s.outputs →
      ruleMsg (ackEcho orig hdl) s = some s' → PStep env s s'
  | rr (s s' : P2PState) : reserveRelease env s = some s' → PStep env s s'

/-- Reachability of point-to-point controller states from the fresh state. -/
def Reachable (env : Env) : P2PState → Prop :=
  Relation.ReflTransGen (PStep env) (initState ())

/-!
## Hub controller (`HubController`)

Extra state: the free-host set, the BSM group id pool, and the map recording
which hosts each admitted circuit reserved.  Python `set` objects are modeled
as duplicate-free lists; `set.pop()` removes an arbitrary element, modeled as
the list head, and only membership in these sets is ever observed.
-/

/-- `set.add` on the free-host set. -/
def addHost (hs : List String) (h : String) : List String :=
  if h ∈ hs then hs else hs ++ [h]

/-- Is this output an installation command (table insert or BSM group
creation) for the given circuit? -/
def isInstallRuleFor (cid : Nat) : OutMsg → Bool
  | OutMsg.rule _ m =>
      decide (m.circuit_id = cid) &&
      (decide (m.rule_action = RuleAction.INSERT_TABLE_ENTRY) ||
       decide (m.rule_action = RuleAction.CREATE_BSM_GRP))
  | _ => false

/-- Is this output a removal command (table removal or BSM group destruction)
for the given circuit? -/
def isRemoveRuleFor (cid : Nat) : OutMsg → Bool
  | OutMsg.rule _ m =>
      decide (m.circuit_id = cid) &&
      (decide (m.rule_action = RuleAction.REMOVE_TABLE_ENTRY) ||
       decide (m.rule_action = RuleAction.DESTROY_BSM_GRP))
  | _ => false

/-- Is this output a BSM group creation for the given circuit? -/
def isCreateFor (cid : Nat) : OutMsg → Bool
  | OutMsg.rule _ m =>
      decide (m.circuit_id = cid) && decide (m.rule_action = RuleAction.CREATE_BSM_GRP)
  | _ => false

/-- Number of installation commands emitted so far for a circuit. -/
def insCount (cid : Nat) (outs : List OutMsg) : Nat :=
  (outs.filter (isInstallRuleFor cid)).length

/-- Number of removal commands emitted so far for a circuit. -/
def remCount (cid : Nat) (outs : List OutMsg) : Nat :=
  (outs.filter (isRemoveRuleFor cid)).length

/-- Number of handles (table plus BSM group) currently stored for a circuit. -/
def handleCount {σ : Type} (s : CtrlState σ) (cid : Nat) : Nat :=
  match lookupA s.handles cid with
  | none => 0
  | some rh => rh.tables.length + rh.bsm_grps.length

/-- Number of BSM group handles currently stored for a circuit. -/
def bsmHandleCount {σ : Type} (s : CtrlState σ) (cid : Nat) : Nat :=
  match lookupA s.handles cid with
  | none => 0
  | some rh => rh.bsm_grps.length

/-- Emitted-but-unacknowledged BSM group creations for a circuit. -/
def outstandingCreates {σ : Type} (cid : Nat) (s : CtrlState σ) : Nat :=
  (s.outputs.filter (fun o =>
    isCreateFor cid o &&
      match o with
      | OutMsg.rule _ m => decide (m.rule_id ∈ rmGet s.reserveMsgs cid)
      | _ => false)).length

/-- The rule ids of the rule messages in a trace. -/
def ruleIds (outs : List OutMsg) : List Nat :=
  outs.filterMap (fun o => match o with
    | OutMsg.rule _ m => some m.rule_id
    | _ => none)

/-- The circuits that are active and whose release has not begun (their
outstanding release set is empty): the spec lifecycle state `active`, as
opposed to `releasing`.  A releasing circuit remains in the `_active` map of
the source until all removal acknowledgments arrive. -/
def activeNR {σ : Type} (s : CtrlState σ) : List (Nat × ActiveCircuit) :=
  s.active.filter (fun e => decide (rmGet s.releaseMsgs e.1 = []))

/-!
## Point-to-point host handshake backoff

From `protocol/control_plane/host.py` (`EntangleAndMeasure.HandshakeSubProtocol`).
Simulation times and the random jitter sample are modeled as rationals.
-/

/-- What `__process_local_origin_handshake` does with the reply. -/
inductive HandshakeOutcome
  | reattempt (delay : ℚ)
  | remoteReady
deriving DecidableEq

/-- The per-request handshake bookkeeping: `handshake_attempts` (on the
request data) and `__origin_handhshake_send_time`. -/
structure HandshakeReqState where
  handshake_attempts : Nat
  sendTime : ℚ
deriving DecidableEq

/-- `__send_local_origin_handshake`: increment the attempt counter, transmit,
record the send time. -/
def sendLocalOriginHandshake (r : HandshakeReqState) (now : ℚ) : HandshakeReqState :=
  { handshake_attempts := r.handshake_attempts + 1, sendTime := now }

/-- `__process_local_origin_handshake`: on a collision reply
(`remote_ready` false) re-enqueue after
`2 ** min(attempts - 1, 3) * (1.0 + jitter) * (now - send_time)`. -/
def processLocalOriginHandshake (remote_ready : Bool) (r : HandshakeReqState)
    (jitter now : ℚ) : HandshakeOutcome :=
  if !remote_ready then
    HandshakeOutcome.reattempt
      ((2 ^ min (r.handshake_attempts - 1) 3) * (1 + jitter) * (now - r.sendTime))
  else HandshakeOutcome.remoteReady

/-!
## Heralding station protocol

From `components/heralding_station.py` (`HeraldingProtocol.run`), as a state
machine over the wait points of the generator: waiting for `QNodeReady` from
both endpoints, then monitoring the detector until a success.
-/

/-- `BsmOutcome`: the Bell index is the station-side conversion of the
NetSquid index (`None` for an unrecognized index, e.g. on failure). -/
structure BsmOutcome where
  bsm_id : Nat
  success : Bool
  bell_index : Option Nat
deriving DecidableEq, Repr

/-- Physical-layer heralding messages. -/
inductive PhysMsg
  | newBsmGroup (name : String) (bsm_id : Nat)
  | qnodeReady (name : String)
  | entParams (alpha : ℚ)
  | bsmOutcome (o : BsmOutcome)
deriving DecidableEq

/-- The wait points of `HeraldingProtocol.run`. -/
inductive HSPhase
  | awaitReady (ready0 ready1 : Bool)
  | monitoring
deriving DecidableEq, Repr

/-- Events the protocol waits on. -/
inductive HSEvent
  | qnodeReady (port : Fin 2)
  | detector (success : Bool) (ns_bell_index : Nat)
deriving DecidableEq

/-- Transmissions of the station protocol: to the two classical link
endpoints, or the heralding notification to the local P4 device. -/
inductive HSOut
  | cl0 (m : PhysMsg)
  | cl1 (m : PhysMsg)
  | p4HeraldingBsmOutcome (o : BsmOutcome)
deriving DecidableEq

/-- The (fixed) entanglement parameter broadcast before each attempt. -/
def heraldingAlpha : ℚ := 3 / 10

/-- The `NewBsmGroup` announcements sent once at protocol start. -/
def hsInitOuts (name : String) (bsm_id : Nat) : List HSOut :=
  [HSOut.cl0 (PhysMsg.newBsmGroup name bsm_id),
   HSOut.cl1 (PhysMsg.newBsmGroup name bsm_id)]

/-- Replace the release queue of a state (used to state that the drain loop
processes the queue it started with, in LIFO order). -/
def setRq {σ : Type} (x : List RequestMsg) (s : CtrlState σ) : CtrlState σ :=
  { s with releaseQueue := x }

/-- Sequential release processing: handle the given messages in list order.
The drain loop is proved equal to `drainSeq` on the *reversed* release queue,
which is the LIFO-order statement. -/
def drainSeq {σ : Type} (V : Variant σ) (chk : RequestMsg → CtrlState σ → Bool) :
    List RequestMsg → CtrlState σ → Option (CtrlState σ)
  | [], s => some s
  | m :: rest, s =>
    match drainStep V chk m s with
    | none => none
    | some s' => drainSeq V chk rest s'

/-- The expected removal commands for a list of table handles (one
`TableRemoveMsg` per handle, consecutive rule ids from `i`). -/
def tableRemovalMsgs (cid : Nat) : Nat → List TableHandle → List OutMsg
  | _, [] => []
  | i, th :: rest =>
    OutMsg.rule th.node ⟨cid, th.node, i, RuleAction.REMOVE_TABLE_ENTRY,
      RulePayload.tableRemove th.block th.table th.handle⟩ :: tableRemovalMsgs cid (i + 1) rest

/-- The expected destroy commands for a list of BSM group handles (one
`BsmGrpDestroyMsg` per handle, consecutive rule ids from `i`). -/
def destroyMsgs (cid : Nat) : Nat → List BsmGrpHandle → List OutMsg
  | _, [] => []
  | i, bh :: rest =>
    OutMsg.rule bh.node ⟨cid, bh.node, i, RuleAction.DESTROY_BSM_GRP,
      RulePayload.bsmGrpDestroy bh.bsm_grp_id⟩ :: destroyMsgs cid (i + 1) rest

/-- The full expected output of `__uninstall_path` for a circuit whose stored
handles are `rh`: all table removals (LIFO over `rh.tables`), then all BSM
group destroys (LIFO over `rh.bsm_grps`), with fresh consecutive rule ids
starting at `startId`. -/
def removalMsgs (cid startId : Nat) (rh : RouteHandles) : List OutMsg :=
  tableRemovalMsgs cid startId rh.tables.reverse ++
  destroyMsgs cid (startId + rh.tables.length) rh.bsm_grps.reverse

/-- Fields untouched by release-rule emission. -/
structure ReleaseFrame {σ : Type} (s s' : CtrlState σ) : Prop where
  pending : s'.pending = s.pending
  reserveQueue : s'.reserveQueue = s.reserveQueue
  releaseQueue : s'.releaseQueue = s.releaseQueue
  installing : s'.installing = s.installing
  active : s'.active = s.active
  reserveMsgs : s'.reserveMsgs = s.reserveMsgs
  handles : s'.handles = s.handles

/-- The variant-state effect of a sequence of `_release_bsm_grp_id` calls
(all with the same stale `table_handle.node` argument). -/
inductive RelExt {σ : Type} (V : Variant σ) (tnode : String) : List Nat → σ → σ → Prop
  | nil (e : σ) : RelExt V tnode [] e e
  | cons {bid : Nat} {ids : List Nat} {e e₁ e₂ : σ} :
      V.release tnode bid e = some e₁ → RelExt V tnode ids e₁ e₂ →
      RelExt V tnode (bid :: ids) e e₂

/-- What a run of install-rule emission for circuit `cid` does to the state:
everything except the rule counter, the outputs and the reserve in-flight set
of `cid` is unchanged, the emitted messages are installation rules for `cid`
carrying the fresh consecutive rule ids, and exactly those ids are added to
the circuit's in-flight set. -/
structure EmitsInstall {σ : Type} (cid : Nat) (s s' : CtrlState σ) : Prop where
  pending : s'.pending = s.pending
  reserveQueue : s'.reserveQueue = s.reserveQueue
  releaseQueue : s'.releaseQueue = s.releaseQueue
  installing : s'.installing = s.installing
  active : s'.active = s.active
  releaseMsgs : s'.releaseMsgs = s.releaseMsgs
  handles : s'.handles = s.handles
  le : s.nextRuleId ≤ s'.nextRuleId
  outputs : ∃ t, s'.outputs = s.outputs ++ t ∧
    (∀ o ∈ t, isInstallRuleFor cid o = true) ∧
    ruleIds t = List.range' s.nextRuleId (s'.nextRuleId - s.nextRuleId)
  rm_cid : rmGet s'.reserveMsgs cid =
    rmGet s.reserveMsgs cid ++ List.range' s.nextRuleId (s'.nextRuleId - s.nextRuleId)
  rm_other : ∀ c, c ≠ cid → lookupA s'.reserveMsgs c = lookupA s.reserveMsgs c
  rm_nodup : (keysA s.reserveMsgs).Nodup → (keysA s'.reserveMsgs).Nodup

/-- One transition of the heralding station state machine.  `cv` is
`V1QuantumDevice.from_netsquid_bell_index`. -/
def hsStep (bsm_id : Nat) (cv : Nat → Option Nat) :
    HSPhase → HSEvent → Option (HSPhase × List HSOut)
  | HSPhase.awaitReady r0 r1, HSEvent.qnodeReady i =>
    if (if i = 0 then r0 else r1) then none
    else
      let r0' := if i = 0 then true else r0
      let r1' := if i = 1 then true else r1
      if r0' ∧ r1' then
        some (HSPhase.monitoring,
          [HSOut.cl0 (PhysMsg.entParams heraldingAlpha),
           HSOut.cl1 (PhysMsg.entParams heraldingAlpha)])
      else some (HSPhase.awaitReady r0' r1', [])
  | HSPhase.monitoring, HSEvent.detector success nsbi =>
    let oc : BsmOutcome := ⟨bsm_id, success, cv nsbi⟩
    some ((if success then HSPhase.awaitReady false false else HSPhase.monitoring),
      [HSOut.cl0 (PhysMsg.bsmOutcome oc), HSOut.cl1 (PhysMsg.bsmOutcome oc),
       HSOut.p4HeraldingBsmOutcome oc])
  | _, _ => none

/-!
## Concrete demonstration topologies

Small executable environments used as witnesses and counterexample inputs.
`envSix`: six hosts in three point-to-point pairs, each pair joined by its own
heralding station.  `envHub4`: four hosts on a star around the single hub
heralding station `qhs`.
-/

/-- Is `(a, b)` one of the three host pairs of the six-host demo topology? -/
def sixPaired (a b : String) : Bool :=
  (a == "h1" && b == "h2") || (a == "h2" && b == "h1") ||
  (a == "h3" && b == "h4") || (a == "h4" && b == "h3") ||
  (a == "h5" && b == "h6") || (a == "h6" && b == "h5")

/-- The heralding station serving a host in the six-host demo topology. -/
def sixStation (a : String) : String :=
  if a == "h1" || a == "h2" then "qhsA"
  else if a == "h3" || a == "h4" then "qhsB"
  else "qhsC"

def envSix : Env where
  routes := fun a b => if sixPaired a b then some [a, sixStation a, b] else none
  egress := fun a b =>
    if a == "qhsA" && b == "h1" then some 0
    else if a == "qhsA" && b == "h2" then some 1
    else if a == "qhsB" && b == "h3" then some 0
    else if a == "qhsB" && b == "h4" then some 1
    else if a == "qhsC" && b == "h5" then some 0
    else if a == "qhsC" && b == "h6" then some 1
    else if b == sixStation a then some 0
    else none
  nodeType := fun a =>
    if a == "qhsA" || a == "qhsB" || a == "qhsC" then "heralding_station" else "host"
  ethaddr := fun a =>
    if a == "h1" then some 11 else if a == "h2" then some 12
    else if a == "h3" then some 13 else if a == "h4" then some 14
    else if a == "h5" then some 15 else if a == "h6" then some 16
    else if a == "qhsA" then some 21 else if a == "qhsB" then some 22 else some 23

/-- Process a point-to-point request message (full `__request_msg`). -/
def p2pRequest (m : RequestMsg) (s : P2PState) : Option P2PState :=
  requestMsgWith (reserveRelease envSix) m s

/-- Acknowledge the `k`-th recorded output (it must be a rule message),
echoing it back with handle `100 + k` as the agents do. -/
def ackOutput {σ : Type} (k : Nat) (s : CtrlState σ) : Option (CtrlState σ) :=
  match s.outputs.get? k with
  | some (OutMsg.rule _ m) => ruleMsg (ackEcho m (100 + k)) s
  | _ => none

/-- The point-to-point counterexample trace for the matching-symmetry frame
claim: circuit 0 between `h1`/`h2` is reserved, installed and acknowledged,
its release is requested and all removals are emitted; a second reservation
(circuit 1, `h3`/`h4`) is matched while circuit 0 is still releasing and
therefore stays queued; the removal acknowledgments then free circuit 0, with
the deferred `_reserve_release` event not yet delivered. -/
def c2Setup : Option P2PState :=
  some (initState ())
  |>.bind (p2pRequest ⟨QcpOp.OP_RSRV, "h1", "h2", 0⟩)
  |>.bind (p2pRequest ⟨QcpOp.OP_RSRV, "h2", "h1", 0⟩)
  |>.bind (ackOutput 0) |>.bind (ackOutput 1) |>.bind (ackOutput 2)
  |>.bind (ackOutput 3) |>.bind (ackOutput 4) |>.bind (ackOutput 5)
  |>.bind (p2pRequest ⟨QcpOp.OP_FREE, "h1", "h2", 0⟩)
  |>.bind (p2pRequest ⟨QcpOp.OP_FREE, "h2", "h1", 0⟩)
  |>.bind (p2pRequest ⟨QcpOp.OP_RSRV, "h3", "h4", 1⟩)
  |>.bind (p2pRequest ⟨QcpOp.OP_RSRV, "h4", "h3", 1⟩)
  |>.bind (ackOutput 8) |>.bind (ackOutput 9) |>.bind (ackOutput 10)
  |>.bind (ackOutput 11) |>.bind (ackOutput 12) |>.bind (ackOutput 13)

/-- The unmatched reservation processed on top of `c2Setup`: host `h5`
requests `h6`, which has sent nothing. -/
def c2After : Option P2PState :=
  c2Setup.bind (p2pRequest ⟨QcpOp.OP_RSRV, "h5", "h6", 2⟩)

/-- A mid-installation point-to-point state with a single outstanding install
acknowledgment for circuit `5` (concrete input for the transition theorems). -/
def c4s : P2PState :=
  { initState () with
      installing := [(5, ⟨5, ("h1", "h2")⟩)]
      handles := [(5, ⟨[], []⟩)]
      reserveMsgs := [(5, [7])] }

/-- The agent acknowledgment of that last outstanding table insert. -/
def c4m : RuleMsg :=
  ⟨5, "h1", 7, RuleAction.INSERT_TABLE_ENTRY,
    RulePayload.tableInsert "qcp" "verify" [] "forward" [] (some 3)⟩

/-- The state after that acknowledgment: circuit `5` has moved to `active`,
its new table handle is stored, and both hosts were notified. -/
def c4s' : P2PState :=
  { initState () with
      active := [(5, ⟨5, ("h1", "h2")⟩)]
      handles := [(5, ⟨[⟨"h1", "qcp", "verify", 3⟩], []⟩)]
      outputs := [OutMsg.request "h1" ⟨QcpOp.OP_RSRV, "h1", "h2", 5⟩,
                  OutMsg.request "h2" ⟨QcpOp.OP_RSRV, "h2", "h1", 5⟩] }

/-- A reachable point-to-point trace ending with circuit 0 (`h1`/`h2`)
active: the reservation is matched, admitted, and all six install rules are
acknowledged. -/
def c4Reach : Option P2PState :=
  some (initState ())
  |>.bind (p2pRequest ⟨QcpOp.OP_RSRV, "h1", "h2", 0⟩)
  |>.bind (p2pRequest ⟨QcpOp.OP_RSRV, "h2", "h1", 0⟩)
  |>.bind (ackOutput 0) |>.bind (ackOutput 1) |>.bind (ackOutput 2)
  |>.bind (ackOutput 3) |>.bind (ackOutput 4) |>.bind (ackOutput 5)

/-- The final state of that trace. -/
def c4act : P2PState := c4Reach.getD (initState ())

/-- The point-to-point ledger invariant: the in-flight maps have
duplicate-free keys, at most one circuit is installing or active, in-flight
install (release) acks belong to installing (active) circuits, idle and
releasing circuits hold no handles, and for every circuit the number of
install commands emitted equals its stored handles plus its outstanding
install acks plus the removal commands emitted. -/
structure LedgerInv (s : P2PState) : Prop where
  res_nodup : (keysA s.reserveMsgs).Nodup
  rel_nodup : (keysA s.releaseMsgs).Nodup
  excl : s.installing.length + s.active.length ≤ 1
  act_res : ∀ cid ∈ keysA s.active, rmGet s.reserveMsgs cid = []
  res_inst : ∀ cid, rmGet s.reserveMsgs cid ≠ [] → cid ∈ keysA s.installing
  rel_act : ∀ cid, rmGet s.releaseMsgs cid ≠ [] → cid ∈ keysA s.active
  idle_handles : ∀ cid, cid ∉ keysA s.installing → cid ∉ keysA s.active →
    handleCount s cid = 0
  rel_handles : ∀ cid, rmGet s.releaseMsgs cid ≠ [] → handleCount s cid = 0
  ledger : ∀ cid, insCount cid s.outputs =
    handleCount s cid + (rmGet s.reserveMsgs cid).length + remCount cid s.outputs

/-- A reachable point-to-point trace ending one acknowledgment short of
freeing circuit 0: reserve, install, acknowledge, free from both sides (six
removal commands emitted), then acknowledge five of the six removals. -/
def c5Reach : Option P2PState :=
  some (initState ())
  |>.bind (p2pRequest ⟨QcpOp.OP_RSRV, "h1", "h2", 0⟩)
  |>.bind (p2pRequest ⟨QcpOp.OP_RSRV, "h2", "h1", 0⟩)
  |>.bind (ackOutput 0) |>.bind (ackOutput 1) |>.bind (ackOutput 2)
  |>.bind (ackOutput 3) |>.bind (ackOutput 4) |>.bind (ackOutput 5)
  |>.bind (p2pRequest ⟨QcpOp.OP_FREE, "h1", "h2", 0⟩)
  |>.bind (p2pRequest ⟨QcpOp.OP_FREE, "h2", "h1", 0⟩)
  |>.bind (ackOutput 8) |>.bind (ackOutput 9) |>.bind (ackOutput 10)
  |>.bind (ackOutput 11) |>.bind (ackOutput 12)

/-- The final state of that trace: one outstanding removal ack (rule id 11). -/
def c5pre : P2PState := c5Reach.getD (initState ())

/-- The agent acknowledgment of that last outstanding destroy command. -/
def c5m : RuleMsg :=
  ⟨0, "qhsA", 11, RuleAction.DESTROY_BSM_GRP, RulePayload.bsmGrpDestroy 0⟩

/-- The state after that last acknowledgment: circuit 0 is freed. -/
def c5post : P2PState := (ruleMsg c5m c5pre).getD (initState ())

/-- A small state with one active circuit holding one table handle and one
BSM group handle (concrete input for the release-emission theorem). -/
def c5s : P2PState :=
  { initState () with
      active := [(0, ⟨0, ("h1", "h2")⟩)]
      handles := [(0, ⟨[⟨"h1", "qdevice", "t", 3⟩], [⟨"qhsA", 0⟩]⟩)] }

/-- The state after uninstalling that circuit's path. -/
def c5rel : P2PState := (uninstallPath p2pVariant 0 c5s).getD (initState ())

/-- The pending-map update of `__request_msg`: the request is recorded under
`(source, request_id)`. -/
def pendingUpd {σ : Type} (m : RequestMsg) (s : CtrlState σ) : CtrlState σ :=
  let inner := (lookupA s.pending m.source).getD []
  { s with pending := insertA s.pending m.source (insertA inner m.request_id m) }

/-- The final state of the `c2Setup` trace: circuit 0 freed, circuit 1
(`h3`/`h4`) matched and still queued, nothing installing or active. -/
def c2s : P2PState := c2Setup.getD (initState ())

/-- The state after the unmatched reservation `h5 → h6` is processed on top
of `c2s`. -/
def c2after : P2PState := c2After.getD (initState ())

/-- The state after the same unmatched reservation is processed on top of
`c4act` (circuit 0 active): here the full frame holds. -/
def c2full : P2PState :=
  (p2pRequest ⟨QcpOp.OP_RSRV, "h5", "h6", 2⟩ c4act).getD (initState ())

/-- Adjacency in the undirected graph. -/
def edgeMem (edges : List (String × String)) (a b : String) : Bool :=
  edges.any (fun e => (decide (e.1 = a) && decide (e.2 = b)) ||
    (decide (e.1 = b) && decide (e.2 = a)))

/-- The neighbours of a vertex. -/
def nbrs (edges : List (String × String)) (v : String) : List String :=
  edges.foldr (fun e acc =>
    if e.1 = v then e.2 :: acc else if e.2 = v then e.1 :: acc else acc) []

/-- `p` is a walk from `src` to `dst` along graph edges. -/
def IsPathFrom (edges : List (String × String)) (src dst : String)
    (p : List String) : Prop :=
  p.head? = some src ∧ p.getLast? = some dst ∧
  List.Chain' (fun a b => edgeMem edges a b = true) p

/-- Visit one neighbour `w`: settle it with path `pv ++ [w]` unless already
settled. -/
def bfsVisit (pv : List String) (acc : List (String × List String)) (w : String) :
    List (String × List String) :=
  if (lookupA acc w).isSome then acc else insertA acc w (pv ++ [w])

/-- Process one settled entry: visit all its neighbours. -/
def bfsProcess (edges : List (String × String)) (acc : List (String × List String))
    (e : String × List String) : List (String × List String) :=
  (nbrs edges e.1).foldl (bfsVisit e.2) acc

/-- One breadth-first round: every unsettled neighbour of a settled vertex is
settled with the extended path. -/
def bfsExtend (edges : List (String × String)) (cur : List (String × List String)) :
    List (String × List String) :=
  cur.foldl (bfsProcess edges) cur

def bfsIter (edges : List (String × String)) :
    Nat → List (String × List String) → List (String × List String)
  | 0, cur => cur
  | n + 1, cur => bfsIter edges n (bfsExtend edges cur)

/-- Single-source shortest paths by saturated breadth-first search. -/
def bfsFrom (edges : List (String × String)) (fuel : Nat) (src : String) :
    List (String × List String) :=
  bfsIter edges fuel [(src, [src])]

/-- The `Routing` instance attributes: `__nodes`, the graph vertex set, the
graph edges, `__links`, `__ports` and the cached `__routes`. -/
structure RoutingState where
  nodes : List String
  gnodes : List String
  edges : List (String × String)
  links : List (String × List (String × Nat))
  ports : List (String × List (Nat × String))
  routes : Option (List (String × List (String × List String)))
deriving DecidableEq, Repr

def initRouting : RoutingState := ⟨[], [], [], [], [], none⟩

/-- `Routing.__add_node`. -/
def addNodeR (name : String) (s : RoutingState) : RoutingState :=
  { s with
      nodes := s.nodes ++ [name]
      gnodes := addHost s.gnodes name
      links := insertA s.links name
        (insertA ((lookupA s.links name).getD []) name 0) }

/-- `Routing.connect_quantum`. -/
def connectQuantumR (c1 : String) (p1 : Nat) (c2 : String) (p2 : Nat)
    (s : RoutingState) : RoutingState :=
  let l1 := insertA s.links c1 (insertA ((lookupA s.links c1).getD []) c2 p1)
  let l2 := insertA l1 c2 (insertA ((lookupA l1 c2).getD []) c1 p2)
  let q1 := insertA s.ports c1 (insertA ((lookupA s.ports c1).getD []) p1 c2)
  let q2 := insertA q1 c2 (insertA ((lookupA q1 c2).getD []) p2 c1)
  { s with
      gnodes := addHost (addHost s.gnodes c1) c2
      edges := s.edges ++ [(c1, c2)]
      links := l2
      ports := q2 }

/-- `Routing.compute_routes`. -/
def routesTable (s : RoutingState) : List (String × List (String × List String)) :=
  s.gnodes.map (fun src => (src, bfsFrom s.edges s.gnodes.length src))

def computeRoutesR (s : RoutingState) : RoutingState :=
  { s with routes := some (routesTable s) }

/-- The graph-building calls of the `Routing` class. -/
inductive ROp
  | addRouter (name : String)
  | addRepeater (name : String)
  | addHeraldingStation (name : String)
  | addHostR (name : String)
  | connectQuantum (c1 : String) (p1 : Nat) (c2 : String) (p2 : Nat)
deriving DecidableEq, Repr

def applyROp (s : RoutingState) : ROp → RoutingState
  | ROp.addRouter n => addNodeR n s
  | ROp.addRepeater n => addNodeR n s
  | ROp.addHeraldingStation n => addNodeR n s
  | ROp.addHostR n => addNodeR n s
  | ROp.connectQuantum c1 p1 c2 p2 => connectQuantumR c1 p1 c2 p2 s

def applyROps (ops : List ROp) : RoutingState := ops.foldl applyROp initRouting

/-- `Routing.egress`: `none` models a crash (`__routes` unset or a
`KeyError`), `some none` the explicit `None` ("no route") return, and
`some (some port)` the returned egress port. -/
def egressR (s : RoutingState) (src dst : String) : Option (Option Nat) :=
  match s.routes with
  | none => none
  | some rt =>
    match lookupA rt src with
    | none => none
    | some srcRoutes =>
      match lookupA srcRoutes dst with
      | none => some none
      | some route =>
        match route.get? (if 1 < route.length then 1 else 0) with
        | none => none
        | some nh =>
          match lookupA ((lookupA s.links src).getD []) nh with
          | none => none
          | some port => some (some port)

/-- The breadth-first invariant after `n` rounds: the settled map has
duplicate-free keys, every settled vertex carries a genuine shortest path
from the source of length at most `n + 1`, and every vertex with a path of
length at most `n + 1` is settled. -/
structure BfsInv (edges : List (String × String)) (src : String) (n : Nat)
    (M : List (String × List String)) : Prop where
  nodup : (keysA M).Nodup
  sound : ∀ w p, lookupA M w = some p →
    IsPathFrom edges src w p ∧ p.length ≤ n + 1 ∧
    ∀ q, IsPathFrom edges src w q → p.length ≤ q.length
  complete : ∀ w q, IsPathFrom edges src w q → q.length ≤ n + 1 →
    (lookupA M w).isSome

/-- The routing well-formedness invariant maintained by the graph-building
calls. -/
structure RWF (s : RoutingState) : Prop where
  nodes_sub : ∀ n ∈ s.nodes, n ∈ s.gnodes
  edges_sub : ∀ e ∈ s.edges, e.1 ∈ s.gnodes ∧ e.2 ∈ s.gnodes
  self_link : ∀ n ∈ s.nodes, (lookupA ((lookupA s.links n).getD []) n).isSome
  edge_link : ∀ a b, edgeMem s.edges a b = true →
    (lookupA ((lookupA s.links a).getD []) b).isSome

/-- The concrete routing build used as witness input: two hosts joined
through a router, plus an isolated host `h9`. -/
def c7ops : List ROp :=
  [ROp.addHostR "h1", ROp.addHostR "h2", ROp.addRouter "r1", ROp.addHostR "h9",
   ROp.connectQuantum "h1" 0 "r1" 0, ROp.connectQuantum "r1" 1 "h2" 0]

def c7base : RoutingState := applyROps c7ops

def c7r : RoutingState := computeRoutesR c7base

end V1Q

namespace V1Q

section AssocListLemmas

variable {α : Type} {β : Type} [DecidableEq α]

@[simp] theorem keysA_nil : keysA ([] : List (α × β)) = [] := rfl

@[simp] theorem keysA_cons (p : α × β) (l : List (α × β)) :
    keysA (p :: l) = p.1 :: keysA l := rfl

theorem keysA_append (l t : List (α × β)) : keysA (l ++ t) = keysA l ++ keysA t := by
  simp [keysA]

theorem lookupA_isSome_iff_mem_keysA (l : List (α × β)) (k : α) :
    (lookupA l k).isSome ↔ k ∈ keysA l := by
  induction l with
  | nil => simp [lookupA]
  | cons p rest ih =>
    obtain ⟨k', v'⟩ := p
    by_cases h : k' = k
    · subst h; simp [lookupA]
    · simp [lookupA, h, ih, Ne.symm h]

theorem lookupA_eq_none_iff_not_mem (l : List (α × β)) (k : α) :
    lookupA l k = none ↔ k ∉ keysA l := by
  rw [← lookupA_isSome_iff_mem_keysA]
  cases lookupA l k <;> simp

theorem lookupA_insertA_self (l : List (α × β)) (k : α) (v : β) :
    lookupA (insertA l k v) k = some v := by
  induction l with
  | nil => simp [insertA, lookupA]
  | cons p rest ih =>
    obtain ⟨k', v'⟩ := p
    by_cases h : k' = k <;> simp [insertA, lookupA, h, ih]

theorem lookupA_insertA_ne (l : List (α × β)) (k k₀ : α) (v : β) (h : k₀ ≠ k) :
    lookupA (insertA l k v) k₀ = lookupA l k₀ := by
  induction l with
  | nil => simp [insertA, lookupA, Ne.symm h]
  | cons p rest ih =>
    obtain ⟨k', v'⟩ := p
    by_cases hk : k' = k
    · subst hk
      simp [insertA, lookupA, Ne.symm h]
    · by_cases hk0 : k' = k₀ <;> simp [insertA, lookupA, hk, hk0, h, ih]

theorem lookupA_eraseA_ne (l : List (α × β)) (k k₀ : α) (h : k₀ ≠ k) :
    lookupA (eraseA l k) k₀ = lookupA l k₀ := by
  induction l with
  | nil => simp [eraseA]
  | cons p rest ih =>
    obtain ⟨k', v'⟩ := p
    by_cases hk : k' = k
    · subst hk
      simp [eraseA, lookupA, Ne.symm h]
    · by_cases hk0 : k' = k₀ <;> simp [eraseA, lookupA, hk, hk0, h, ih]

theorem lookupA_eraseA_self (l : List (α × β)) (k : α) (h : (keysA l).Nodup) :
    lookupA (eraseA l k) k = none := by
  induction l with
  | nil => simp [eraseA, lookupA]
  | cons p rest ih =>
    obtain ⟨k', v'⟩ := p
    simp only [keysA_cons, List.nodup_cons] at h
    by_cases hk : k' = k
    · subst hk
      simp only [eraseA, if_pos rfl]
      rw [lookupA_eq_none_iff_not_mem]
      exact h.1
    · simp [eraseA, lookupA, hk, ih h.2]

theorem keysA_insertA_mem (l : List (α × β)) (k : α) (v : β) (h : k ∈ keysA l) :
    keysA (insertA l k v) = keysA l := by
  induction l with
  | nil => simp at h
  | cons p rest ih =>
    obtain ⟨k', v'⟩ := p
    by_cases hk : k' = k
    · simp [insertA, hk]
    · have h' : k ∈ keysA rest := by
        simp only [keysA_cons, List.mem_cons] at h
        exact h.resolve_left (fun he => hk (Eq.symm he))
      simp [insertA, hk, ih h']

theorem keysA_insertA_not_mem (l : List (α × β)) (k : α) (v : β) (h : k ∉ keysA l) :
    keysA (insertA l k v) = keysA l ++ [k] := by
  induction l with
  | nil => simp [insertA]
  | cons p rest ih =>
    obtain ⟨k', v'⟩ := p
    simp only [keysA_cons, List.mem_cons] at h
    push_neg at h
    simp [insertA, Ne.symm h.1, ih h.2]

theorem length_insertA_mem (l : List (α × β)) (k : α) (v : β) (h : k ∈ keysA l) :
    (insertA l k v).length = l.length := by
  induction l with
  | nil => simp at h
  | cons p rest ih =>
    obtain ⟨k', v'⟩ := p
    by_cases hk : k' = k
    · simp [insertA, hk]
    · have h' : k ∈ keysA rest := by
        simp only [keysA_cons, List.mem_cons] at h
        exact h.resolve_left (fun he => hk (Eq.symm he))
      simp [insertA, hk, ih h']

theorem length_insertA_not_mem (l : List (α × β)) (k : α) (v : β) (h : k ∉ keysA l) :
    (insertA l k v).length = l.length + 1 := by
  induction l with
  | nil => simp [insertA]
  | cons p rest ih =>
    obtain ⟨k', v'⟩ := p
    simp only [keysA_cons, List.mem_cons] at h
    push_neg at h
    simp [insertA, Ne.symm h.1, ih h.2]

theorem length_eraseA_mem (l : List (α × β)) (k : α) (h : k ∈ keysA l) :
    (eraseA l k).length + 1 = l.length := by
  induction l with
  | nil => simp at h
  | cons p rest ih =>
    obtain ⟨k', v'⟩ := p
    by_cases hk : k' = k
    · simp [eraseA, hk]
    · have h' : k ∈ keysA rest := by
        simp only [keysA_cons, List.mem_cons] at h
        exact h.resolve_left (fun he => hk (Eq.symm he))
      simp [eraseA, hk, ih h']

theorem length_eraseA_not_mem (l : List (α × β)) (k : α) (h : k ∉ keysA l) :
    (eraseA l k).length = l.length := by
  induction l with
  | nil => simp [eraseA]
  | cons p rest ih =>
    obtain ⟨k', v'⟩ := p
    simp only [keysA_cons, List.mem_cons] at h
    push_neg at h
    simp [eraseA, Ne.symm h.1, ih h.2]

theorem keysA_eraseA_subset (l : List (α × β)) (k : α) :
    ∀ x ∈ keysA (eraseA l k), x ∈ keysA l := by
  induction l with
  | nil => simp [eraseA]
  | cons p rest ih =>
    obtain ⟨k', v'⟩ := p
    intro x hx
    by_cases hk : k' = k
    · simp only [eraseA, if_pos hk] at hx
      exact List.mem_cons_of_mem _ hx
    · simp only [eraseA, if_neg hk, keysA_cons, List.mem_cons] at hx ⊢
      exact hx.imp id (ih x)

theorem nodup_keysA_insertA (l : List (α × β)) (k : α) (v : β)
    (h : (keysA l).Nodup) : (keysA (insertA l k v)).Nodup := by
  by_cases hm : k ∈ keysA l
  · rw [keysA_insertA_mem l k v hm]; exact h
  · rw [keysA_insertA_not_mem l k v hm]
    refine List.Nodup.append h (by simp) ?_
    intro a ha hb
    simp only [List.mem_singleton] at hb
    exact hm (hb ▸ ha)

theorem nodup_keysA_eraseA (l : List (α × β)) (k : α)
    (h : (keysA l).Nodup) : (keysA (eraseA l k)).Nodup := by
  induction l with
  | nil => simpa [eraseA] using h
  | cons p rest ih =>
    obtain ⟨k', v'⟩ := p
    simp only [keysA_cons, List.nodup_cons] at h
    by_cases hk : k' = k
    · simpa [eraseA, hk] using h.2
    · simp only [eraseA, if_neg hk, keysA_cons, List.nodup_cons]
      exact ⟨fun hc => h.1 (keysA_eraseA_subset rest k _ hc), ih h.2⟩

theorem mem_keysA_eraseA_of_ne (l : List (α × β)) (k k₀ : α) (h : k₀ ≠ k)
    (hm : k₀ ∈ keysA l) : k₀ ∈ keysA (eraseA l k) := by
  rw [← lookupA_isSome_iff_mem_keysA] at hm ⊢
  rwa [lookupA_eraseA_ne l k k₀ h]

theorem lookupA_append_left (l t : List (α × β)) (k : α) (h : (lookupA l k).isSome) :
    lookupA (l ++ t) k = lookupA l k := by
  induction l with
  | nil => simp [lookupA] at h
  | cons p rest ih =>
    obtain ⟨k', v'⟩ := p
    by_cases hk : k' = k
    · simp [lookupA, List.cons_append, hk]
    · simp only [lookupA, if_neg hk] at h
      simp [lookupA, List.cons_append, hk, ih h]

end AssocListLemmas

end V1Q

namespace V1Q

/-!
## Easy claims: backoff (C8), heralding broadcast (C9), notification swap (C10)
-/

/-- C8.  Handshake exponential backoff: when the handshake reply reports
`remote_ready` false, the request is re-enqueued after
`2 ^ min(attempts - 1, 3) * (1 + jitter) * rtt`, where `rtt` is the elapsed
time since this handshake was sent, `attempts` counts the handshake sends made
so far for the request, the exponent is capped at `3`, and for jitter drawn
from `[0, 1)` the delay lies in `[base * rtt, 2 * base * rtt)` with
`base = 2 ^ min(attempts - 1, 3)`. -/
theorem handshake_exponential_backoff (r : HandshakeReqState) (jitter now : ℚ)
    (hj0 : 0 ≤ jitter) (hj1 : jitter < 1) :
    processLocalOriginHandshake false r jitter now =
      HandshakeOutcome.reattempt
        ((2 ^ min (r.handshake_attempts - 1) 3) * (1 + jitter) * (now - r.sendTime)) ∧
    (sendLocalOriginHandshake r now).handshake_attempts = r.handshake_attempts + 1 ∧
    ((2 : ℚ) ^ min (r.handshake_attempts - 1) 3 ≤ 2 ^ 3) ∧
    (4 ≤ r.handshake_attempts → (2 : ℚ) ^ min (r.handshake_attempts - 1) 3 = 8) ∧
    (0 ≤ now - r.sendTime →
      (2 ^ min (r.handshake_attempts - 1) 3) * (now - r.sendTime) ≤
        (2 ^ min (r.handshake_attempts - 1) 3) * (1 + jitter) * (now - r.sendTime) ∧
      (2 ^ min (r.handshake_attempts - 1) 3) * (1 + jitter) * (now - r.sendTime) ≤
        2 * ((2 ^ min (r.handshake_attempts - 1) 3) * (now - r.sendTime))) ∧
    processLocalOriginHandshake true r jitter now = HandshakeOutcome.remoteReady := by
  refine ⟨rfl, rfl, ?_, ?_, ?_, rfl⟩
  · exact pow_le_pow_right₀ (by norm_num) (min_le_right _ _)
  · intro h4
    have : min (r.handshake_attempts - 1) 3 = 3 := by omega
    rw [this]; norm_num
  · intro hrtt
    have hbase : (0 : ℚ) ≤ 2 ^ min (r.handshake_attempts - 1) 3 := by positivity
    constructor
    · nlinarith [mul_nonneg (mul_nonneg hbase hrtt) hj0]
    · nlinarith [mul_nonneg (mul_nonneg hbase hrtt) (by linarith : (0 : ℚ) ≤ 1 - jitter)]

/-- C8 witness. -/
theorem handshake_exponential_backoff_witness :
    processLocalOriginHandshake false ⟨5, 2⟩ (1/2) 4 =
      HandshakeOutcome.reattempt 24 := by
  have h := handshake_exponential_backoff ⟨5, 2⟩ (1/2) 4 (by norm_num) (by norm_num)
  rw [h.1]
  norm_num [min_eq_right]

/-- C9.  Heralding outcome broadcast: on every detector event in the
monitoring phase the station constructs one `BsmOutcome` from the unit id,
the success flag and the converted Bell index, sends that same outcome to
both classical link endpoints, notifies the local P4 layer of the heralding
event even when the outcome is a failure, and leaves the monitoring loop
(returning to waiting for both ready messages) exactly on success. -/
theorem heralding_outcome_broadcast (bsm_id : Nat) (cv : Nat → Option Nat)
    (success : Bool) (nsbi : Nat) :
    ∃ phase' outs oc, hsStep bsm_id cv HSPhase.monitoring (HSEvent.detector success nsbi) =
        some (phase', outs) ∧
      oc = BsmOutcome.mk bsm_id success (cv nsbi) ∧
      outs = [HSOut.cl0 (PhysMsg.bsmOutcome oc), HSOut.cl1 (PhysMsg.bsmOutcome oc),
        HSOut.p4HeraldingBsmOutcome oc] ∧
      (HSOut.p4HeraldingBsmOutcome oc ∈ outs) ∧
      (phase' = HSPhase.monitoring ↔ success = false) ∧
      (success = true → phase' = HSPhase.awaitReady false false) := by
  refine ⟨_, _, _, rfl, rfl, rfl, by simp, ?_, ?_⟩
  · cases success <;> simp [hsStep]
  · intro h; subst h; simp

/-- C10.  Notification field swap: `_notify` sends the message unchanged to
the port of the host named in its `source` field, and a copy with `source`
and `remote` swapped to the other host's port, so that each receiving host
sees its own name in `source` and the peer in `remote`. -/
theorem notify_field_swap (m : RequestMsg) :
    notifyOut m = [OutMsg.request m.source m,
      OutMsg.request m.remote ⟨m.msg_type, m.remote, m.source, m.request_id⟩] ∧
    (∀ port msg, OutMsg.request port msg ∈ notifyOut m →
      msg.source = port ∧ msg.msg_type = m.msg_type ∧ msg.request_id = m.request_id ∧
      ((port = m.source ∧ msg.remote = m.remote) ∨
       (port = m.remote ∧ msg.remote = m.source))) := by
  constructor
  · rfl
  · intro port msg hmem
    simp only [notifyOut, List.mem_cons, List.mem_singleton, List.not_mem_nil, or_false] at hmem
    rcases hmem with h | h <;> cases h <;> simp

end V1Q

namespace V1Q

/-!
## Effects of rule installation
-/

theorem emitsInstall_rfl {σ : Type} (cid : Nat) (s : CtrlState σ) : EmitsInstall cid s s := by
  refine ⟨rfl, rfl, rfl, rfl, rfl, rfl, rfl, le_refl _, ⟨[], by simp, by simp, ?_⟩, ?_,
    fun c _ => rfl, fun h => h⟩
  · simp [ruleIds]
  · simp

theorem emitsInstall_trans {σ : Type} {cid : Nat} {s₁ s₂ s₃ : CtrlState σ}
    (h₁ : EmitsInstall cid s₁ s₂) (h₂ : EmitsInstall cid s₂ s₃) : EmitsInstall cid s₁ s₃ := by
  obtain ⟨t₁, ho₁, hall₁, hid₁⟩ := h₁.outputs
  obtain ⟨t₂, ho₂, hall₂, hid₂⟩ := h₂.outputs
  have hle₁ := h₁.le
  have hle₂ := h₂.le
  have hranges : List.range' s₁.nextRuleId (s₂.nextRuleId - s₁.nextRuleId) ++
      List.range' s₂.nextRuleId (s₃.nextRuleId - s₂.nextRuleId) =
      List.range' s₁.nextRuleId (s₃.nextRuleId - s₁.nextRuleId) := by
    have := List.range'_append s₁.nextRuleId (s₂.nextRuleId - s₁.nextRuleId)
      (s₃.nextRuleId - s₂.nextRuleId) 1
    rw [one_mul] at this
    have he : s₁.nextRuleId + (s₂.nextRuleId - s₁.nextRuleId) = s₂.nextRuleId := by omega
    rw [he] at this
    rw [this]
    congr 1
    omega
  refine ⟨h₂.pending.trans h₁.pending, h₂.reserveQueue.trans h₁.reserveQueue,
    h₂.releaseQueue.trans h₁.releaseQueue, h₂.installing.trans h₁.installing,
    h₂.active.trans h₁.active, h₂.releaseMsgs.trans h₁.releaseMsgs,
    h₂.handles.trans h₁.handles, le_trans hle₁ hle₂, ?_, ?_, ?_,
    fun h => h₂.rm_nodup (h₁.rm_nodup h)⟩
  · refine ⟨t₁ ++ t₂, by rw [ho₂, ho₁, List.append_assoc], ?_, ?_⟩
    · intro o ho
      rcases List.mem_append.mp ho with h | h
      · exact hall₁ o h
      · exact hall₂ o h
    · show ruleIds (t₁ ++ t₂) = _
      rw [ruleIds, List.filterMap_append, ← ruleIds, ← ruleIds, hid₁, hid₂, hranges]
  · rw [h₂.rm_cid, h₁.rm_cid, List.append_assoc, hranges]
  · intro c hc
    rw [h₂.rm_other c hc, h₁.rm_other c hc]

theorem emitsInstall_emit {σ : Type} (cid : Nat) (s : CtrlState σ) (node : String)
    (action : RuleAction) (payload : RulePayload)
    (ha : action = RuleAction.INSERT_TABLE_ENTRY ∨ action = RuleAction.CREATE_BSM_GRP) :
    EmitsInstall cid s (emitReserveRule s cid node action payload) := by
  refine ⟨rfl, rfl, rfl, rfl, rfl, rfl, rfl, by simp [emitReserveRule], ?_, ?_, ?_,
    fun h => nodup_keysA_insertA _ _ _ h⟩
  · refine ⟨[OutMsg.rule node ⟨cid, node, s.nextRuleId, action, payload⟩], rfl, ?_, ?_⟩
    · intro o ho
      simp only [List.mem_singleton] at ho
      subst ho
      rcases ha with h | h <;> simp [isInstallRuleFor, h]
    · show ruleIds _ = List.range' s.nextRuleId ((emitReserveRule s cid node action payload).nextRuleId - s.nextRuleId)
      simp [ruleIds, emitReserveRule]
  · show rmGet (insertA s.reserveMsgs cid (rmGet s.reserveMsgs cid ++ [s.nextRuleId])) cid = _
    rw [rmGet, lookupA_insertA_self]
    simp [emitReserveRule]
  · intro c hc
    show lookupA (insertA s.reserveMsgs cid (rmGet s.reserveMsgs cid ++ [s.nextRuleId])) c = _
    exact lookupA_insertA_ne _ _ _ _ hc

theorem emitsInstall_setExt {σ : Type} (cid : Nat) (s : CtrlState σ) (e : σ) :
    EmitsInstall cid s { s with ext := e } := by
  refine ⟨rfl, rfl, rfl, rfl, rfl, rfl, rfl, le_refl _, ⟨[], by simp, by simp, ?_⟩, ?_,
    fun c _ => rfl, fun h => h⟩
  · simp [ruleIds]
  · simp

theorem installPathNode_emits {σ : Type} {env : Env} {cid : Nat} {route : List String}
    {n_i label : Nat} {s s' : CtrlState σ}
    (h : installPathNode env cid route n_i label s = some s') : EmitsInstall cid s s' := by
  simp only [installPathNode] at h
  split at h
  · exact Option.noConfusion h
  · split at h
    · exact Option.noConfusion h
    · split at h
      · exact Option.noConfusion h
      · cases h
        exact emitsInstall_trans
          (emitsInstall_emit cid s _ _ _ (Or.inl rfl))
          (emitsInstall_emit cid _ _ _ _ (Or.inl rfl))

theorem installPathHeraldingStation_emits {σ : Type} {V : Variant σ} {env : Env}
    {cid : Nat} {route : List String} {n_i label : Nat} {s s' : CtrlState σ}
    (h : installPathHeraldingStation V env cid route n_i label s = some s') :
    EmitsInstall cid s s' := by
  simp only [installPathHeraldingStation] at h
  split at h
  · exact Option.noConfusion h
  · split at h
    · split at h
      · exact Option.noConfusion h
      · cases h
        exact emitsInstall_trans (emitsInstall_setExt cid s _)
          (emitsInstall_trans
            (emitsInstall_emit cid _ _ _ _ (Or.inr rfl))
            (emitsInstall_emit cid _ _ _ _ (Or.inl rfl)))
    · exact Option.noConfusion h

theorem installRouterDir_emits {σ : Type} (cid : Nat) (node : String)
    (port other_port : Option Nat) (lbl other_lbl : Nat) (addr : Nat) (s : CtrlState σ) :
    EmitsInstall cid s (installRouterDir cid node port other_port lbl other_lbl addr s) := by
  unfold installRouterDir
  exact emitsInstall_trans (emitsInstall_emit cid s node _ _ (Or.inl rfl))
    (emitsInstall_trans (emitsInstall_emit cid _ node _ _ (Or.inl rfl))
      (emitsInstall_emit cid _ node _ _ (Or.inl rfl)))

theorem installPathRouter_emits {σ : Type} {env : Env} {cid : Nat} {route : List String}
    {n_i lbl_l lbl_r : Nat} {s s' : CtrlState σ}
    (h : installPathRouter env cid route n_i lbl_l lbl_r s = some s') :
    EmitsInstall cid s s' := by
  simp only [installPathRouter] at h
  split at h
  · exact Option.noConfusion h
  · split at h
    · split at h
      · exact Option.noConfusion h
      · split at h
        · exact Option.noConfusion h
        · cases h
          exact emitsInstall_trans (emitsInstall_emit cid s _ _ _ (Or.inr rfl))
            (emitsInstall_trans (installRouterDir_emits cid _ _ _ _ _ _ _)
              (installRouterDir_emits cid _ _ _ _ _ _ _))
    · exact Option.noConfusion h

theorem installLoop_emits {σ : Type} {V : Variant σ} {env : Env} {cid : Nat}
    {route : List String} :
    ∀ {idxs : List Nat} {label : Nat} {s s' : CtrlState σ},
    installLoop V env cid route idxs label s = some s' → EmitsInstall cid s s' := by
  intro idxs
  induction idxs with
  | nil =>
    intro label s s' h
    simp only [installLoop, Option.some_inj] at h
    subst h
    exact emitsInstall_rfl cid s
  | cons n_i rest ih =>
    intro label s s' h
    simp only [installLoop] at h
    split at h
    · exact Option.noConfusion h
    · split at h
      · exact Option.noConfusion h
      case _ s₁ heq1 =>
        have e₁ : EmitsInstall cid s s₁ := by
          split at heq1
          · split at heq1
            · exact installPathNode_emits heq1
            · exact Option.noConfusion heq1
          · cases heq1; exact emitsInstall_rfl cid _
        split at h
        · exact Option.noConfusion h
        case _ s₂ heq2 =>
          have e₂ : EmitsInstall cid s₁ s₂ := by
            split at heq2
            · split at heq2
              · exact installPathHeraldingStation_emits heq2
              · exact Option.noConfusion heq2
            · cases heq2; exact emitsInstall_rfl cid _
          split at h
          · split at h
            · split at h
              · exact Option.noConfusion h
              case _ s₃ heq3 =>
                exact emitsInstall_trans e₁ (emitsInstall_trans e₂
                  (emitsInstall_trans (installPathRouter_emits heq3) (ih h)))
            · exact Option.noConfusion h
          · exact emitsInstall_trans e₁ (emitsInstall_trans e₂ (ih h))

/-- `__install_path` resets the circuit's handle store and then only emits
installation rules for the circuit. -/
theorem installPath_spec {σ : Type} {V : Variant σ} {env : Env} {cid : Nat}
    {src dst : String} {s s' : CtrlState σ}
    (h : installPath V env cid src dst s = some s') :
    ∃ route, env.routes src dst = some route ∧ 3 ≤ route.length ∧ route.length % 2 = 1 ∧
      EmitsInstall cid { s with handles := insertA s.handles cid ⟨[], []⟩ } s' := by
  simp only [installPath] at h
  split at h
  · exact Option.noConfusion h
  case _ route hr =>
    split at h
    case isTrue hlen => exact ⟨route, hr, hlen.1, hlen.2, installLoop_emits h⟩
    case isFalse => exact Option.noConfusion h

/-- `_reserve`: the circuit must be neither installing nor active; it is
inserted into the installing map (with its sorted host pair), its handle
store is reset, and the path installation rules are emitted. -/
theorem reserveOp_spec {σ : Type} {V : Variant σ} {env : Env} {m : RequestMsg}
    {s s' : CtrlState σ} (h : reserveOp V env m s = some s') :
    lookupA s.installing m.request_id = none ∧
    lookupA s.active m.request_id = none ∧
    EmitsInstall m.request_id
      { s with
        installing :=
          insertA s.installing m.request_id ⟨m.request_id, sortPair m.source m.remote⟩
        handles := insertA s.handles m.request_id ⟨[], []⟩ } s' := by
  unfold reserveOp at h
  by_cases hi : (lookupA s.installing m.request_id).isSome
  case pos => rw [if_pos hi] at h; exact absurd h (by simp)
  case neg =>
    rw [if_neg hi] at h
    by_cases ha : (lookupA s.active m.request_id).isSome
    case pos => rw [if_pos ha] at h; exact absurd h (by simp)
    case neg =>
      rw [if_neg ha] at h
      obtain ⟨route, _, _, _, he⟩ := installPath_spec h
      refine ⟨Option.not_isSome_iff_eq_none.mp hi, Option.not_isSome_iff_eq_none.mp ha, he⟩

end V1Q

namespace V1Q

/-!
## Effects of rule removal (`__uninstall_path`)
-/

theorem releaseFrame_rfl {σ : Type} (s : CtrlState σ) : ReleaseFrame s s :=
  ⟨rfl, rfl, rfl, rfl, rfl, rfl, rfl⟩

theorem releaseFrame_trans {σ : Type} {s₁ s₂ s₃ : CtrlState σ}
    (h₁ : ReleaseFrame s₁ s₂) (h₂ : ReleaseFrame s₂ s₃) : ReleaseFrame s₁ s₃ :=
  ⟨h₂.pending.trans h₁.pending, h₂.reserveQueue.trans h₁.reserveQueue,
   h₂.releaseQueue.trans h₁.releaseQueue, h₂.installing.trans h₁.installing,
   h₂.active.trans h₁.active, h₂.reserveMsgs.trans h₁.reserveMsgs,
   h₂.handles.trans h₁.handles⟩

theorem uninstallTables_spec {σ : Type} (cid : Nat) :
    ∀ (ths : List TableHandle) (s : CtrlState σ),
    ReleaseFrame s (uninstallTables cid ths s) ∧
    (uninstallTables cid ths s).ext = s.ext ∧
    (uninstallTables cid ths s).nextRuleId = s.nextRuleId + ths.length ∧
    (uninstallTables cid ths s).outputs = s.outputs ++ tableRemovalMsgs cid s.nextRuleId ths ∧
    rmGet (uninstallTables cid ths s).releaseMsgs cid =
      rmGet s.releaseMsgs cid ++ List.range' s.nextRuleId ths.length ∧
    (∀ c, c ≠ cid →
      lookupA (uninstallTables cid ths s).releaseMsgs c = lookupA s.releaseMsgs c) := by
  intro ths
  induction ths with
  | nil =>
    intro s
    refine ⟨releaseFrame_rfl s, rfl, by simp [uninstallTables], ?_, ?_, fun c _ => rfl⟩
    · simp [uninstallTables, tableRemovalMsgs]
    · simp [uninstallTables]
  | cons th rest ih =>
    intro s
    set s₁ := emitReleaseRule s cid th.node RuleAction.REMOVE_TABLE_ENTRY
      (RulePayload.tableRemove th.block th.table th.handle) with hs₁
    obtain ⟨hf, hext, hnr, hout, hcid, hoth⟩ := ih s₁
    have hfr₁ : ReleaseFrame s s₁ := ⟨rfl, rfl, rfl, rfl, rfl, rfl, rfl⟩
    have hnr₁ : s₁.nextRuleId = s.nextRuleId + 1 := rfl
    refine ⟨releaseFrame_trans hfr₁ hf, hext, ?_, ?_, ?_, ?_⟩
    · show (uninstallTables cid rest s₁).nextRuleId = _
      rw [hnr, hnr₁]
      simp [List.length_cons]
      omega
    · show (uninstallTables cid rest s₁).outputs = _
      rw [hout, hnr₁]
      show s.outputs ++ _ ++ _ = _
      rw [List.append_assoc]
      rfl
    · show rmGet (uninstallTables cid rest s₁).releaseMsgs cid = _
      rw [hcid, hnr₁]
      have : rmGet s₁.releaseMsgs cid = rmGet s.releaseMsgs cid ++ [s.nextRuleId] := by
        show rmGet (insertA s.releaseMsgs cid (rmGet s.releaseMsgs cid ++ [s.nextRuleId])) cid = _
        rw [rmGet, lookupA_insertA_self]
        rfl
      rw [this, List.append_assoc]
      rfl
    · intro c hc
      show lookupA (uninstallTables cid rest s₁).releaseMsgs c = _
      rw [hoth c hc]
      show lookupA (insertA s.releaseMsgs cid (rmGet s.releaseMsgs cid ++ [s.nextRuleId])) c = _
      exact lookupA_insertA_ne _ _ _ _ hc

theorem uninstallBsmGrps_spec {σ : Type} {V : Variant σ} (cid : Nat) (tnode : String) :
    ∀ (bhs : List BsmGrpHandle) (s s' : CtrlState σ),
    uninstallBsmGrps V cid tnode bhs s = some s' →
    ReleaseFrame s s' ∧
    s'.nextRuleId = s.nextRuleId + bhs.length ∧
    s'.outputs = s.outputs ++ destroyMsgs cid s.nextRuleId bhs ∧
    rmGet s'.releaseMsgs cid = rmGet s.releaseMsgs cid ++ List.range' s.nextRuleId bhs.length ∧
    (∀ c, c ≠ cid → lookupA s'.releaseMsgs c = lookupA s.releaseMsgs c) ∧
    RelExt V tnode (bhs.map (fun bh => bh.bsm_grp_id)) s.ext s'.ext := by
  intro bhs
  induction bhs with
  | nil =>
    intro s s' h
    simp only [uninstallBsmGrps, Option.some_inj] at h
    subst h
    refine ⟨releaseFrame_rfl s, by simp, ?_, ?_, fun c _ => rfl, ?_⟩
    · simp [destroyMsgs]
    · simp
    · exact RelExt.nil s.ext
  | cons bh rest ih =>
    intro s s' h
    simp only [uninstallBsmGrps] at h
    split at h
    · exact Option.noConfusion h
    case _ ext hrel =>
      set s₁ := emitReleaseRule s cid bh.node RuleAction.DESTROY_BSM_GRP
        (RulePayload.bsmGrpDestroy bh.bsm_grp_id) with hs₁
      obtain ⟨hf, hnr, hout, hcid, hoth, hext⟩ := ih { s₁ with ext := ext } s' h
      have hfr₁ : ReleaseFrame s { s₁ with ext := ext } := ⟨rfl, rfl, rfl, rfl, rfl, rfl, rfl⟩
      refine ⟨releaseFrame_trans hfr₁ hf, ?_, ?_, ?_, ?_, ?_⟩
      · rw [hnr]
        show s.nextRuleId + 1 + rest.length = _
        simp [List.length_cons]
        omega
      · rw [hout]
        show s.outputs ++ _ ++ _ = _
        rw [List.append_assoc]
        rfl
      · rw [hcid]
        have : rmGet ({ s₁ with ext := ext } : CtrlState σ).releaseMsgs cid =
            rmGet s.releaseMsgs cid ++ [s.nextRuleId] := by
          show rmGet (insertA s.releaseMsgs cid (rmGet s.releaseMsgs cid ++ [s.nextRuleId])) cid = _
          rw [rmGet, lookupA_insertA_self]
          rfl
        rw [this, List.append_assoc]
        rfl
      · intro c hc
        rw [hoth c hc]
        show lookupA (insertA s.releaseMsgs cid (rmGet s.releaseMsgs cid ++ [s.nextRuleId])) c = _
        exact lookupA_insertA_ne _ _ _ _ hc
      · exact RelExt.cons hrel hext

end V1Q

namespace V1Q

/-- `__uninstall_path` requires that no release is in flight and that a handle
store exists; it drains it completely, emitting exactly one removal per table
handle and one destroy per BSM group handle, in LIFO order, with fresh
consecutive rule ids, which become the circuit's outstanding release set. -/
theorem uninstallPath_spec {σ : Type} {V : Variant σ} {cid : Nat} {s s' : CtrlState σ}
    (h : uninstallPath V cid s = some s') :
    rmGet s.releaseMsgs cid = [] ∧
    ∃ rh, lookupA s.handles cid = some rh ∧
      s'.pending = s.pending ∧ s'.reserveQueue = s.reserveQueue ∧
      s'.releaseQueue = s.releaseQueue ∧ s'.installing = s.installing ∧
      s'.active = s.active ∧ s'.reserveMsgs = s.reserveMsgs ∧
      s'.handles = insertA s.handles cid ⟨[], []⟩ ∧
      s'.nextRuleId = s.nextRuleId + rh.tables.length + rh.bsm_grps.length ∧
      s'.outputs = s.outputs ++ removalMsgs cid s.nextRuleId rh ∧
      rmGet s'.releaseMsgs cid =
        List.range' s.nextRuleId (rh.tables.length + rh.bsm_grps.length) ∧
      (∀ c, c ≠ cid → lookupA s'.releaseMsgs c = lookupA s.releaseMsgs c) ∧
      (rh.bsm_grps = [] → s'.ext = s.ext) ∧
      (rh.bsm_grps ≠ [] → ∃ th0, rh.tables.head? = some th0 ∧
        RelExt V th0.node (rh.bsm_grps.reverse.map (fun bh => bh.bsm_grp_id)) s.ext s'.ext) := by
  simp only [uninstallPath] at h
  split at h
  case isFalse => exact Option.noConfusion h
  case isTrue hrel0 =>
  split at h
  · exact Option.noConfusion h
  case _ rh hrh =>
    obtain ⟨tf, text, tnr, tout, tcid, toth⟩ := uninstallTables_spec cid rh.tables.reverse s
    set s₂ := uninstallTables cid rh.tables.reverse s with hs₂
    refine ⟨hrel0, rh, hrh, ?_⟩
    split at h
    case _ hbg =>
      -- no BSM group handles
      simp only [Option.some_inj] at h
      subst h
      refine ⟨tf.pending, tf.reserveQueue, tf.releaseQueue, tf.installing, tf.active,
        tf.reserveMsgs, ?_, ?_, ?_, ?_, ?_, fun _ => text, fun hne => absurd hbg hne⟩
      · show insertA s₂.handles cid ⟨[], []⟩ = _
        rw [tf.handles]
      · show s₂.nextRuleId = _
        rw [tnr]
        simp [hbg]
      · show s₂.outputs = _
        rw [tout]
        simp [removalMsgs, hbg, destroyMsgs]
      · show rmGet s₂.releaseMsgs cid = _
        rw [tcid, hrel0]
        simp [hbg]
      · intro c hc
        show lookupA s₂.releaseMsgs c = _
        exact toth c hc
    case _ bh0 bgrest hbg =>
      split at h
      · exact Option.noConfusion h
      case _ th0 hth0 =>
        split at h
        · exact Option.noConfusion h
        case _ s₃ hbsm =>
          simp only [Option.some_inj] at h
          subst h
          obtain ⟨bf, bnr, bout, bcid, both, bext⟩ :=
            uninstallBsmGrps_spec cid th0.node rh.bsm_grps.reverse s₂ s₃ hbsm
          refine ⟨(releaseFrame_trans tf bf).pending, (releaseFrame_trans tf bf).reserveQueue,
            (releaseFrame_trans tf bf).releaseQueue, (releaseFrame_trans tf bf).installing,
            (releaseFrame_trans tf bf).active, (releaseFrame_trans tf bf).reserveMsgs,
            ?_, ?_, ?_, ?_, ?_, ?_, ?_⟩
          · show insertA s₃.handles cid ⟨[], []⟩ = _
            rw [bf.handles, tf.handles]
          · show s₃.nextRuleId = _
            rw [bnr, tnr]
            simp
          · show s₃.outputs = _
            rw [bout, tout, tnr, List.append_assoc]
            simp [removalMsgs]
          · show rmGet s₃.releaseMsgs cid = _
            rw [bcid, tcid, hrel0, tnr]
            simp only [List.nil_append, List.length_reverse]
            have := List.range'_append s.nextRuleId rh.tables.length rh.bsm_grps.length 1
            rw [one_mul] at this
            rw [this]
            congr 1
            omega
          · intro c hc
            show lookupA s₃.releaseMsgs c = _
            rw [both c hc, toth c hc]
          · intro habs
            rw [hbg] at habs
            exact (List.cons_ne_nil _ _ habs).elim
          · intro _
            refine ⟨th0, hth0, ?_⟩
            rw [← text]
            exact bext

/-- `_release` requires the circuit to be active (not installing) with the
matching sorted pair, then uninstalls its path. -/
theorem releaseOp_spec {σ : Type} {V : Variant σ} {m : RequestMsg} {s s' : CtrlState σ}
    (h : releaseOp V m s = some s') :
    lookupA s.installing m.request_id = none ∧
    ∃ c, lookupA s.active m.request_id = some c ∧
      c.pair = sortPair m.source m.remote ∧
      uninstallPath V m.request_id s = some s' := by
  simp only [releaseOp] at h
  split at h
  case isTrue => exact Option.noConfusion h
  case isFalse hi =>
    split at h
    · exact Option.noConfusion h
    case _ c hc =>
      split at h
      case isTrue hp => exact ⟨Option.not_isSome_iff_eq_none.mp hi, c, hc, hp, h⟩
      case isFalse => exact Option.noConfusion h

/-!
## The drain loop processes the release queue in LIFO order

The loop pops from the end of the queue; none of the processing reads or
writes the release queue, so the loop is the sequential processing of the
reversed queue.  The `setRq` commutation lemmas make that precise.
-/

theorem emitReleaseRule_setRq {σ : Type} (s : CtrlState σ) (x : List RequestMsg)
    (cid : Nat) (node : String) (a : RuleAction) (p : RulePayload) :
    emitReleaseRule (setRq x s) cid node a p = setRq x (emitReleaseRule s cid node a p) := rfl

theorem uninstallTables_setRq {σ : Type} (cid : Nat) (x : List RequestMsg) :
    ∀ (ths : List TableHandle) (s : CtrlState σ),
    uninstallTables cid ths (setRq x s) = setRq x (uninstallTables cid ths s) := by
  intro ths
  induction ths with
  | nil => intro s; rfl
  | cons th rest ih =>
    intro s
    show uninstallTables cid rest _ = _
    rw [emitReleaseRule_setRq]
    exact ih _

theorem uninstallBsmGrps_setRq {σ : Type} (V : Variant σ) (cid : Nat) (tnode : String)
    (x : List RequestMsg) :
    ∀ (bhs : List BsmGrpHandle) (s : CtrlState σ),
    uninstallBsmGrps V cid tnode bhs (setRq x s) =
      Option.map (setRq x) (uninstallBsmGrps V cid tnode bhs s) := by
  intro bhs
  induction bhs with
  | nil => intro s; rfl
  | cons bh rest ih =>
    intro s
    simp only [uninstallBsmGrps]
    rw [emitReleaseRule_setRq]
    have hext : (setRq x (emitReleaseRule s cid bh.node RuleAction.DESTROY_BSM_GRP
        (RulePayload.bsmGrpDestroy bh.bsm_grp_id))).ext =
        (emitReleaseRule s cid bh.node RuleAction.DESTROY_BSM_GRP
          (RulePayload.bsmGrpDestroy bh.bsm_grp_id)).ext := rfl
    rw [hext]
    cases hrel : V.release tnode bh.bsm_grp_id
        (emitReleaseRule s cid bh.node RuleAction.DESTROY_BSM_GRP
          (RulePayload.bsmGrpDestroy bh.bsm_grp_id)).ext with
    | none => rfl
    | some ext =>
      show uninstallBsmGrps V cid tnode rest _ = _
      have : ({ setRq x (emitReleaseRule s cid bh.node RuleAction.DESTROY_BSM_GRP
          (RulePayload.bsmGrpDestroy bh.bsm_grp_id)) with ext := ext } : CtrlState σ) =
          setRq x { emitReleaseRule s cid bh.node RuleAction.DESTROY_BSM_GRP
            (RulePayload.bsmGrpDestroy bh.bsm_grp_id) with ext := ext } := rfl
      rw [this, ih]

theorem uninstallPath_setRq {σ : Type} (V : Variant σ) (cid : Nat)
    (x : List RequestMsg) (s : CtrlState σ) :
    uninstallPath V cid (setRq x s) = Option.map (setRq x) (uninstallPath V cid s) := by
  have h1 : rmGet (setRq x s).releaseMsgs cid = rmGet s.releaseMsgs cid := rfl
  have h2 : lookupA (setRq x s).handles cid = lookupA s.handles cid := rfl
  by_cases h0 : rmGet s.releaseMsgs cid = []
  case neg => simp only [uninstallPath, h1, h2, if_neg h0, Option.map_none']
  case pos =>
    cases hrh : lookupA s.handles cid with
    | none => simp only [uninstallPath, h1, h2, if_pos h0, hrh, Option.map_none']
    | some rh =>
      cases hbg : rh.bsm_grps with
      | nil =>
        simp only [uninstallPath, h1, h2, if_pos h0, hrh, hbg, uninstallTables_setRq,
          Option.map_some']
        rfl
      | cons b bs =>
        cases hth : rh.tables.head? with
        | none =>
          simp only [uninstallPath, h1, h2, if_pos h0, hrh, hbg, hth, Option.map_none']
        | some th0 =>
          simp only [uninstallPath, h1, h2, if_pos h0, hrh, hbg, hth, uninstallTables_setRq,
            uninstallBsmGrps_setRq]
          cases uninstallBsmGrps V cid th0.node (b :: bs).reverse
              (uninstallTables cid rh.tables.reverse s) with
          | none => rfl
          | some s₃ => rfl

theorem releaseOp_setRq {σ : Type} (V : Variant σ) (m : RequestMsg)
    (x : List RequestMsg) (s : CtrlState σ) :
    releaseOp V m (setRq x s) = Option.map (setRq x) (releaseOp V m s) := by
  have h1 : lookupA (setRq x s).installing m.request_id = lookupA s.installing m.request_id := rfl
  have h2 : lookupA (setRq x s).active m.request_id = lookupA s.active m.request_id := rfl
  by_cases hi : (lookupA s.installing m.request_id).isSome
  case pos => simp only [releaseOp, h1, h2, if_pos hi, Option.map_none']
  case neg =>
    cases hc : lookupA s.active m.request_id with
    | none => simp only [releaseOp, h1, h2, if_neg hi, hc, Option.map_none']
    | some c =>
      by_cases hp : c.pair = sortPair m.source m.remote
      case pos =>
        simp only [releaseOp, h1, h2, if_neg hi, hc, if_pos hp]
        exact uninstallPath_setRq V m.request_id x s
      case neg => simp only [releaseOp, h1, h2, if_neg hi, hc, if_neg hp, Option.map_none']

theorem drainStep_setRq {σ : Type} (V : Variant σ)
    (chk : RequestMsg → CtrlState σ → Bool)
    (hchk : ∀ m s x, chk m (setRq x s) = chk m s)
    (m : RequestMsg) (x : List RequestMsg) (s : CtrlState σ) :
    drainStep V chk m (setRq x s) = Option.map (setRq x) (drainStep V chk m s) := by
  by_cases hb : chk m s = true
  case neg => simp only [drainStep, hchk m s x, if_neg hb, Option.map_none']
  case pos =>
    cases hc : lookupA s.active m.request_id with
    | some c =>
      have h2 : lookupA (setRq x s).active m.request_id = lookupA s.active m.request_id := rfl
      by_cases hp : c.pair = sortPair m.source m.remote
      case pos =>
        simp only [drainStep, hchk m s x, if_pos hb, h2, hc, if_pos hp]
        exact releaseOp_setRq V m x s
      case neg => simp only [drainStep, hchk m s x, if_pos hb, h2, hc, if_neg hp, Option.map_none']
    | none =>
      have h2 : lookupA (setRq x s).active m.request_id = lookupA s.active m.request_id := rfl
      have h3 : lookupA (setRq x s).reserveQueue (rsrvId m) =
          lookupA s.reserveQueue (rsrvId m) := rfl
      by_cases hq : (lookupA s.reserveQueue (rsrvId m)).isSome
      case pos =>
        simp only [drainStep, hchk m s x, if_pos hb, h2, hc, h3, if_pos hq, Option.map_some']
        rfl
      case neg =>
        simp only [drainStep, hchk m s x, if_pos hb, h2, hc, h3, if_neg hq, Option.map_some']

end V1Q

namespace V1Q

/-- One drain iteration, fully characterized: the hub precondition holds, and
the popped release either (a) matches an active circuit with the right pair
and uninstalls it, (b) matches a queued reservation, which is deleted and the
hosts notified, or (c) matches nothing and is dropped. -/
theorem drainStep_spec {σ : Type} {V : Variant σ} {chk : RequestMsg → CtrlState σ → Bool}
    {m : RequestMsg} {s s' : CtrlState σ} (h : drainStep V chk m s = some s') :
    chk m s = true ∧
    ((∃ c, lookupA s.active m.request_id = some c ∧ c.pair = sortPair m.source m.remote ∧
        releaseOp V m s = some s') ∨
     ((lookupA s.active m.request_id = none) ∧ (lookupA s.reserveQueue (rsrvId m)).isSome ∧
        s' = notify { s with reserveQueue := eraseA s.reserveQueue (rsrvId m) } m) ∨
     ((lookupA s.active m.request_id = none) ∧ lookupA s.reserveQueue (rsrvId m) = none ∧
        s' = s)) := by
  simp only [drainStep] at h
  split at h
  case isFalse => exact Option.noConfusion h
  case isTrue hb =>
    refine ⟨hb, ?_⟩
    split at h
    case _ c hc =>
      split at h
      case isTrue hp => exact Or.inl ⟨c, hc, hp, h⟩
      case isFalse => exact Option.noConfusion h
    case _ hc =>
      split at h
      case isTrue hq =>
        simp only [Option.some_inj] at h
        exact Or.inr (Or.inl ⟨hc, hq, h.symm⟩)
      case isFalse hq =>
        simp only [Option.some_inj] at h
        exact Or.inr (Or.inr ⟨hc, Option.not_isSome_iff_eq_none.mp hq, h.symm⟩)

/-- A drain iteration never touches the release queue. -/
theorem drainStep_rq {σ : Type} {V : Variant σ} {chk : RequestMsg → CtrlState σ → Bool}
    {m : RequestMsg} {s s' : CtrlState σ} (h : drainStep V chk m s = some s') :
    s'.releaseQueue = s.releaseQueue := by
  obtain ⟨-, hcase⟩ := drainStep_spec h
  rcases hcase with ⟨c, _, _, hrel⟩ | ⟨_, _, rfl⟩ | ⟨_, _, rfl⟩
  · obtain ⟨-, c', -, -, hun⟩ := releaseOp_spec hrel
    exact (uninstallPath_spec hun).2.choose_spec.2.2.2.1
  · rfl
  · rfl

theorem setRq_self {σ : Type} (s : CtrlState σ) : setRq s.releaseQueue s = s := rfl

/-- The release-drain `while` loop equals sequential processing of the
reversed release queue: releases are handled in LIFO order. -/
theorem drainLoop_eq_drainSeq {σ : Type} (V : Variant σ)
    (chk : RequestMsg → CtrlState σ → Bool)
    (hchk : ∀ m s x, chk m (setRq x s) = chk m s) :
    ∀ (fuel : Nat) (s : CtrlState σ), s.releaseQueue.length ≤ fuel →
    drainLoop V chk fuel s = drainSeq V chk s.releaseQueue.reverse (setRq [] s) := by
  intro fuel
  induction fuel with
  | zero =>
    intro s hlen
    have hq : s.releaseQueue = [] := List.eq_nil_of_length_eq_zero (Nat.le_zero.mp hlen)
    have hs : setRq [] s = s := by rw [← hq]; rfl
    simp only [drainLoop, hq, List.reverse_nil, drainSeq, hs]
  | succ f ih =>
    intro s hlen
    rcases List.eq_nil_or_concat s.releaseQueue with hq | ⟨q₀, m, hq⟩
    · have hs : setRq [] s = s := by rw [← hq]; rfl
      simp only [drainLoop, hq, List.getLast?_nil, List.reverse_nil, drainSeq, hs]
    · rw [List.concat_eq_append] at hq
      have hlast : s.releaseQueue.getLast? = some m := by
        rw [hq]; exact List.getLast?_concat _
      have hdrop : s.releaseQueue.dropLast = q₀ := by
        rw [hq]; exact List.dropLast_concat
      have hrev : s.releaseQueue.reverse = m :: q₀.reverse := by
        rw [hq]; exact List.reverse_concat _ _
      have hstep : drainStep V chk m { s with releaseQueue := s.releaseQueue.dropLast } =
          Option.map (setRq q₀) (drainStep V chk m (setRq [] s)) := by
        rw [hdrop]
        exact drainStep_setRq V chk hchk m q₀ (setRq [] s)
      simp only [drainLoop, hlast, hstep, hrev, drainSeq]
      cases hds : drainStep V chk m (setRq [] s) with
      | none => rfl
      | some t =>
        have hrq_t : t.releaseQueue = [] := drainStep_rq hds
        have hlen' : (setRq q₀ t).releaseQueue.length ≤ f := by
          show q₀.length ≤ f
          rw [hq] at hlen
          simp at hlen
          omega
        have := ih (setRq q₀ t) hlen'
        simp only [Option.map_some']
        rw [this]
        show drainSeq V chk q₀.reverse (setRq [] (setRq q₀ t)) = drainSeq V chk q₀.reverse t
        have : setRq [] (setRq q₀ t) = t := by
          show setRq [] t = t
          rw [← hrq_t]
          rfl
        rw [this]

end V1Q

namespace V1Q

/-!
## The admission loop
-/

theorem insertA_ne_nil {α β : Type} [DecidableEq α] (l : List (α × β)) (k : α) (v : β) :
    insertA l k v ≠ [] := by
  cases l with
  | nil => simp [insertA]
  | cons p rest =>
    obtain ⟨k', v'⟩ := p
    by_cases h : k' = k <;> simp [insertA, h]

/-- The admission loop does nothing while any circuit is installing or active,
or when no reservation is queued. -/
theorem admitLoop_skip {σ : Type} (V : Variant σ) (env : Env) (fuel : Nat)
    (s : CtrlState σ) (h : s.reserveQueue = [] ∨ s.installing ≠ [] ∨ s.active ≠ []) :
    admitLoop V env fuel s = some s := by
  cases fuel with
  | zero => simp only [admitLoop, if_pos h]
  | succ f =>
    have : ¬(s.reserveQueue ≠ [] ∧ s.installing = [] ∧ s.active = []) := by tauto
    simp only [admitLoop, if_neg this]

/-- The admission loop admits at most one reservation: the most recently
queued one, and only when no circuit is installing or active. -/
theorem admitLoop_spec {σ : Type} {V : Variant σ} {env : Env} {fuel : Nat}
    {s s' : CtrlState σ} (h : admitLoop V env fuel s = some s') :
    ((s.reserveQueue = [] ∨ s.installing ≠ [] ∨ s.active ≠ []) ∧ s' = s) ∨
    (s.reserveQueue ≠ [] ∧ s.installing = [] ∧ s.active = [] ∧
      ∃ rid m, s.reserveQueue.getLast? = some (rid, m) ∧
        reserveOp V env m { s with reserveQueue := s.reserveQueue.dropLast } = some s') := by
  cases fuel with
  | zero =>
    simp only [admitLoop] at h
    split at h
    case isTrue hc =>
      simp only [Option.some_inj] at h
      exact Or.inl ⟨hc, h.symm⟩
    case isFalse => exact Option.noConfusion h
  | succ f =>
    simp only [admitLoop] at h
    split at h
    case isTrue hc =>
      split at h
      · exact Option.noConfusion h
      case _ rid m hlast =>
        split at h
        · exact Option.noConfusion h
        case _ s₁ hres =>
          -- after one reservation the installing map is nonempty, so the
          -- recursive call is the identity
          have hspec := reserveOp_spec hres
          have hinst : s₁.installing ≠ [] := by
            rw [hspec.2.2.installing]
            exact insertA_ne_nil _ _ _
          rw [admitLoop_skip V env f s₁ (Or.inr (Or.inl hinst))] at h
          simp only [Option.some_inj] at h
          subst h
          exact Or.inr ⟨hc.1, hc.2.1, hc.2.2, rid, m, hlast, hres⟩
    case isFalse hc =>
      simp only [Option.some_inj] at h
      subst h
      push_neg at hc
      by_cases hq : s.reserveQueue = []
      · exact Or.inl ⟨Or.inl hq, rfl⟩
      · by_cases hi : s.installing = []
        · exact Or.inl ⟨Or.inr (Or.inr (hc hq hi)), rfl⟩
        · exact Or.inl ⟨Or.inr (Or.inl hi), rfl⟩

/-- A sequential drain never touches the release queue. -/
theorem drainSeq_rq {σ : Type} {V : Variant σ} {chk : RequestMsg → CtrlState σ → Bool} :
    ∀ {l : List RequestMsg} {s s' : CtrlState σ},
    drainSeq V chk l s = some s' → s'.releaseQueue = s.releaseQueue := by
  intro l
  induction l with
  | nil =>
    intro s s' h
    simp only [drainSeq, Option.some_inj] at h
    subst h; rfl
  | cons m rest ih =>
    intro s s' h
    simp only [drainSeq] at h
    split at h
    · exact Option.noConfusion h
    case _ t hds => exact (ih h).trans (drainStep_rq hds)

/-- C3.  Point-to-point admission ordering: every successful run of
`_reserve_release` first processes the entire release queue in LIFO order
(the sequential processing of the reversed queue), leaving it empty, and only
afterwards admits at most one new circuit — the most recently queued
reservation, popped from the end of the reservation queue — and only when no
circuit is active or installing after the drain; the admitted circuit is the
only change to the installing map and the active map is untouched by
admission. -/
theorem p2p_admission_ordering (env : Env) (s s' : P2PState)
    (h : reserveRelease env s = some s') :
    ∃ s₁, drainSeq p2pVariant (fun _ _ => true) s.releaseQueue.reverse (setRq [] s) = some s₁ ∧
      s₁.releaseQueue = [] ∧
      (((s₁.reserveQueue = [] ∨ s₁.installing ≠ [] ∨ s₁.active ≠ []) ∧ s' = s₁) ∨
       (s₁.reserveQueue ≠ [] ∧ s₁.installing = [] ∧ s₁.active = [] ∧
         ∃ rid m, s₁.reserveQueue.getLast? = some (rid, m) ∧
           reserveOp p2pVariant env m { s₁ with reserveQueue := s₁.reserveQueue.dropLast } =
             some s' ∧
           s'.installing =
             insertA s₁.installing m.request_id ⟨m.request_id, sortPair m.source m.remote⟩ ∧
           s'.active = s₁.active)) := by
  simp only [reserveRelease] at h
  rw [drainLoop_eq_drainSeq p2pVariant (fun _ _ => true) (fun _ _ _ => rfl)
    s.releaseQueue.length s (le_refl _)] at h
  split at h
  · exact Option.noConfusion h
  case _ s₁ hdrain =>
    refine ⟨s₁, hdrain, drainSeq_rq hdrain, ?_⟩
    rcases admitLoop_spec h with ⟨hc, rfl⟩ | ⟨hq, hi, ha, rid, m, hlast, hres⟩
    · exact Or.inl ⟨hc, rfl⟩
    · have hspec := reserveOp_spec hres
      refine Or.inr ⟨hq, hi, ha, rid, m, hlast, hres, ?_, ?_⟩
      · rw [hspec.2.2.installing]
      · rw [hspec.2.2.active]

/-- C3 witness: on the fresh state (empty queues) the drain is trivial and
nothing is admitted. -/
theorem p2p_admission_ordering_witness :
    ∃ s₁, drainSeq p2pVariant (fun _ _ => true)
        (initState ()).releaseQueue.reverse (setRq [] (initState ())) = some s₁ ∧
      s₁.releaseQueue = [] ∧
      (((s₁.reserveQueue = [] ∨ s₁.installing ≠ [] ∨ s₁.active ≠ []) ∧ initState () = s₁) ∨
       (s₁.reserveQueue ≠ [] ∧ s₁.installing = [] ∧ s₁.active = [] ∧
         ∃ rid m, s₁.reserveQueue.getLast? = some (rid, m) ∧
           reserveOp p2pVariant envSix m
             { s₁ with reserveQueue := s₁.reserveQueue.dropLast } = some (initState ()) ∧
           (initState () : P2PState).installing =
             insertA s₁.installing m.request_id ⟨m.request_id, sortPair m.source m.remote⟩ ∧
           (initState () : P2PState).active = s₁.active)) :=
  p2p_admission_ordering envSix (initState ()) (initState ()) rfl

end V1Q

namespace V1Q

/-!
## Characterization of `__rule_msg`
-/

/-- A reservation-side acknowledgment (table insert or BSM group creation):
the rule id must be outstanding; the returned handle (or group id) is
appended to the circuit's handle store; and the circuit moves from
`installing` to `active` — with the ready notification to both hosts —
exactly when the outstanding set empties. -/
theorem ruleMsg_reserve_spec {σ : Type} {m : RuleMsg} {s s' : CtrlState σ}
    (h : ruleMsg m s = some s')
    (hact : m.rule_action = RuleAction.INSERT_TABLE_ENTRY ∨
      m.rule_action = RuleAction.CREATE_BSM_GRP) :
    m.rule_id ∈ rmGet s.reserveMsgs m.circuit_id ∧
    ∃ rh, lookupA s.handles m.circuit_id = some rh ∧
    ∃ rh' : RouteHandles,
      ((m.rule_action = RuleAction.INSERT_TABLE_ENTRY ∧
          (∃ b t k an ad hdl, m.payload = RulePayload.tableInsert b t k an ad (some hdl) ∧
            rh' = { rh with tables := rh.tables ++ [⟨m.node, b, t, hdl⟩] })) ∨
       (m.rule_action = RuleAction.CREATE_BSM_GRP ∧
          (∃ gid e0 e1, m.payload = RulePayload.bsmGrpCreate gid e0 e1 ∧
            rh' = { rh with bsm_grps := rh.bsm_grps ++ [⟨m.node, gid⟩] }))) ∧
      (((rmGet s.reserveMsgs m.circuit_id).erase m.rule_id = [] ∧
          ∃ c, lookupA s.installing m.circuit_id = some c ∧
            s' = { s with
              handles := insertA s.handles m.circuit_id rh'
              reserveMsgs := eraseA s.reserveMsgs m.circuit_id
              outputs := s.outputs ++
                notifyOut ⟨QcpOp.OP_RSRV, c.pair.1, c.pair.2, m.circuit_id⟩
              active := insertA s.active m.circuit_id c
              installing := eraseA s.installing m.circuit_id }) ∨
       ((rmGet s.reserveMsgs m.circuit_id).erase m.rule_id ≠ [] ∧
          s' = { s with
            handles := insertA s.handles m.circuit_id rh'
            reserveMsgs := insertA s.reserveMsgs m.circuit_id
              ((rmGet s.reserveMsgs m.circuit_id).erase m.rule_id) })) := by
  simp only [ruleMsg, if_pos hact] at h
  split at h
  case isFalse => exact Option.noConfusion h
  case isTrue hmem =>
    refine ⟨hmem, ?_⟩
    rcases hact with hins | hcre
    · rw [if_pos hins] at h
      cases hpay : m.payload with
      | tableRemove b t hdl => simp [hpay] at h
      | bsmGrpCreate gid e0 e1 => simp [hpay] at h
      | bsmGrpDestroy gid => simp [hpay] at h
      | tableInsert b t k an ad ohdl =>
        simp only [hpay] at h
        cases ohdl with
        | none => exact Option.noConfusion h
        | some hdl =>
          cases hrh : lookupA s.handles m.circuit_id with
          | none => simp [hrh] at h
          | some rh =>
            simp only [hrh] at h
            refine ⟨rh, rfl, { rh with tables := rh.tables ++ [⟨m.node, b, t, hdl⟩] },
              Or.inl ⟨hins, b, t, k, an, ad, hdl, rfl, rfl⟩, ?_⟩
            split at h
            case isTrue hrem =>
              cases hc : lookupA s.installing m.circuit_id with
              | none => simp [hc] at h
              | some c =>
                simp only [hc, Option.some_inj] at h
                exact Or.inl ⟨hrem, c, rfl, h.symm⟩
            case isFalse hrem =>
              simp only [Option.some_inj] at h
              exact Or.inr ⟨hrem, h.symm⟩
    · have hnotins : ¬(m.rule_action = RuleAction.INSERT_TABLE_ENTRY) := by
        rw [hcre]; simp
      rw [if_neg hnotins] at h
      cases hpay : m.payload with
      | tableInsert b t k an ad ohdl => simp [hpay] at h
      | tableRemove b t hdl => simp [hpay] at h
      | bsmGrpDestroy gid => simp [hpay] at h
      | bsmGrpCreate gid e0 e1 =>
        simp only [hpay] at h
        cases hrh : lookupA s.handles m.circuit_id with
        | none => simp [hrh] at h
        | some rh =>
          simp only [hrh] at h
          refine ⟨rh, rfl, { rh with bsm_grps := rh.bsm_grps ++ [⟨m.node, gid⟩] },
            Or.inr ⟨hcre, gid, e0, e1, rfl, rfl⟩, ?_⟩
          split at h
          case isTrue hrem =>
            cases hc : lookupA s.installing m.circuit_id with
            | none => simp [hc] at h
            | some c =>
              simp only [hc, Option.some_inj] at h
              exact Or.inl ⟨hrem, c, rfl, h.symm⟩
          case isFalse hrem =>
            simp only [Option.some_inj] at h
            exact Or.inr ⟨hrem, h.symm⟩

/-- A release-side acknowledgment (table removal or BSM group destruction):
the rule id must be outstanding in the release set; the circuit leaves the
`active` map — with the freed notification to both hosts — exactly when the
outstanding release set empties. -/
theorem ruleMsg_release_spec {σ : Type} {m : RuleMsg} {s s' : CtrlState σ}
    (h : ruleMsg m s = some s')
    (hact : m.rule_action = RuleAction.REMOVE_TABLE_ENTRY ∨
      m.rule_action = RuleAction.DESTROY_BSM_GRP) :
    m.rule_id ∈ rmGet s.releaseMsgs m.circuit_id ∧
    (((rmGet s.releaseMsgs m.circuit_id).erase m.rule_id = [] ∧
        ∃ c, lookupA s.active m.circuit_id = some c ∧
          s' = { s with
            releaseMsgs := eraseA s.releaseMsgs m.circuit_id
            outputs := s.outputs ++
              notifyOut ⟨QcpOp.OP_FREE, c.pair.1, c.pair.2, m.circuit_id⟩
            active := eraseA s.active m.circuit_id }) ∨
     ((rmGet s.releaseMsgs m.circuit_id).erase m.rule_id ≠ [] ∧
        s' = { s with
          releaseMsgs := insertA s.releaseMsgs m.circuit_id
            ((rmGet s.releaseMsgs m.circuit_id).erase m.rule_id) })) := by
  have hnot1 : ¬(m.rule_action = RuleAction.INSERT_TABLE_ENTRY ∨
      m.rule_action = RuleAction.CREATE_BSM_GRP) := by
    rcases hact with h1 | h1 <;> rw [h1] <;> simp
  simp only [ruleMsg, if_neg hnot1, if_pos hact] at h
  split at h
  case isFalse => exact Option.noConfusion h
  case isTrue hmem =>
    refine ⟨hmem, ?_⟩
    split at h
    case isTrue hrem =>
      split at h
      · exact Option.noConfusion h
      case _ c hc =>
        simp only [Option.some_inj] at h
        exact Or.inl ⟨hrem, c, hc, h.symm⟩
    case isFalse hrem =>
      simp only [Option.some_inj] at h
      exact Or.inr ⟨hrem, h.symm⟩

/-- Every rule acknowledgment is on the reserve side or the release side. -/
theorem ruleMsg_cases {σ : Type} {m : RuleMsg} {s s' : CtrlState σ}
    (h : ruleMsg m s = some s') :
    (m.rule_action = RuleAction.INSERT_TABLE_ENTRY ∨
      m.rule_action = RuleAction.CREATE_BSM_GRP) ∨
    (m.rule_action = RuleAction.REMOVE_TABLE_ENTRY ∨
      m.rule_action = RuleAction.DESTROY_BSM_GRP) := by
  cases ha : m.rule_action
  · exact Or.inl (Or.inl rfl)
  · exact Or.inr (Or.inl rfl)
  · exact Or.inl (Or.inr rfl)
  · exact Or.inr (Or.inr rfl)

end V1Q

namespace V1Q

/-!
## Characterization of `__request_msg` (queueing core)
-/

/-- The queueing core of `__request_msg` touches only the pending map and the
two queues: everything else is unchanged, the release queue at most gains the
message at the end, and the reservation queue at most gains the matched pair
at the end. -/
theorem requestMsgCore_frame {σ : Type} {m : RequestMsg} {s s' : CtrlState σ}
    (h : requestMsgCore m s = some s') :
    s'.installing = s.installing ∧ s'.active = s.active ∧
    s'.nextRuleId = s.nextRuleId ∧ s'.reserveMsgs = s.reserveMsgs ∧
    s'.releaseMsgs = s.releaseMsgs ∧ s'.handles = s.handles ∧
    s'.outputs = s.outputs ∧ s'.ext = s.ext ∧
    (s'.releaseQueue = s.releaseQueue ∨ s'.releaseQueue = s.releaseQueue ++ [m]) ∧
    (s'.reserveQueue = s.reserveQueue ∨
      s'.reserveQueue = s.reserveQueue ++ [(rsrvId m, m)]) := by
  simp only [requestMsgCore] at h
  split at h
  case isFalse => exact Option.noConfusion h
  case isTrue hty =>
    split at h
    case isTrue => exact Option.noConfusion h
    case isFalse hdup =>
      split at h
      case h_2 =>
        simp only [Option.some_inj] at h
        subst h
        exact ⟨rfl, rfl, rfl, rfl, rfl, rfl, rfl, rfl, Or.inl rfl, Or.inl rfl⟩
      case h_1 pm hpm =>
        split at h
        case isFalse =>
          simp only [Option.some_inj] at h
          subst h
          exact ⟨rfl, rfl, rfl, rfl, rfl, rfl, rfl, rfl, Or.inl rfl, Or.inl rfl⟩
        case isTrue hrem =>
          split at h
          case isFalse => exact Option.noConfusion h
          case isTrue hmt =>
            split at h
            · exact Option.noConfusion h
            case _ s₁ hqd =>
              -- s₁ is the state with the message queued
              have hq : (s₁.installing = s.installing ∧ s₁.active = s.active ∧
                  s₁.nextRuleId = s.nextRuleId ∧ s₁.reserveMsgs = s.reserveMsgs ∧
                  s₁.releaseMsgs = s.releaseMsgs ∧ s₁.handles = s.handles ∧
                  s₁.outputs = s.outputs ∧ s₁.ext = s.ext) ∧
                  (s₁.releaseQueue = s.releaseQueue ∨ s₁.releaseQueue = s.releaseQueue ++ [m]) ∧
                  (s₁.reserveQueue = s.reserveQueue ∨
                    s₁.reserveQueue = s.reserveQueue ++ [(rsrvId m, m)]) := by
                split at hqd
                case isTrue =>
                  split at hqd
                  case isTrue => exact Option.noConfusion hqd
                  case isFalse =>
                    simp only [Option.some_inj] at hqd
                    subst hqd
                    exact ⟨⟨rfl, rfl, rfl, rfl, rfl, rfl, rfl, rfl⟩, Or.inl rfl, Or.inr rfl⟩
                case isFalse =>
                  simp only [Option.some_inj] at hqd
                  subst hqd
                  exact ⟨⟨rfl, rfl, rfl, rfl, rfl, rfl, rfl, rfl⟩, Or.inr rfl, Or.inl rfl⟩
              split at h
              · exact Option.noConfusion h
              case _ p hp =>
                split at h
                · exact Option.noConfusion h
                case _ p' hp' =>
                  simp only [Option.some_inj] at h
                  subst h
                  exact ⟨hq.1.1, hq.1.2.1, hq.1.2.2.1, hq.1.2.2.2.1, hq.1.2.2.2.2.1,
                    hq.1.2.2.2.2.2.1, hq.1.2.2.2.2.2.2.1, hq.1.2.2.2.2.2.2.2,
                    hq.2.1, hq.2.2⟩

end V1Q

namespace V1Q

/-!
## C1: point-to-point mutual exclusion
-/

theorem drainStep_ia {σ : Type} {V : Variant σ} {chk : RequestMsg → CtrlState σ → Bool}
    {m : RequestMsg} {s s' : CtrlState σ} (h : drainStep V chk m s = some s') :
    s'.installing = s.installing ∧ s'.active = s.active := by
  obtain ⟨-, hcase⟩ := drainStep_spec h
  rcases hcase with ⟨c, _, _, hrel⟩ | ⟨_, _, rfl⟩ | ⟨_, _, rfl⟩
  · obtain ⟨-, c', -, -, hun⟩ := releaseOp_spec hrel
    obtain ⟨-, rh, -, -, -, -, hinst, hact, -⟩ := uninstallPath_spec hun
    exact ⟨hinst, hact⟩
  · exact ⟨rfl, rfl⟩
  · exact ⟨rfl, rfl⟩

theorem drainSeq_ia {σ : Type} {V : Variant σ} {chk : RequestMsg → CtrlState σ → Bool} :
    ∀ {l : List RequestMsg} {s s' : CtrlState σ},
    drainSeq V chk l s = some s' → s'.installing = s.installing ∧ s'.active = s.active := by
  intro l
  induction l with
  | nil =>
    intro s s' h
    simp only [drainSeq, Option.some_inj] at h
    subst h
    exact ⟨rfl, rfl⟩
  | cons m rest ih =>
    intro s s' h
    simp only [drainSeq] at h
    split at h
    · exact Option.noConfusion h
    case _ t hds =>
      obtain ⟨h1, h2⟩ := drainStep_ia hds
      obtain ⟨h3, h4⟩ := ih h
      exact ⟨h3.trans h1, h4.trans h2⟩

/-- `_reserve_release` preserves the mutual-exclusion bound. -/
theorem reserveRelease_excl {env : Env} {s s' : P2PState}
    (h : reserveRelease env s = some s')
    (hinv : s.installing.length + s.active.length ≤ 1) :
    s'.installing.length + s'.active.length ≤ 1 := by
  simp only [reserveRelease] at h
  rw [drainLoop_eq_drainSeq p2pVariant (fun _ _ => true) (fun _ _ _ => rfl)
    s.releaseQueue.length s (le_refl _)] at h
  split at h
  · exact Option.noConfusion h
  case _ s₁ hdrain =>
    obtain ⟨hia1, hia2⟩ := drainSeq_ia hdrain
    rcases admitLoop_spec h with ⟨-, rfl⟩ | ⟨hq, hi, ha, rid, m, hlast, hres⟩
    · rw [hia1, hia2]
      exact hinv
    · obtain ⟨-, -, hemits⟩ := reserveOp_spec hres
      have h1 : s'.installing =
          insertA s₁.installing m.request_id ⟨m.request_id, sortPair m.source m.remote⟩ :=
        hemits.installing
      have h2 : s'.active = s₁.active := hemits.active
      rw [h1, h2, hi, ha]
      simp [insertA]

/-- `__rule_msg` preserves the mutual-exclusion bound. -/
theorem ruleMsg_excl {σ : Type} {m : RuleMsg} {s s' : CtrlState σ}
    (h : ruleMsg m s = some s')
    (hinv : s.installing.length + s.active.length ≤ 1) :
    s'.installing.length + s'.active.length ≤ 1 := by
  rcases ruleMsg_cases h with hact | hact
  · obtain ⟨hmem, rh, hrh, rh', -, hcase⟩ := ruleMsg_reserve_spec h hact
    rcases hcase with ⟨hrem, c, hc, rfl⟩ | ⟨hrem, rfl⟩
    · show (eraseA s.installing m.circuit_id).length +
        (insertA s.active m.circuit_id c).length ≤ 1
      have hmemi : m.circuit_id ∈ keysA s.installing := by
        rw [← lookupA_isSome_iff_mem_keysA, hc]
        rfl
      have hlen_i := length_eraseA_mem s.installing m.circuit_id hmemi
      by_cases hma : m.circuit_id ∈ keysA s.active
      · have := length_insertA_mem s.active m.circuit_id c hma
        omega
      · have := length_insertA_not_mem s.active m.circuit_id c hma
        omega
    · exact hinv
  · obtain ⟨hmem, hcase⟩ := ruleMsg_release_spec h hact
    rcases hcase with ⟨hrem, c, hc, rfl⟩ | ⟨hrem, rfl⟩
    · show s.installing.length + (eraseA s.active m.circuit_id).length ≤ 1
      have hmema : m.circuit_id ∈ keysA s.active := by
        rw [← lookupA_isSome_iff_mem_keysA, hc]
        rfl
      have := length_eraseA_mem s.active m.circuit_id hmema
      omega
    · exact hinv

/-- C1.  Point-to-point controller mutual exclusion: in every reachable state
(after processing any sequence of requests, rule acknowledgments and deferred
`_reserve_release` events) the `_installing` map and the `_active` map
together hold at most one circuit; and the admission loop never admits a
reservation while any circuit is installing or active (it returns the state
unchanged). -/
theorem p2p_mutual_exclusion (env : Env) :
    (∀ s : P2PState, Reachable env s → s.installing.length + s.active.length ≤ 1) ∧
    (∀ (fuel : Nat) (s : P2PState), (s.installing ≠ [] ∨ s.active ≠ []) →
      admitLoop p2pVariant env fuel s = some s) := by
  constructor
  · intro s hreach
    induction hreach with
    | refl => simp [initState]
    | tail _ hstep ih =>
      cases hstep with
      | request m u u' heq =>
        simp only [requestMsgWith] at heq
        split at heq
        · exact Option.noConfusion heq
        case _ u₁ hcore =>
          have hfr := requestMsgCore_frame hcore
          refine reserveRelease_excl heq ?_
          rw [hfr.1, hfr.2.1]
          exact ih
      | ack port orig hdl u u' hout hrule => exact ruleMsg_excl hrule ih
      | rr u u' hrr => exact reserveRelease_excl hrr ih
  · intro fuel s h
    exact admitLoop_skip _ _ _ _ (Or.inr h)

/-- C1 witness: the fresh state is reachable and satisfies the bound, and the
admission loop leaves a state with an installing circuit unchanged. -/
theorem p2p_mutual_exclusion_witness :
    ((initState () : P2PState).installing.length + (initState ()).active.length ≤ 1) ∧
    admitLoop p2pVariant envSix 3
        { initState () with installing := [(0, ⟨0, ("h1", "h2")⟩)] } =
      some { initState () with installing := [(0, ⟨0, ("h1", "h2")⟩)] } :=
  ⟨(p2p_mutual_exclusion envSix).1 (initState ()) Relation.ReflTransGen.refl,
   (p2p_mutual_exclusion envSix).2 3 _ (Or.inl (by simp))⟩

end V1Q

namespace V1Q

/-!
## C4: the installing-to-active transition
-/

theorem mem_keysA_insertA {α β : Type} [DecidableEq α] (l : List (α × β)) (k k' : α) (v : β)
    (h : k' ∈ keysA (insertA l k v)) : k' = k ∨ k' ∈ keysA l := by
  by_cases hk : k ∈ keysA l
  · rw [keysA_insertA_mem l k v hk] at h
    exact Or.inr h
  · rw [keysA_insertA_not_mem l k v hk] at h
    rcases List.mem_append.mp h with h | h
    · exact Or.inr h
    · simp only [List.mem_singleton] at h
      exact Or.inl h

theorem drainStep_rm {σ : Type} {V : Variant σ} {chk : RequestMsg → CtrlState σ → Bool}
    {m : RequestMsg} {s s' : CtrlState σ} (h : drainStep V chk m s = some s') :
    s'.reserveMsgs = s.reserveMsgs := by
  obtain ⟨-, hcase⟩ := drainStep_spec h
  rcases hcase with ⟨c, _, _, hrel⟩ | ⟨_, _, rfl⟩ | ⟨_, _, rfl⟩
  · obtain ⟨-, c', -, -, hun⟩ := releaseOp_spec hrel
    exact (uninstallPath_spec hun).2.choose_spec.2.2.2.2.2.2.1
  · rfl
  · rfl

theorem drainSeq_rm {σ : Type} {V : Variant σ} {chk : RequestMsg → CtrlState σ → Bool} :
    ∀ {l : List RequestMsg} {s s' : CtrlState σ},
    drainSeq V chk l s = some s' → s'.reserveMsgs = s.reserveMsgs := by
  intro l
  induction l with
  | nil =>
    intro s s' h
    simp only [drainSeq, Option.some_inj] at h
    subst h
    rfl
  | cons m rest ih =>
    intro s s' h
    simp only [drainSeq] at h
    split at h
    · exact Option.noConfusion h
    case _ t hds => exact (ih h).trans (drainStep_rm hds)

/-- `_reserve_release` preserves duplicate-freeness of the reserve in-flight
map and the property that active circuits have no outstanding install acks. -/
theorem reserveRelease_c4 {env : Env} {s s' : P2PState}
    (h : reserveRelease env s = some s')
    (hnd : (keysA s.reserveMsgs).Nodup)
    (hact : ∀ cid ∈ keysA s.active, rmGet s.reserveMsgs cid = []) :
    (keysA s'.reserveMsgs).Nodup ∧
    ∀ cid ∈ keysA s'.active, rmGet s'.reserveMsgs cid = [] := by
  simp only [reserveRelease] at h
  rw [drainLoop_eq_drainSeq p2pVariant (fun _ _ => true) (fun _ _ _ => rfl)
    s.releaseQueue.length s (le_refl _)] at h
  split at h
  · exact Option.noConfusion h
  case _ s₁ hdrain =>
    have hrm₁ : s₁.reserveMsgs = (setRq [] s).reserveMsgs := drainSeq_rm hdrain
    have hia := drainSeq_ia hdrain
    rcases admitLoop_spec h with ⟨-, rfl⟩ | ⟨hq, hi, ha, rid, m, hlast, hres⟩
    · rw [hrm₁, hia.2]
      exact ⟨hnd, hact⟩
    · obtain ⟨-, -, he⟩ := reserveOp_spec hres
      have hact' : s'.active = [] := by
        rw [he.active]
        exact ha
      refine ⟨he.rm_nodup ?_, ?_⟩
      · show (keysA s₁.reserveMsgs).Nodup
        rw [hrm₁]
        exact hnd
      · intro cid hcid
        rw [hact'] at hcid
        simp [keysA] at hcid

/-- `__rule_msg` preserves duplicate-freeness of the reserve in-flight map
and the property that active circuits have no outstanding install acks. -/
theorem ruleMsg_c4 {σ : Type} {m : RuleMsg} {s s' : CtrlState σ}
    (h : ruleMsg m s = some s')
    (hnd : (keysA s.reserveMsgs).Nodup)
    (hact : ∀ cid ∈ keysA s.active, rmGet s.reserveMsgs cid = []) :
    (keysA s'.reserveMsgs).Nodup ∧
    ∀ cid ∈ keysA s'.active, rmGet s'.reserveMsgs cid = [] := by
  rcases ruleMsg_cases h with hty | hty
  · obtain ⟨hmem, rh, hrh, rh', -, hcase⟩ := ruleMsg_reserve_spec h hty
    have hnotact : m.circuit_id ∉ keysA s.active := by
      intro hin
      rw [hact _ hin] at hmem
      exact List.not_mem_nil _ hmem
    rcases hcase with ⟨hrem, c, hc, rfl⟩ | ⟨hrem, rfl⟩
    · refine ⟨?_, ?_⟩
      · show (keysA (eraseA s.reserveMsgs m.circuit_id)).Nodup
        exact nodup_keysA_eraseA _ _ hnd
      · intro cid hcid
        show rmGet (eraseA s.reserveMsgs m.circuit_id) cid = []
        rcases mem_keysA_insertA s.active m.circuit_id cid c hcid with rfl | hcid'
        · rw [rmGet, lookupA_eraseA_self _ _ hnd]
          rfl
        · have hne : cid ≠ m.circuit_id := fun he => hnotact (he ▸ hcid')
          rw [rmGet, lookupA_eraseA_ne _ _ _ hne]
          exact hact cid hcid'
    · refine ⟨?_, ?_⟩
      · show (keysA (insertA s.reserveMsgs m.circuit_id
            ((rmGet s.reserveMsgs m.circuit_id).erase m.rule_id))).Nodup
        exact nodup_keysA_insertA _ _ _ hnd
      · intro cid hcid
        have hcid' : cid ∈ keysA s.active := hcid
        have hne : cid ≠ m.circuit_id := fun he => hnotact (he ▸ hcid')
        show rmGet (insertA s.reserveMsgs m.circuit_id
          ((rmGet s.reserveMsgs m.circuit_id).erase m.rule_id)) cid = []
        rw [rmGet, lookupA_insertA_ne _ _ _ _ hne]
        exact hact cid hcid'
  · obtain ⟨hmem, hcase⟩ := ruleMsg_release_spec h hty
    rcases hcase with ⟨hrem, c, hc, rfl⟩ | ⟨hrem, rfl⟩
    · refine ⟨hnd, ?_⟩
      intro cid hcid
      exact hact cid (keysA_eraseA_subset _ _ cid hcid)
    · exact ⟨hnd, hact⟩

/-- In every reachable point-to-point state the reserve in-flight map has
duplicate-free keys and every active circuit's outstanding set is empty. -/
theorem p2p_c4_inv (env : Env) : ∀ s : P2PState, Reachable env s →
    (keysA s.reserveMsgs).Nodup ∧
    ∀ cid ∈ keysA s.active, rmGet s.reserveMsgs cid = [] := by
  intro s hreach
  induction hreach with
  | refl =>
    constructor
    · simp [initState, keysA]
    · intro cid hcid
      simp [initState, keysA] at hcid
  | tail _ hstep ih =>
    cases hstep with
    | request m u u' heq =>
      simp only [requestMsgWith] at heq
      split at heq
      · exact Option.noConfusion heq
      case _ u₁ hcore =>
        have hfr := requestMsgCore_frame hcore
        refine reserveRelease_c4 heq ?_ ?_
        · rw [hfr.2.2.2.1]
          exact ih.1
        · rw [hfr.2.1, hfr.2.2.2.1]
          exact ih.2
    | ack port orig hdl u u' hout hrule => exact ruleMsg_c4 hrule ih.1 ih.2
    | rr u u' hrr => exact reserveRelease_c4 hrr ih.1 ih.2

theorem reach_bind_req {o : Option P2PState} {m : RequestMsg}
    (h : ∀ t, o = some t → Reachable envSix t) :
    ∀ t, o.bind (p2pRequest m) = some t → Reachable envSix t := by
  cases o with
  | none => intro t ht; exact Option.noConfusion ht
  | some u =>
    intro t ht
    exact Relation.ReflTransGen.tail (h u rfl) (PStep.request m u t ht)

theorem reach_bind_ack {o : Option P2PState} {k : Nat}
    (h : ∀ t, o = some t → Reachable envSix t) :
    ∀ t, o.bind (ackOutput k) = some t → Reachable envSix t := by
  cases o with
  | none => intro t ht; exact Option.noConfusion ht
  | some u =>
    intro t ht
    have ht' : ackOutput k u = some t := ht
    simp only [ackOutput] at ht'
    cases hk : u.outputs.get? k with
    | none =>
      simp only [hk] at ht'
      exact Option.noConfusion ht'
    | some om =>
      cases om with
      | request port mm =>
        simp only [hk] at ht'
        exact Option.noConfusion ht'
      | rule port mm =>
        simp only [hk] at ht'
        exact Relation.ReflTransGen.tail (h u rfl)
          (PStep.ack port mm (100 + k) u t (List.get?_mem hk) ht')

/-- Every state produced by the `c4Reach` trace is reachable. -/
theorem c4Reach_reachable : ∀ t, c4Reach = some t → Reachable envSix t := by
  refine reach_bind_ack (reach_bind_ack (reach_bind_ack (reach_bind_ack (reach_bind_ack
    (reach_bind_ack (reach_bind_req (reach_bind_req ?_)))))))
  intro t ht
  rw [Option.some_inj] at ht
  subst ht
  exact Relation.ReflTransGen.refl

/-- C4.  Installing-to-active transition: a reservation-side acknowledgment
(table insert or BSM group creation) moves the circuit from `_installing` to
`_active` exactly when its outstanding set, minus the acknowledged rule id,
becomes empty — and exactly at that moment the ready (`RSRV`) notification is
emitted to both hosts of the circuit's pair, the outputs being otherwise
unchanged; moreover in every reachable point-to-point state an active circuit
has an empty outstanding reservation set, so while the set is non-empty the
circuit is never in the active map. -/
theorem installing_to_active (env : Env) :
    (∀ (m : RuleMsg) (s s' : P2PState), ruleMsg m s = some s' →
      (m.rule_action = RuleAction.INSERT_TABLE_ENTRY ∨
        m.rule_action = RuleAction.CREATE_BSM_GRP) →
      (((rmGet s.reserveMsgs m.circuit_id).erase m.rule_id = [] →
        ∃ c, lookupA s.installing m.circuit_id = some c ∧
          s'.installing = eraseA s.installing m.circuit_id ∧
          s'.active = insertA s.active m.circuit_id c ∧
          s'.outputs = s.outputs ++
            notifyOut ⟨QcpOp.OP_RSRV, c.pair.1, c.pair.2, m.circuit_id⟩) ∧
       ((rmGet s.reserveMsgs m.circuit_id).erase m.rule_id ≠ [] →
        s'.installing = s.installing ∧ s'.active = s.active ∧
          s'.outputs = s.outputs))) ∧
    (∀ s : P2PState, Reachable env s →
      ∀ cid ∈ keysA s.active, rmGet s.reserveMsgs cid = []) := by
  constructor
  · intro m s s' h hty
    obtain ⟨hmem, rh, hrh, rh', -, hcase⟩ := ruleMsg_reserve_spec h hty
    constructor
    · intro hrem0
      rcases hcase with ⟨hrem, c, hc, rfl⟩ | ⟨hrem, rfl⟩
      · exact ⟨c, hc, rfl, rfl, rfl⟩
      · exact absurd hrem0 hrem
    · intro hrem0
      rcases hcase with ⟨hrem, c, hc, rfl⟩ | ⟨hrem, rfl⟩
      · exact absurd hrem hrem0
      · exact ⟨rfl, rfl, rfl⟩
  · intro s hreach
    exact (p2p_c4_inv env s hreach).2

/-- C4 witness: the concrete acknowledgment `c4m` in state `c4s` (a single
outstanding install ack) moves circuit 5 to `active` with the ready
notification to both hosts; and on the reachable state `c4act` (circuit 0
active after a full install) the invariant yields an empty outstanding set. -/
theorem installing_to_active_witness :
    ruleMsg c4m c4s = some c4s' ∧
    (lookupA c4s.installing c4m.circuit_id = some ⟨5, ("h1", "h2")⟩ ∧
      c4s'.installing = eraseA c4s.installing c4m.circuit_id ∧
      c4s'.active = insertA c4s.active c4m.circuit_id ⟨5, ("h1", "h2")⟩ ∧
      c4s'.outputs = c4s.outputs ++
        notifyOut ⟨QcpOp.OP_RSRV, "h1", "h2", c4m.circuit_id⟩) ∧
    0 ∈ keysA c4act.active ∧ rmGet c4act.reserveMsgs 0 = [] := by
  refine ⟨rfl, ?_, by decide,
    (installing_to_active envSix).2 c4act (c4Reach_reachable c4act rfl) 0 (by decide)⟩
  obtain ⟨c, hc, h1, h2, h3⟩ :=
    ((installing_to_active envSix).1 c4m c4s c4s' rfl (Or.inl rfl)).1 (by decide)
  have hc' : (⟨5, ("h1", "h2")⟩ : ActiveCircuit) = c := Option.some_inj.mp hc
  subst hc'
  exact ⟨hc, h1, h2, h3⟩

end V1Q

namespace V1Q

/-!
## C5: counting install and removal commands
-/

theorem insCount_append (cid : Nat) (a b : List OutMsg) :
    insCount cid (a ++ b) = insCount cid a + insCount cid b := by
  simp [insCount, List.filter_append]

theorem remCount_append (cid : Nat) (a b : List OutMsg) :
    remCount cid (a ++ b) = remCount cid a + remCount cid b := by
  simp [remCount, List.filter_append]

theorem insCount_notifyOut (cid : Nat) (m : RequestMsg) : insCount cid (notifyOut m) = 0 := rfl

theorem remCount_notifyOut (cid : Nat) (m : RequestMsg) : remCount cid (notifyOut m) = 0 := rfl

theorem isRemove_of_install (c cid : Nat) (o : OutMsg) (h : isInstallRuleFor cid o = true) :
    isRemoveRuleFor c o = false := by
  cases o with
  | request port m => rfl
  | rule port m =>
    simp only [isInstallRuleFor, Bool.and_eq_true, Bool.or_eq_true, decide_eq_true_eq] at h
    rcases h with ⟨-, h2 | h2⟩ <;> simp [isRemoveRuleFor, h2]

theorem isInstall_other (c cid : Nat) (o : OutMsg) (h : isInstallRuleFor cid o = true)
    (hne : c ≠ cid) : isInstallRuleFor c o = false := by
  cases o with
  | request port m => rfl
  | rule port m =>
    simp only [isInstallRuleFor, Bool.and_eq_true, Bool.or_eq_true, decide_eq_true_eq] at h
    have hcc : m.circuit_id ≠ c := by
      rw [h.1]
      exact fun he => hne he.symm
    simp [isInstallRuleFor, hcc]

theorem insCount_all {cid : Nat} {t : List OutMsg}
    (h : ∀ o ∈ t, isInstallRuleFor cid o = true) : insCount cid t = t.length := by
  rw [insCount, List.filter_eq_self.mpr h]

theorem remCount_all {cid : Nat} {t : List OutMsg}
    (h : ∀ o ∈ t, isRemoveRuleFor cid o = true) : remCount cid t = t.length := by
  rw [remCount, List.filter_eq_self.mpr h]

theorem insCount_zero {cid : Nat} {t : List OutMsg}
    (h : ∀ o ∈ t, isInstallRuleFor cid o = false) : insCount cid t = 0 := by
  rw [insCount, List.filter_eq_nil.mpr (fun o ho => by simp [h o ho]), List.length_nil]

theorem remCount_zero {cid : Nat} {t : List OutMsg}
    (h : ∀ o ∈ t, isRemoveRuleFor cid o = false) : remCount cid t = 0 := by
  rw [remCount, List.filter_eq_nil.mpr (fun o ho => by simp [h o ho]), List.length_nil]

theorem ruleIds_length {cid : Nat} : ∀ {t : List OutMsg},
    (∀ o ∈ t, isInstallRuleFor cid o = true) → (ruleIds t).length = t.length := by
  intro t
  induction t with
  | nil => intro h; rfl
  | cons o rest ih =>
    intro h
    cases o with
    | request port m =>
      have := h _ (List.mem_cons_self _ _)
      simp [isInstallRuleFor] at this
    | rule port m =>
      have hr : ruleIds (OutMsg.rule port m :: rest) = m.rule_id :: ruleIds rest := rfl
      rw [hr, List.length_cons, List.length_cons,
        ih (fun o ho => h o (List.mem_cons_of_mem _ ho))]

theorem tableRemovalMsgs_all (cid : Nat) :
    ∀ (i : Nat) (ths : List TableHandle), ∀ o ∈ tableRemovalMsgs cid i ths,
      isRemoveRuleFor cid o = true ∧ (∀ c, isInstallRuleFor c o = false) ∧
      (∀ c, c ≠ cid → isRemoveRuleFor c o = false) := by
  intro i ths
  induction ths generalizing i with
  | nil => intro o ho; simp [tableRemovalMsgs] at ho
  | cons th rest ih =>
    intro o ho
    rcases List.mem_cons.mp ho with rfl | ho'
    · refine ⟨by simp [isRemoveRuleFor], fun c => by simp [isInstallRuleFor],
        fun c hc => by simp [isRemoveRuleFor, Ne.symm hc]⟩
    · exact ih (i + 1) o ho'

theorem destroyMsgs_all (cid : Nat) :
    ∀ (i : Nat) (bhs : List BsmGrpHandle), ∀ o ∈ destroyMsgs cid i bhs,
      isRemoveRuleFor cid o = true ∧ (∀ c, isInstallRuleFor c o = false) ∧
      (∀ c, c ≠ cid → isRemoveRuleFor c o = false) := by
  intro i bhs
  induction bhs generalizing i with
  | nil => intro o ho; simp [destroyMsgs] at ho
  | cons bh rest ih =>
    intro o ho
    rcases List.mem_cons.mp ho with rfl | ho'
    · refine ⟨by simp [isRemoveRuleFor], fun c => by simp [isInstallRuleFor],
        fun c hc => by simp [isRemoveRuleFor, Ne.symm hc]⟩
    · exact ih (i + 1) o ho'

theorem tableRemovalMsgs_length (cid : Nat) :
    ∀ (i : Nat) (ths : List TableHandle), (tableRemovalMsgs cid i ths).length = ths.length := by
  intro i ths
  induction ths generalizing i with
  | nil => rfl
  | cons th rest ih => simp [tableRemovalMsgs, ih (i + 1)]

theorem destroyMsgs_length (cid : Nat) :
    ∀ (i : Nat) (bhs : List BsmGrpHandle), (destroyMsgs cid i bhs).length = bhs.length := by
  intro i bhs
  induction bhs generalizing i with
  | nil => rfl
  | cons bh rest ih => simp [destroyMsgs, ih (i + 1)]

theorem tableRemovalMsgs_ruleIds (cid : Nat) :
    ∀ (i : Nat) (ths : List TableHandle),
    ruleIds (tableRemovalMsgs cid i ths) = List.range' i ths.length := by
  intro i ths
  induction ths generalizing i with
  | nil => rfl
  | cons th rest ih =>
    have hr : ruleIds (tableRemovalMsgs cid i (th :: rest)) =
        i :: ruleIds (tableRemovalMsgs cid (i + 1) rest) := rfl
    rw [hr, ih (i + 1), List.length_cons, List.range'_succ]

theorem destroyMsgs_ruleIds (cid : Nat) :
    ∀ (i : Nat) (bhs : List BsmGrpHandle),
    ruleIds (destroyMsgs cid i bhs) = List.range' i bhs.length := by
  intro i bhs
  induction bhs generalizing i with
  | nil => rfl
  | cons bh rest ih =>
    have hr : ruleIds (destroyMsgs cid i (bh :: rest)) =
        i :: ruleIds (destroyMsgs cid (i + 1) rest) := rfl
    rw [hr, ih (i + 1), List.length_cons, List.range'_succ]

theorem removalMsgs_ruleIds (cid i : Nat) (rh : RouteHandles) :
    ruleIds (removalMsgs cid i rh) =
      List.range' i (rh.tables.length + rh.bsm_grps.length) := by
  rw [removalMsgs, ruleIds, List.filterMap_append, ← ruleIds, ← ruleIds,
    tableRemovalMsgs_ruleIds, destroyMsgs_ruleIds, List.length_reverse, List.length_reverse]
  have h := List.range'_append i rh.tables.length rh.bsm_grps.length 1
  rw [one_mul] at h
  rw [h]
  congr 1
  omega

theorem remCount_removalMsgs (cid i : Nat) (rh : RouteHandles) :
    remCount cid (removalMsgs cid i rh) = rh.tables.length + rh.bsm_grps.length := by
  rw [removalMsgs, remCount_append,
    remCount_all (fun o ho => (tableRemovalMsgs_all cid _ _ o ho).1),
    remCount_all (fun o ho => (destroyMsgs_all cid _ _ o ho).1),
    tableRemovalMsgs_length, destroyMsgs_length, List.length_reverse, List.length_reverse]

theorem insCount_removalMsgs (c cid i : Nat) (rh : RouteHandles) :
    insCount c (removalMsgs cid i rh) = 0 := by
  rw [removalMsgs, insCount_append,
    insCount_zero (fun o ho => (tableRemovalMsgs_all cid _ _ o ho).2.1 c),
    insCount_zero (fun o ho => (destroyMsgs_all cid _ _ o ho).2.1 c)]

theorem remCount_removalMsgs_other (c cid : Nat) (hne : c ≠ cid) (i : Nat)
    (rh : RouteHandles) : remCount c (removalMsgs cid i rh) = 0 := by
  rw [removalMsgs, remCount_append,
    remCount_zero (fun o ho => (tableRemovalMsgs_all cid _ _ o ho).2.2 c hne),
    remCount_zero (fun o ho => (destroyMsgs_all cid _ _ o ho).2.2 c hne)]

theorem mem_keysA_insertA_of_mem {α β : Type} [DecidableEq α] (l : List (α × β)) (k : α)
    (v : β) {k' : α} (h : k' ∈ keysA l) : k' ∈ keysA (insertA l k v) := by
  by_cases hk : k ∈ keysA l
  · rw [keysA_insertA_mem _ _ _ hk]
    exact h
  · rw [keysA_insertA_not_mem _ _ _ hk]
    exact List.mem_append_left _ h

theorem mem_keysA_insertA_self {α β : Type} [DecidableEq α] (l : List (α × β)) (k : α)
    (v : β) : k ∈ keysA (insertA l k v) := by
  rw [← lookupA_isSome_iff_mem_keysA, lookupA_insertA_self]
  rfl

theorem uninstallTables_rel_nodup {σ : Type} (cid : Nat) :
    ∀ (ths : List TableHandle) (s : CtrlState σ),
    (keysA s.releaseMsgs).Nodup → (keysA (uninstallTables cid ths s).releaseMsgs).Nodup := by
  intro ths
  induction ths with
  | nil => intro s h; exact h
  | cons th rest ih =>
    intro s h
    exact ih _ (nodup_keysA_insertA _ _ _ h)

theorem uninstallBsmGrps_rel_nodup {σ : Type} (V : Variant σ) (cid : Nat) (tnode : String) :
    ∀ (bhs : List BsmGrpHandle) (s s' : CtrlState σ),
    uninstallBsmGrps V cid tnode bhs s = some s' →
    (keysA s.releaseMsgs).Nodup → (keysA s'.releaseMsgs).Nodup := by
  intro bhs
  induction bhs with
  | nil =>
    intro s s' h hn
    simp only [uninstallBsmGrps, Option.some_inj] at h
    subst h
    exact hn
  | cons bh rest ih =>
    intro s s' h hn
    simp only [uninstallBsmGrps] at h
    split at h
    · exact Option.noConfusion h
    case _ e he => exact ih _ _ h (nodup_keysA_insertA _ _ _ hn)

theorem uninstallPath_rel_nodup {σ : Type} {V : Variant σ} {cid : Nat} {s s' : CtrlState σ}
    (h : uninstallPath V cid s = some s')
    (hn : (keysA s.releaseMsgs).Nodup) : (keysA s'.releaseMsgs).Nodup := by
  simp only [uninstallPath] at h
  split at h
  case isFalse => exact Option.noConfusion h
  case isTrue hrel0 =>
  split at h
  · exact Option.noConfusion h
  case _ rh hrh =>
    have h₂ := uninstallTables_rel_nodup cid rh.tables.reverse s hn
    split at h
    case _ hbg =>
      simp only [Option.some_inj] at h
      subst h
      exact h₂
    case _ bh0 bgrest hbg =>
      split at h
      · exact Option.noConfusion h
      case _ th0 hth0 =>
        split at h
        · exact Option.noConfusion h
        case _ s₃ hbsm =>
          simp only [Option.some_inj] at h
          subst h
          have h₃ := uninstallBsmGrps_rel_nodup V cid th0.node _ _ _ hbsm h₂
          exact h₃

end V1Q

namespace V1Q

/-!
## C5: the ledger invariant is preserved by every step
-/

theorem requestMsgCore_ledger {m : RequestMsg} {s s' : P2PState}
    (h : requestMsgCore m s = some s') (hI : LedgerInv s) : LedgerInv s' := by
  obtain ⟨h1, h2, h3, h4, h5, h6, h7, h8, -, -⟩ := requestMsgCore_frame h
  have hhc : ∀ c1, handleCount s' c1 = handleCount s c1 := by
    intro c1
    simp only [handleCount, h6]
  constructor
  · rw [h4]
    exact hI.res_nodup
  · rw [h5]
    exact hI.rel_nodup
  · rw [h1, h2]
    exact hI.excl
  · intro c1 hc1
    rw [h4]
    exact hI.act_res c1 (by rwa [h2] at hc1)
  · intro c1 hne1
    rw [h1]
    exact hI.res_inst c1 (by rwa [h4] at hne1)
  · intro c1 hne1
    rw [h2]
    exact hI.rel_act c1 (by rwa [h5] at hne1)
  · intro c1 hi1 ha1
    rw [hhc]
    exact hI.idle_handles c1 (by rwa [h1] at hi1) (by rwa [h2] at ha1)
  · intro c1 hne1
    rw [hhc]
    exact hI.rel_handles c1 (by rwa [h5] at hne1)
  · intro c1
    rw [h7, hhc, h4]
    exact hI.ledger c1

theorem drainStep_ledger {chk : RequestMsg → P2PState → Bool} {m : RequestMsg}
    {s s' : P2PState} (h : drainStep p2pVariant chk m s = some s') (hI : LedgerInv s) :
    LedgerInv s' := by
  obtain ⟨-, hcase⟩ := drainStep_spec h
  rcases hcase with ⟨c, hc, hpair, hrel⟩ | ⟨hna, hq, rfl⟩ | ⟨hna, hq, rfl⟩
  · obtain ⟨hni, c', hc', hp', hun⟩ := releaseOp_spec hrel
    obtain ⟨hrel0, rh, hrh, hpend, hrq, hrlq, hinst, hact, hres, hhdl, hnr, hout, hrmc,
      hrmo, -, -⟩ := uninstallPath_spec hun
    have hhc : ∀ c1, c1 ≠ m.request_id → handleCount s' c1 = handleCount s c1 := by
      intro c1 hne
      simp only [handleCount, hhdl, lookupA_insertA_ne _ _ _ _ hne]
    have hhc0 : handleCount s' m.request_id = 0 := by
      simp only [handleCount, hhdl, lookupA_insertA_self]
      rfl
    have hhcS : handleCount s m.request_id = rh.tables.length + rh.bsm_grps.length := by
      simp only [handleCount, hrh]
    have hactmem : m.request_id ∈ keysA s.active := by
      rw [← lookupA_isSome_iff_mem_keysA, hc']
      rfl
    constructor
    · rw [hres]
      exact hI.res_nodup
    · exact uninstallPath_rel_nodup hun hI.rel_nodup
    · rw [hinst, hact]
      exact hI.excl
    · intro c1 hc1
      rw [hres]
      exact hI.act_res c1 (by rwa [hact] at hc1)
    · intro c1 hne1
      rw [hinst]
      exact hI.res_inst c1 (by rwa [hres] at hne1)
    · intro c1 hne1
      rw [hact]
      by_cases he1 : c1 = m.request_id
      · subst he1
        exact hactmem
      · refine hI.rel_act c1 ?_
        rwa [rmGet, hrmo c1 he1, ← rmGet] at hne1
    · intro c1 hi1 ha1
      by_cases he1 : c1 = m.request_id
      · subst he1
        exact hhc0
      · rw [hhc c1 he1]
        exact hI.idle_handles c1 (by rwa [hinst] at hi1) (by rwa [hact] at ha1)
    · intro c1 hne1
      by_cases he1 : c1 = m.request_id
      · subst he1
        exact hhc0
      · rw [hhc c1 he1]
        refine hI.rel_handles c1 ?_
        rwa [rmGet, hrmo c1 he1, ← rmGet] at hne1
    · intro c1
      by_cases he1 : c1 = m.request_id
      · subst he1
        rw [hout, insCount_append, remCount_append, insCount_removalMsgs,
          remCount_removalMsgs, hhc0, hres]
        have hled := hI.ledger m.request_id
        rw [hhcS] at hled
        omega
      · rw [hout, insCount_append, remCount_append, insCount_removalMsgs,
          remCount_removalMsgs_other c1 _ he1, hhc c1 he1, hres]
        have hled := hI.ledger c1
        omega
  · constructor
    · exact hI.res_nodup
    · exact hI.rel_nodup
    · exact hI.excl
    · exact hI.act_res
    · exact hI.res_inst
    · exact hI.rel_act
    · exact hI.idle_handles
    · exact hI.rel_handles
    · intro c1
      show insCount c1 (s.outputs ++ notifyOut m) =
        handleCount s c1 + (rmGet s.reserveMsgs c1).length +
          remCount c1 (s.outputs ++ notifyOut m)
      rw [insCount_append, remCount_append, insCount_notifyOut, remCount_notifyOut]
      have hled := hI.ledger c1
      omega
  · exact hI

theorem drainSeq_ledger {chk : RequestMsg → P2PState → Bool} :
    ∀ {l : List RequestMsg} {s s' : P2PState},
    drainSeq p2pVariant chk l s = some s' → LedgerInv s → LedgerInv s' := by
  intro l
  induction l with
  | nil =>
    intro s s' h hI
    simp only [drainSeq, Option.some_inj] at h
    subst h
    exact hI
  | cons m rest ih =>
    intro s s' h hI
    simp only [drainSeq] at h
    split at h
    · exact Option.noConfusion h
    case _ t hds => exact ih h (drainStep_ledger hds hI)

end V1Q

namespace V1Q

/-- `_reserve_release` preserves the ledger invariant. -/
theorem reserveRelease_ledger {env : Env} {s s' : P2PState}
    (h : reserveRelease env s = some s') (hI : LedgerInv s) : LedgerInv s' := by
  simp only [reserveRelease] at h
  rw [drainLoop_eq_drainSeq p2pVariant (fun _ _ => true) (fun _ _ _ => rfl)
    s.releaseQueue.length s (le_refl _)] at h
  split at h
  · exact Option.noConfusion h
  case _ s₁ hdrain =>
    have hI0 : LedgerInv (setRq [] s) :=
      ⟨hI.res_nodup, hI.rel_nodup, hI.excl, hI.act_res, hI.res_inst, hI.rel_act,
        hI.idle_handles, hI.rel_handles, hI.ledger⟩
    have hI₁ := drainSeq_ledger hdrain hI0
    rcases admitLoop_spec h with ⟨-, rfl⟩ | ⟨hq, hi, ha, rid, mm, hlast, hres⟩
    · exact hI₁
    · obtain ⟨hni, hna, he⟩ := reserveOp_spec hres
      obtain ⟨t, hot, hall, hids⟩ := he.outputs
      have hinst' : s'.installing =
          [(mm.request_id, ⟨mm.request_id, sortPair mm.source mm.remote⟩)] := by
        rw [he.installing]
        show insertA s₁.installing _ _ = _
        rw [hi]
        rfl
      have hact' : s'.active = [] := by
        rw [he.active]
        exact ha
      have hh' : s'.handles = insertA s₁.handles mm.request_id ⟨[], []⟩ := he.handles
      have hrm_other : ∀ c1, c1 ≠ mm.request_id →
          lookupA s'.reserveMsgs c1 = lookupA s₁.reserveMsgs c1 := he.rm_other
      have hrm_cid : rmGet s'.reserveMsgs mm.request_id =
          rmGet s₁.reserveMsgs mm.request_id ++
            List.range' s₁.nextRuleId (s'.nextRuleId - s₁.nextRuleId) := he.rm_cid
      have hout' : s'.outputs = s₁.outputs ++ t := hot
      have hrel' : s'.releaseMsgs = s₁.releaseMsgs := he.releaseMsgs
      have hids' : ruleIds t = List.range' s₁.nextRuleId (s'.nextRuleId - s₁.nextRuleId) :=
        hids
      have hres0 : rmGet s₁.reserveMsgs mm.request_id = [] := by
        by_contra hx
        have hm := hI₁.res_inst mm.request_id hx
        rw [hi] at hm
        simp [keysA] at hm
      constructor
      · refine he.rm_nodup ?_
        show (keysA s₁.reserveMsgs).Nodup
        exact hI₁.res_nodup
      · rw [hrel']
        exact hI₁.rel_nodup
      · rw [hinst', hact']
        simp
      · intro c1 hc1
        rw [hact'] at hc1
        simp [keysA] at hc1
      · intro c1 hne1
        rw [hinst']
        by_cases he1 : c1 = mm.request_id
        · subst he1
          simp [keysA]
        · exfalso
          rw [rmGet, hrm_other c1 he1, ← rmGet] at hne1
          have hm := hI₁.res_inst c1 hne1
          rw [hi] at hm
          simp [keysA] at hm
      · intro c1 hne1
        exfalso
        rw [rmGet, hrel', ← rmGet] at hne1
        have hm := hI₁.rel_act c1 hne1
        rw [ha] at hm
        simp [keysA] at hm
      · intro c1 hi1 ha1
        by_cases he1 : c1 = mm.request_id
        · subst he1
          exfalso
          apply hi1
          rw [hinst']
          simp [keysA]
        · have hhc : handleCount s' c1 = handleCount s₁ c1 := by
            simp only [handleCount, hh', lookupA_insertA_ne _ _ _ _ he1]
          rw [hhc]
          refine hI₁.idle_handles c1 ?_ ?_
          · rw [hi]
            simp [keysA]
          · rw [ha]
            simp [keysA]
      · intro c1 hne1
        exfalso
        rw [rmGet, hrel', ← rmGet] at hne1
        have hm := hI₁.rel_act c1 hne1
        rw [ha] at hm
        simp [keysA] at hm
      · intro c1
        by_cases he1 : c1 = mm.request_id
        · subst he1
          have hhc0 : handleCount s' mm.request_id = 0 := by
            simp only [handleCount, hh', lookupA_insertA_self]
            rfl
          have hhcS : handleCount s₁ mm.request_id = 0 := by
            refine hI₁.idle_handles mm.request_id ?_ ?_
            · rw [hi]
              simp [keysA]
            · rw [ha]
              simp [keysA]
          have e1 : insCount mm.request_id t = t.length := insCount_all hall
          have e2 : remCount mm.request_id t = 0 :=
            remCount_zero (fun o ho => isRemove_of_install _ _ o (hall o ho))
          have hlt : t.length = s'.nextRuleId - s₁.nextRuleId := by
            rw [← ruleIds_length hall, hids', List.length_range']
          have e3 : (rmGet s'.reserveMsgs mm.request_id).length =
              s'.nextRuleId - s₁.nextRuleId := by
            rw [hrm_cid, hres0]
            simp [List.length_range']
          rw [hout', insCount_append, remCount_append, e1, e2, hhc0, e3, hlt]
          have hled := hI₁.ledger mm.request_id
          rw [hres0, hhcS] at hled
          simp only [List.length_nil] at hled
          omega
        · have hhc : handleCount s' c1 = handleCount s₁ c1 := by
            simp only [handleCount, hh', lookupA_insertA_ne _ _ _ _ he1]
          have hrm : rmGet s'.reserveMsgs c1 = rmGet s₁.reserveMsgs c1 := by
            simp only [rmGet, hrm_other c1 he1]
          have e1 : insCount c1 t = 0 :=
            insCount_zero (fun o ho => isInstall_other c1 mm.request_id o (hall o ho) he1)
          have e2 : remCount c1 t = 0 :=
            remCount_zero (fun o ho => isRemove_of_install c1 mm.request_id o (hall o ho))
          rw [hout', insCount_append, remCount_append, e1, e2, hhc, hrm]
          have hled := hI₁.ledger c1
          omega

end V1Q

namespace V1Q

/-- `__rule_msg` preserves the ledger invariant. -/
theorem ruleMsg_ledger {m : RuleMsg} {s s' : P2PState}
    (h : ruleMsg m s = some s') (hI : LedgerInv s) : LedgerInv s' := by
  have hnd_act := ruleMsg_c4 h hI.res_nodup hI.act_res
  have hexcl := ruleMsg_excl h hI.excl
  rcases ruleMsg_cases h with hty | hty
  · obtain ⟨hmem, rh, hrh, rh', hrh'cases, hcase⟩ := ruleMsg_reserve_spec h hty
    have hrhlen : rh'.tables.length + rh'.bsm_grps.length =
        rh.tables.length + rh.bsm_grps.length + 1 := by
      rcases hrh'cases with ⟨-, b, tb, k, an, ad, hdl, -, rfl⟩ | ⟨-, gid, e0, e1, -, rfl⟩ <;>
        · simp
          omega
    have hinstmem : m.circuit_id ∈ keysA s.installing :=
      hI.res_inst _ (List.ne_nil_of_mem hmem)
    have hnotact : m.circuit_id ∉ keysA s.active := by
      intro hin
      rw [hI.act_res _ hin] at hmem
      exact List.not_mem_nil _ hmem
    have hhS : handleCount s m.circuit_id = rh.tables.length + rh.bsm_grps.length := by
      simp only [handleCount, hrh]
    have hrmlen : (rmGet s.reserveMsgs m.circuit_id).length =
        ((rmGet s.reserveMsgs m.circuit_id).erase m.rule_id).length + 1 := by
      rw [List.length_erase_of_mem hmem]
      have hpos : 0 < (rmGet s.reserveMsgs m.circuit_id).length :=
        List.length_pos.mpr (List.ne_nil_of_mem hmem)
      omega
    rcases hcase with ⟨hrem, c, hc, hs'⟩ | ⟨hrem, hs'⟩
    · have e_rm : s'.reserveMsgs = eraseA s.reserveMsgs m.circuit_id := by rw [hs']
      have e_rel : s'.releaseMsgs = s.releaseMsgs := by rw [hs']
      have e_inst : s'.installing = eraseA s.installing m.circuit_id := by rw [hs']
      have e_act : s'.active = insertA s.active m.circuit_id c := by rw [hs']
      have e_handles : s'.handles = insertA s.handles m.circuit_id rh' := by rw [hs']
      have e_out : s'.outputs = s.outputs ++
          notifyOut ⟨QcpOp.OP_RSRV, c.pair.1, c.pair.2, m.circuit_id⟩ := by rw [hs']
      constructor
      · exact hnd_act.1
      · rw [e_rel]
        exact hI.rel_nodup
      · exact hexcl
      · exact hnd_act.2
      · intro c1 hne1
        rw [e_rm] at hne1
        rw [e_inst]
        by_cases he1 : c1 = m.circuit_id
        · subst he1
          rw [rmGet, lookupA_eraseA_self _ _ hI.res_nodup] at hne1
          exact absurd rfl hne1
        · rw [rmGet, lookupA_eraseA_ne _ _ _ he1, ← rmGet] at hne1
          exact mem_keysA_eraseA_of_ne _ _ _ he1 (hI.res_inst c1 hne1)
      · intro c1 hne1
        rw [e_rel] at hne1
        rw [e_act]
        exact mem_keysA_insertA_of_mem _ _ _ (hI.rel_act c1 hne1)
      · intro c1 hi1 ha1
        rw [e_inst] at hi1
        rw [e_act] at ha1
        have hc1ne : c1 ≠ m.circuit_id := by
          intro he1
          subst he1
          exact ha1 (mem_keysA_insertA_self _ _ _)
        have hi1' : c1 ∉ keysA s.installing :=
          fun hm => hi1 (mem_keysA_eraseA_of_ne _ _ _ hc1ne hm)
        have ha1' : c1 ∉ keysA s.active :=
          fun hm => ha1 (mem_keysA_insertA_of_mem _ _ _ hm)
        have hhc : handleCount s' c1 = handleCount s c1 := by
          simp only [handleCount, e_handles, lookupA_insertA_ne _ _ _ _ hc1ne]
        rw [hhc]
        exact hI.idle_handles c1 hi1' ha1'
      · intro c1 hne1
        rw [e_rel] at hne1
        have hc1ne : c1 ≠ m.circuit_id :=
          fun he1 => hnotact (he1 ▸ hI.rel_act c1 hne1)
        have hhc : handleCount s' c1 = handleCount s c1 := by
          simp only [handleCount, e_handles, lookupA_insertA_ne _ _ _ _ hc1ne]
        rw [hhc]
        exact hI.rel_handles c1 hne1
      · intro c1
        by_cases he1 : c1 = m.circuit_id
        · subst he1
          have hh' : handleCount s' m.circuit_id =
              rh'.tables.length + rh'.bsm_grps.length := by
            simp only [handleCount, e_handles, lookupA_insertA_self]
          have hrm' : rmGet s'.reserveMsgs m.circuit_id = [] := by
            rw [e_rm, rmGet, lookupA_eraseA_self _ _ hI.res_nodup]
            rfl
          rw [e_out, insCount_append, remCount_append, insCount_notifyOut,
            remCount_notifyOut, hh', hrm']
          have hled := hI.ledger m.circuit_id
          rw [hhS] at hled
          rw [hrem] at hrmlen
          simp only [List.length_nil] at hrmlen ⊢
          omega
        · have hhc : handleCount s' c1 = handleCount s c1 := by
            simp only [handleCount, e_handles, lookupA_insertA_ne _ _ _ _ he1]
          have hrmc : rmGet s'.reserveMsgs c1 = rmGet s.reserveMsgs c1 := by
            simp only [rmGet, e_rm, lookupA_eraseA_ne _ _ _ he1]
          rw [e_out, insCount_append, remCount_append, insCount_notifyOut,
            remCount_notifyOut, hhc, hrmc]
          have hled := hI.ledger c1
          omega
    · have e_rm : s'.reserveMsgs = insertA s.reserveMsgs m.circuit_id
          ((rmGet s.reserveMsgs m.circuit_id).erase m.rule_id) := by rw [hs']
      have e_rel : s'.releaseMsgs = s.releaseMsgs := by rw [hs']
      have e_inst : s'.installing = s.installing := by rw [hs']
      have e_act : s'.active = s.active := by rw [hs']
      have e_handles : s'.handles = insertA s.handles m.circuit_id rh' := by rw [hs']
      have e_out : s'.outputs = s.outputs := by rw [hs']
      constructor
      · exact hnd_act.1
      · rw [e_rel]
        exact hI.rel_nodup
      · exact hexcl
      · exact hnd_act.2
      · intro c1 hne1
        rw [e_rm] at hne1
        rw [e_inst]
        by_cases he1 : c1 = m.circuit_id
        · subst he1
          exact hinstmem
        · rw [rmGet, lookupA_insertA_ne _ _ _ _ he1, ← rmGet] at hne1
          exact hI.res_inst c1 hne1
      · intro c1 hne1
        rw [e_rel] at hne1
        rw [e_act]
        exact hI.rel_act c1 hne1
      · intro c1 hi1 ha1
        rw [e_inst] at hi1
        rw [e_act] at ha1
        by_cases he1 : c1 = m.circuit_id
        · subst he1
          exact absurd hinstmem hi1
        · have hhc : handleCount s' c1 = handleCount s c1 := by
            simp only [handleCount, e_handles, lookupA_insertA_ne _ _ _ _ he1]
          rw [hhc]
          exact hI.idle_handles c1 hi1 ha1
      · intro c1 hne1
        rw [e_rel] at hne1
        have hc1ne : c1 ≠ m.circuit_id :=
          fun he1 => hnotact (he1 ▸ hI.rel_act c1 hne1)
        have hhc : handleCount s' c1 = handleCount s c1 := by
          simp only [handleCount, e_handles, lookupA_insertA_ne _ _ _ _ hc1ne]
        rw [hhc]
        exact hI.rel_handles c1 hne1
      · intro c1
        by_cases he1 : c1 = m.circuit_id
        · subst he1
          have hh' : handleCount s' m.circuit_id =
              rh'.tables.length + rh'.bsm_grps.length := by
            simp only [handleCount, e_handles, lookupA_insertA_self]
          have hrm' : rmGet s'.reserveMsgs m.circuit_id =
              (rmGet s.reserveMsgs m.circuit_id).erase m.rule_id := by
            rw [e_rm, rmGet, lookupA_insertA_self]
            rfl
          rw [e_out, hh', hrm']
          have hled := hI.ledger m.circuit_id
          rw [hhS] at hled
          omega
        · have hhc : handleCount s' c1 = handleCount s c1 := by
            simp only [handleCount, e_handles, lookupA_insertA_ne _ _ _ _ he1]
          have hrmc : rmGet s'.reserveMsgs c1 = rmGet s.reserveMsgs c1 := by
            simp only [rmGet, e_rm, lookupA_insertA_ne _ _ _ _ he1]
          rw [e_out, hhc, hrmc]
          exact hI.ledger c1
  · obtain ⟨hmem, hcase⟩ := ruleMsg_release_spec h hty
    have hactmem : m.circuit_id ∈ keysA s.active :=
      hI.rel_act _ (List.ne_nil_of_mem hmem)
    have hh0 : handleCount s m.circuit_id = 0 :=
      hI.rel_handles _ (List.ne_nil_of_mem hmem)
    rcases hcase with ⟨hrem, c, hc, hs'⟩ | ⟨hrem, hs'⟩
    · have e_rm : s'.reserveMsgs = s.reserveMsgs := by rw [hs']
      have e_rel : s'.releaseMsgs = eraseA s.releaseMsgs m.circuit_id := by rw [hs']
      have e_inst : s'.installing = s.installing := by rw [hs']
      have e_act : s'.active = eraseA s.active m.circuit_id := by rw [hs']
      have e_handles : s'.handles = s.handles := by rw [hs']
      have e_out : s'.outputs = s.outputs ++
          notifyOut ⟨QcpOp.OP_FREE, c.pair.1, c.pair.2, m.circuit_id⟩ := by rw [hs']
      have hhcA : ∀ c1, handleCount s' c1 = handleCount s c1 := by
        intro c1
        simp only [handleCount, e_handles]
      constructor
      · exact hnd_act.1
      · rw [e_rel]
        exact nodup_keysA_eraseA _ _ hI.rel_nodup
      · exact hexcl
      · exact hnd_act.2
      · intro c1 hne1
        rw [e_rm] at hne1
        rw [e_inst]
        exact hI.res_inst c1 hne1
      · intro c1 hne1
        rw [e_rel] at hne1
        rw [e_act]
        by_cases he1 : c1 = m.circuit_id
        · subst he1
          rw [rmGet, lookupA_eraseA_self _ _ hI.rel_nodup] at hne1
          exact absurd rfl hne1
        · rw [rmGet, lookupA_eraseA_ne _ _ _ he1, ← rmGet] at hne1
          exact mem_keysA_eraseA_of_ne _ _ _ he1 (hI.rel_act c1 hne1)
      · intro c1 hi1 ha1
        rw [e_inst] at hi1
        rw [e_act] at ha1
        rw [hhcA]
        by_cases he1 : c1 = m.circuit_id
        · subst he1
          exact hh0
        · have ha1' : c1 ∉ keysA s.active :=
            fun hm => ha1 (mem_keysA_eraseA_of_ne _ _ _ he1 hm)
          exact hI.idle_handles c1 hi1 ha1'
      · intro c1 hne1
        rw [e_rel] at hne1
        rw [hhcA]
        by_cases he1 : c1 = m.circuit_id
        · subst he1
          exact hh0
        · rw [rmGet, lookupA_eraseA_ne _ _ _ he1, ← rmGet] at hne1
          exact hI.rel_handles c1 hne1
      · intro c1
        rw [e_out, insCount_append, remCount_append, insCount_notifyOut,
          remCount_notifyOut, hhcA, e_rm]
        have hled := hI.ledger c1
        omega
    · have e_rm : s'.reserveMsgs = s.reserveMsgs := by rw [hs']
      have e_rel : s'.releaseMsgs = insertA s.releaseMsgs m.circuit_id
          ((rmGet s.releaseMsgs m.circuit_id).erase m.rule_id) := by rw [hs']
      have e_inst : s'.installing = s.installing := by rw [hs']
      have e_act : s'.active = s.active := by rw [hs']
      have e_handles : s'.handles = s.handles := by rw [hs']
      have e_out : s'.outputs = s.outputs := by rw [hs']
      have hhcA : ∀ c1, handleCount s' c1 = handleCount s c1 := by
        intro c1
        simp only [handleCount, e_handles]
      constructor
      · exact hnd_act.1
      · rw [e_rel]
        exact nodup_keysA_insertA _ _ _ hI.rel_nodup
      · exact hexcl
      · exact hnd_act.2
      · intro c1 hne1
        rw [e_rm] at hne1
        rw [e_inst]
        exact hI.res_inst c1 hne1
      · intro c1 hne1
        rw [e_rel] at hne1
        rw [e_act]
        by_cases he1 : c1 = m.circuit_id
        · subst he1
          exact hactmem
        · rw [rmGet, lookupA_insertA_ne _ _ _ _ he1, ← rmGet] at hne1
          exact hI.rel_act c1 hne1
      · intro c1 hi1 ha1
        rw [e_inst] at hi1
        rw [e_act] at ha1
        rw [hhcA]
        exact hI.idle_handles c1 hi1 ha1
      · intro c1 hne1
        rw [e_rel] at hne1
        rw [hhcA]
        by_cases he1 : c1 = m.circuit_id
        · subst he1
          exact hh0
        · rw [rmGet, lookupA_insertA_ne _ _ _ _ he1, ← rmGet] at hne1
          exact hI.rel_handles c1 hne1
      · intro c1
        rw [e_out, hhcA, e_rm]
        exact hI.ledger c1

end V1Q

namespace V1Q

/-- The ledger invariant holds in every reachable point-to-point state. -/
theorem p2p_ledger_inv (env : Env) : ∀ s : P2PState, Reachable env s → LedgerInv s := by
  intro s hreach
  induction hreach with
  | refl =>
    constructor
    · simp [initState, keysA]
    · simp [initState, keysA]
    · simp [initState]
    · intro cid hcid
      simp [initState, keysA] at hcid
    · intro cid hne
      exact absurd rfl hne
    · intro cid hne
      exact absurd rfl hne
    · intro cid _ _
      rfl
    · intro cid _
      rfl
    · intro cid
      rfl
  | tail _ hstep ih =>
    cases hstep with
    | request m u u' heq =>
      simp only [requestMsgWith] at heq
      split at heq
      · exact Option.noConfusion heq
      case _ u₁ hcore =>
        exact reserveRelease_ledger heq (requestMsgCore_ledger hcore ih)
    | ack port orig hdl u u' hout hrule => exact ruleMsg_ledger hrule ih
    | rr u u' hrr => exact reserveRelease_ledger hrr ih

/-- Every state produced by the `c5Reach` trace is reachable. -/
theorem c5Reach_reachable : ∀ t, c5Reach = some t → Reachable envSix t := by
  refine reach_bind_ack (reach_bind_ack (reach_bind_ack (reach_bind_ack (reach_bind_ack (reach_bind_req (reach_bind_req (reach_bind_ack (reach_bind_ack (reach_bind_ack (reach_bind_ack (reach_bind_ack (reach_bind_ack (reach_bind_req (reach_bind_req ?_))))))))))))))
  intro t ht
  rw [Option.some_inj] at ht
  subst ht
  exact Relation.ReflTransGen.refl

/-- C5.  Handle conservation and LIFO release: `__uninstall_path` pops every
stored table handle and every BSM group handle of the circuit in LIFO order,
emitting exactly one removal command per table handle and one destroy command
per BSM group handle, with fresh consecutive rule ids that become the
circuit's outstanding release set, and fully drains the circuit's
`RouteHandles`; the `FREE` notification to both hosts is emitted exactly when
the outstanding release set empties; and at that freed moment, in any
reachable point-to-point state, the number of removal/destroy commands issued
for the circuit equals the number of insert/create commands issued for it. -/
theorem handle_conservation (env : Env) :
    (∀ (σ : Type) (V : Variant σ) (cid : Nat) (s s' : CtrlState σ),
      uninstallPath V cid s = some s' →
      ∃ rh, lookupA s.handles cid = some rh ∧
        s'.outputs = s.outputs ++ removalMsgs cid s.nextRuleId rh ∧
        remCount cid (removalMsgs cid s.nextRuleId rh) =
          rh.tables.length + rh.bsm_grps.length ∧
        ruleIds (removalMsgs cid s.nextRuleId rh) =
          List.range' s.nextRuleId (rh.tables.length + rh.bsm_grps.length) ∧
        s'.handles = insertA s.handles cid ⟨[], []⟩ ∧
        rmGet s'.releaseMsgs cid =
          List.range' s.nextRuleId (rh.tables.length + rh.bsm_grps.length)) ∧
    (∀ (m : RuleMsg) (s s' : P2PState), ruleMsg m s = some s' →
      (m.rule_action = RuleAction.REMOVE_TABLE_ENTRY ∨
        m.rule_action = RuleAction.DESTROY_BSM_GRP) →
      (((rmGet s.releaseMsgs m.circuit_id).erase m.rule_id = [] →
        ∃ c, lookupA s.active m.circuit_id = some c ∧
          s'.outputs = s.outputs ++
            notifyOut ⟨QcpOp.OP_FREE, c.pair.1, c.pair.2, m.circuit_id⟩) ∧
       ((rmGet s.releaseMsgs m.circuit_id).erase m.rule_id ≠ [] →
        s'.outputs = s.outputs))) ∧
    (∀ (m : RuleMsg) (s s' : P2PState), Reachable env s → ruleMsg m s = some s' →
      (m.rule_action = RuleAction.REMOVE_TABLE_ENTRY ∨
        m.rule_action = RuleAction.DESTROY_BSM_GRP) →
      (rmGet s.releaseMsgs m.circuit_id).erase m.rule_id = [] →
      insCount m.circuit_id s'.outputs = remCount m.circuit_id s'.outputs) := by
  refine ⟨?_, ?_, ?_⟩
  · intro σ V cid s s' h
    obtain ⟨hrel0, rh, hrh, hpend, hrq, hrlq, hinst, hact, hres, hhdl, hnr, hout, hrmc,
      hrmo, -, -⟩ := uninstallPath_spec h
    exact ⟨rh, hrh, hout, remCount_removalMsgs cid s.nextRuleId rh,
      removalMsgs_ruleIds cid s.nextRuleId rh, hhdl, hrmc⟩
  · intro m s s' h hty
    obtain ⟨hmem, hcase⟩ := ruleMsg_release_spec h hty
    constructor
    · intro hrem0
      rcases hcase with ⟨hrem, c, hc, hs'⟩ | ⟨hrem, hs'⟩
      · exact ⟨c, hc, by rw [hs']⟩
      · exact absurd hrem0 hrem
    · intro hrem0
      rcases hcase with ⟨hrem, c, hc, hs'⟩ | ⟨hrem, hs'⟩
      · exact absurd hrem hrem0
      · rw [hs']
  · intro m s s' hreach h hty hrem
    have hI := p2p_ledger_inv env s hreach
    obtain ⟨hmem, hcase⟩ := ruleMsg_release_spec h hty
    rcases hcase with ⟨-, c, hc, hs'⟩ | ⟨hx, -⟩
    · have e_out : s'.outputs = s.outputs ++
          notifyOut ⟨QcpOp.OP_FREE, c.pair.1, c.pair.2, m.circuit_id⟩ := by rw [hs']
      have hne := List.ne_nil_of_mem hmem
      have hh0 := hI.rel_handles _ hne
      have hrm0 := hI.act_res _ (hI.rel_act _ hne)
      have hled := hI.ledger m.circuit_id
      rw [hh0, hrm0] at hled
      rw [e_out, insCount_append, remCount_append, insCount_notifyOut, remCount_notifyOut]
      simp only [List.length_nil] at hled
      omega
    · exact absurd hrem hx

/-- C5 witness: on the concrete state `c5s` (one table handle, one BSM group
handle) the uninstall emits exactly the two removal commands with fresh ids 0
and 1 and drains the handle store; and on the reachable state `c5pre` the
final removal acknowledgment `c5m` frees circuit 0, emits the `FREE`
notification to both hosts, and the install and removal command counts agree
(six each). -/
theorem handle_conservation_witness :
    c5rel.outputs = c5s.outputs ++
      removalMsgs 0 c5s.nextRuleId ⟨[⟨"h1", "qdevice", "t", 3⟩], [⟨"qhsA", 0⟩]⟩ ∧
    remCount 0 (removalMsgs 0 c5s.nextRuleId
      ⟨[⟨"h1", "qdevice", "t", 3⟩], [⟨"qhsA", 0⟩]⟩) = 2 ∧
    rmGet c5rel.releaseMsgs 0 = [0, 1] ∧
    ruleMsg c5m c5pre = some c5post ∧
    c5post.outputs = c5pre.outputs ++ notifyOut ⟨QcpOp.OP_FREE, "h1", "h2", 0⟩ ∧
    insCount 0 c5post.outputs = remCount 0 c5post.outputs := by
  obtain ⟨rh, hrh, ho, hrc, hri, hh, hrm⟩ :=
    (handle_conservation envSix).1 Unit p2pVariant 0 c5s c5rel rfl
  have hrh' : (⟨[⟨"h1", "qdevice", "t", 3⟩], [⟨"qhsA", 0⟩]⟩ : RouteHandles) = rh :=
    Option.some_inj.mp hrh
  subst hrh'
  refine ⟨ho, hrc, ?_, rfl, ?_, ?_⟩
  · exact hrm
  · obtain ⟨c, hc, hout⟩ :=
      ((handle_conservation envSix).2.1 c5m c5pre c5post rfl (Or.inr rfl)).1 (by decide)
    have hc' : (⟨0, ("h1", "h2")⟩ : ActiveCircuit) = c := Option.some_inj.mp hc
    subst hc'
    exact hout
  · exact (handle_conservation envSix).2.2 c5m c5pre c5post
      (c5Reach_reachable c5pre rfl) rfl (Or.inr rfl) (by decide)

end V1Q

namespace V1Q

/-!
## C2: matching symmetry
-/

/-- `__rule_msg` never touches the release queue. -/
theorem ruleMsg_rq {σ : Type} {m : RuleMsg} {s s' : CtrlState σ}
    (h : ruleMsg m s = some s') : s'.releaseQueue = s.releaseQueue := by
  rcases ruleMsg_cases h with hty | hty
  · obtain ⟨-, rh, -, rh', -, hcase⟩ := ruleMsg_reserve_spec h hty
    rcases hcase with ⟨-, c, -, hs'⟩ | ⟨-, hs'⟩ <;> rw [hs']
  · obtain ⟨-, hcase⟩ := ruleMsg_release_spec h hty
    rcases hcase with ⟨-, c, -, hs'⟩ | ⟨-, hs'⟩ <;> rw [hs']

/-- After any successful `_reserve_release` the release queue is empty. -/
theorem reserveRelease_rq {env : Env} {s s' : P2PState}
    (h : reserveRelease env s = some s') : s'.releaseQueue = [] := by
  simp only [reserveRelease] at h
  rw [drainLoop_eq_drainSeq p2pVariant (fun _ _ => true) (fun _ _ _ => rfl)
    s.releaseQueue.length s (le_refl _)] at h
  split at h
  · exact Option.noConfusion h
  case _ s₁ hdrain =>
    have hrq₁ : s₁.releaseQueue = [] := drainSeq_rq hdrain
    rcases admitLoop_spec h with ⟨-, rfl⟩ | ⟨hq, hi, ha, rid, mm, hlast, hres⟩
    · exact hrq₁
    · obtain ⟨-, -, he⟩ := reserveOp_spec hres
      rw [he.releaseQueue]
      exact hrq₁

/-- In every reachable point-to-point state the release queue is empty: the
trailing `_reserve_release` of each handler drains it completely. -/
theorem p2p_rq_inv (env : Env) : ∀ s : P2PState, Reachable env s →
    s.releaseQueue = [] := by
  intro s hreach
  induction hreach with
  | refl => rfl
  | tail _ hstep ih =>
    cases hstep with
    | request m u u' heq =>
      simp only [requestMsgWith] at heq
      split at heq
      · exact Option.noConfusion heq
      case _ u₁ hcore => exact reserveRelease_rq heq
    | ack port orig hdl u u' hout hrule => exact (ruleMsg_rq hrule).trans ih
    | rr u u' hrr => exact reserveRelease_rq hrr

/-- The queueing core on an unmatched request: the message is recorded as
pending and nothing else happens. -/
theorem requestMsgCore_unmatched {σ : Type} {m : RequestMsg} {s : CtrlState σ}
    (hty : m.msg_type = QcpOp.OP_RSRV ∨ m.msg_type = QcpOp.OP_FREE)
    (hdup : lookupA ((lookupA s.pending m.source).getD []) m.request_id = none)
    (hun : ((lookupA (insertA s.pending m.source
        (insertA ((lookupA s.pending m.source).getD []) m.request_id m)) m.remote).bind
          (fun mm => lookupA mm m.request_id) = none) ∨
      (∃ pm, (lookupA (insertA s.pending m.source
        (insertA ((lookupA s.pending m.source).getD []) m.request_id m)) m.remote).bind
          (fun mm => lookupA mm m.request_id) = some pm ∧ pm.remote ≠ m.source)) :
    requestMsgCore m s = some (pendingUpd m s) := by
  simp only [requestMsgCore, if_pos hty]
  rw [if_neg (by rw [hdup]; simp)]
  rcases hun with hnone | ⟨pm, hpm, hne⟩
  · rw [hnone]
    rfl
  · simp only [hpm]
    rw [if_neg hne]
    rfl

/-- `_reserve_release` from a state with an empty release queue: the pending
map, active map and release bookkeeping are untouched, and nothing at all
happens unless the admission condition holds. -/
theorem reserveRelease_empty_rq {env : Env} {s s' : P2PState}
    (hq : s.releaseQueue = []) (h : reserveRelease env s = some s') :
    s'.pending = s.pending ∧ s'.active = s.active ∧
    s'.releaseMsgs = s.releaseMsgs ∧ s'.releaseQueue = [] ∧
    ((s.installing ≠ [] ∨ s.active ≠ [] ∨ s.reserveQueue = []) → s' = s) := by
  simp only [reserveRelease, hq] at h
  simp only [List.length_nil, drainLoop, hq] at h
  rcases admitLoop_spec h with ⟨hcond, rfl⟩ | ⟨hqne, hi, ha, rid, mm, hlast, hres⟩
  · exact ⟨rfl, rfl, rfl, hq, fun _ => rfl⟩
  · obtain ⟨-, -, he⟩ := reserveOp_spec hres
    refine ⟨he.pending, ?_, he.releaseMsgs, ?_, ?_⟩
    · rw [he.active]
    · rw [he.releaseQueue]
      exact hq
    · intro hcond
      rcases hcond with hc | hc | hc
      · exact absurd hi hc
      · exact absurd ha hc
      · exact absurd hc hqne

/-- Every state produced by the `c2Setup` trace is reachable. -/
theorem c2Setup_reachable : ∀ t, c2Setup = some t → Reachable envSix t := by
  refine reach_bind_ack (reach_bind_ack (reach_bind_ack (reach_bind_ack (reach_bind_ack (reach_bind_ack (reach_bind_req (reach_bind_req (reach_bind_req (reach_bind_req (reach_bind_ack (reach_bind_ack (reach_bind_ack (reach_bind_ack (reach_bind_ack (reach_bind_ack (reach_bind_req (reach_bind_req ?_)))))))))))))))))
  intro t ht
  rw [Option.some_inj] at ht
  subst ht
  exact Relation.ReflTransGen.refl

end V1Q

namespace V1Q

/-- C2 counterexample: in the reachable state `c2s` (circuit 0 freed and the
matched reservation of circuit 1 still queued), processing the reservation
`h5 → h6` — whose peer `h6` has sent nothing, so the message is unmatched —
changes far more than the pending map: the trailing `_reserve_release` admits
the queued circuit 1, the installing map goes from empty to `[1]`, and six
installation messages are emitted.  The claimed frame ("the only state change
is adding the message to the pending map ... and no message is emitted") is
false. -/
theorem matching_symmetry_counterexample :
    Reachable envSix c2s ∧
    lookupA c2s.pending "h6" = none ∧
    requestMsgWith (reserveRelease envSix) ⟨QcpOp.OP_RSRV, "h5", "h6", 2⟩ c2s =
      some c2after ∧
    c2s.installing = [] ∧
    c2after.installing.map Prod.fst = [1] ∧
    c2s.outputs.length = 16 ∧
    c2after.outputs.length = 22 :=
  ⟨c2Setup_reachable c2s rfl, by decide, rfl, by decide, by decide, by decide, by decide⟩

/-- C2 (amended).  Matching symmetry, corrected: when the controller
processes a `RSRV`/`FREE` message whose peer entry does not match (the lookup
under `(remote, request_id)` finds nothing, or finds a request whose `remote`
is not the message's source), the queueing core only records the message in
the pending map under `(source, request_id)`; across the whole handler the
active map, the release bookkeeping and (in reachable states) the empty
release queue are preserved and the message itself is never queued — but the
trailing `_reserve_release` may admit a *previously queued* matched
reservation.  Only when a circuit is already installing or active, or no
reservation is queued, is the pending update the sole state change. -/
theorem matching_symmetry_amended (env : Env) :
    ∀ (m : RequestMsg) (s s' : P2PState), Reachable env s →
    (m.msg_type = QcpOp.OP_RSRV ∨ m.msg_type = QcpOp.OP_FREE) →
    lookupA ((lookupA s.pending m.source).getD []) m.request_id = none →
    (((lookupA (insertA s.pending m.source
        (insertA ((lookupA s.pending m.source).getD []) m.request_id m)) m.remote).bind
          (fun mm => lookupA mm m.request_id) = none) ∨
      (∃ pm, (lookupA (insertA s.pending m.source
        (insertA ((lookupA s.pending m.source).getD []) m.request_id m)) m.remote).bind
          (fun mm => lookupA mm m.request_id) = some pm ∧ pm.remote ≠ m.source)) →
    requestMsgWith (reserveRelease env) m s = some s' →
    s.releaseQueue = [] ∧
    reserveRelease env (pendingUpd m s) = some s' ∧
    s'.pending = (pendingUpd m s).pending ∧
    s'.active = s.active ∧
    s'.releaseMsgs = s.releaseMsgs ∧
    s'.releaseQueue = [] ∧
    ((s.installing ≠ [] ∨ s.active ≠ [] ∨ s.reserveQueue = []) → s' = pendingUpd m s) := by
  intro m s s' hreach hty hdup hun heq
  have hrq : s.releaseQueue = [] := p2p_rq_inv env s hreach
  have hcore := requestMsgCore_unmatched hty hdup hun
  simp only [requestMsgWith, hcore] at heq
  have hrq1 : (pendingUpd m s).releaseQueue = [] := hrq
  obtain ⟨hpend, hact, hrel, hrq', hframe⟩ := reserveRelease_empty_rq hrq1 heq
  refine ⟨hrq, heq, hpend, ?_, hrel, hrq', ?_⟩
  · rw [hact]
    rfl
  · intro hcond
    refine hframe ?_
    rcases hcond with hc | hc | hc
    · exact Or.inl hc
    · exact Or.inr (Or.inl hc)
    · exact Or.inr (Or.inr hc)

/-- C2 witness for the amended claim: the unmatched reservation `h5 → h6` on
the reachable state `c2s` leaves the active map, release bookkeeping and
release queue untouched and records itself as pending; on the reachable state
`c4act` (a circuit is active) the same request changes nothing but the
pending map. -/
theorem matching_symmetry_amended_witness :
    c2after.pending = (pendingUpd ⟨QcpOp.OP_RSRV, "h5", "h6", 2⟩ c2s).pending ∧
    c2after.active = c2s.active ∧
    c2after.releaseMsgs = c2s.releaseMsgs ∧
    c2after.releaseQueue = [] ∧
    c2full = pendingUpd ⟨QcpOp.OP_RSRV, "h5", "h6", 2⟩ c4act := by
  obtain ⟨-, -, h1, h2, h3, h4, -⟩ :=
    matching_symmetry_amended envSix ⟨QcpOp.OP_RSRV, "h5", "h6", 2⟩ c2s c2after
      (c2Setup_reachable c2s rfl) (Or.inl rfl) (by decide) (Or.inl (by decide)) rfl
  obtain ⟨-, -, -, -, -, -, h5⟩ :=
    matching_symmetry_amended envSix ⟨QcpOp.OP_RSRV, "h5", "h6", 2⟩ c4act c2full
      (c4Reach_reachable c4act rfl) (Or.inl rfl) (by decide) (Or.inl (by decide)) rfl
  exact ⟨h1, h2, h3, h4, h5 (Or.inr (Or.inl (by decide)))⟩

end V1Q

namespace V1Q

/-!
## C6: counting BSM group creations and destructions
-/

end V1Q

namespace V1Q

/-!
## C6: every BSM group creation pops one pool id
-/

end V1Q

namespace V1Q

/-!
## C6: pool conservation across the hub controller steps
-/

end V1Q

namespace V1Q

/-!
## C6: hub reachability of the counterexample trace, admission spec
-/

end V1Q

namespace V1Q

section RoutingLemmas

theorem lookupA_mem {α β : Type} [DecidableEq α] :
    ∀ (l : List (α × β)) (k : α) (v : β), lookupA l k = some v → (k, v) ∈ l := by
  intro l
  induction l with
  | nil => intro k v h; exact Option.noConfusion h
  | cons p rest ih =>
    intro k v h
    obtain ⟨k', v'⟩ := p
    simp only [lookupA] at h
    by_cases hk : k' = k
    · rw [if_pos hk] at h
      subst hk
      rw [Option.some_inj.mp h]
      exact List.mem_cons_self _ _
    · rw [if_neg hk] at h
      exact List.mem_cons.mpr (Or.inr (ih k v h))

theorem mem_lookupA_nodup {α β : Type} [DecidableEq α] :
    ∀ (l : List (α × β)), (keysA l).Nodup →
      ∀ (k : α) (v : β), (k, v) ∈ l → lookupA l k = some v := by
  intro l
  induction l with
  | nil => intro _ k v h; simp at h
  | cons p rest ih =>
    intro hnd k v h
    obtain ⟨k', v'⟩ := p
    simp only [keysA_cons, List.nodup_cons] at hnd
    rcases List.mem_cons.mp h with he | hm
    · obtain ⟨h1, h2⟩ := Prod.mk.injEq k v k' v' ▸ he
      subst h1; subst h2
      simp [lookupA]
    · have hk : k ∈ keysA rest := List.mem_map.mpr ⟨(k, v), hm, rfl⟩
      have hne : k' ≠ k := fun he => hnd.1 (he ▸ hk)
      simp only [lookupA, if_neg hne]
      exact ih hnd.2 k v hm

theorem isSome_of_lookupA_eq {α β : Type} [DecidableEq α] (l : List (α × β)) (k : α) (v : β)
    (h : lookupA l k = some v) : (lookupA l k).isSome := by rw [h]; rfl

theorem mem_nbrs : ∀ (edges : List (String × String)) (v w : String),
    w ∈ nbrs edges v ↔ edgeMem edges v w = true := by
  intro edges v w
  induction edges with
  | nil => simp [nbrs, edgeMem]
  | cons e rest ih =>
    obtain ⟨a, b⟩ := e
    simp only [nbrs, List.foldr_cons] at *
    simp only [edgeMem, List.any_cons, Bool.or_eq_true, Bool.and_eq_true,
      decide_eq_true_eq] at *
    by_cases ha : a = v
    · rw [if_pos ha]
      constructor
      · intro h
        rcases List.mem_cons.mp h with rfl | h2
        · exact Or.inl (Or.inl ⟨ha, rfl⟩)
        · exact Or.inr (ih.mp h2)
      · intro h
        rcases h with (⟨-, hbw⟩ | ⟨hvw, hbv⟩) | h2
        · exact List.mem_cons.mpr (Or.inl hbw.symm)
        · exact List.mem_cons.mpr (Or.inl ((hbv.trans (ha ▸ hvw)).symm))
        · exact List.mem_cons.mpr (Or.inr (ih.mpr h2))
    · rw [if_neg ha]
      by_cases hb : b = v
      · rw [if_pos hb]
        constructor
        · intro h
          rcases List.mem_cons.mp h with rfl | h2
          · exact Or.inl (Or.inr ⟨rfl, hb⟩)
          · exact Or.inr (ih.mp h2)
        · intro h
          rcases h with (⟨hav, -⟩ | ⟨haw, -⟩) | h2
          · exact absurd hav ha
          · exact List.mem_cons.mpr (Or.inl haw.symm)
          · exact List.mem_cons.mpr (Or.inr (ih.mpr h2))
      · rw [if_neg hb]
        constructor
        · intro h
          exact Or.inr (ih.mp h)
        · intro h
          rcases h with (⟨hav, -⟩ | ⟨-, hbv⟩) | h2
          · exact absurd hav ha
          · exact absurd hbv hb
          · exact ih.mpr h2

theorem edgeMem_endpoints (edges : List (String × String)) (g : List String)
    (hE : ∀ e ∈ edges, e.1 ∈ g ∧ e.2 ∈ g) (a b : String)
    (h : edgeMem edges a b = true) : a ∈ g ∧ b ∈ g := by
  simp only [edgeMem, List.any_eq_true, Bool.or_eq_true, Bool.and_eq_true,
    decide_eq_true_eq] at h
  obtain ⟨e, he, h | h⟩ := h
  · exact ⟨h.1 ▸ (hE e he).1, h.2 ▸ (hE e he).2⟩
  · exact ⟨h.2 ▸ (hE e he).2, h.1 ▸ (hE e he).1⟩

theorem path_ne_nil {edges : List (String × String)} {s d : String} {p : List String}
    (h : IsPathFrom edges s d p) : p ≠ [] := by
  intro he
  rw [he] at h
  exact Option.noConfusion h.1

theorem path_length_pos {edges : List (String × String)} {s d : String} {p : List String}
    (h : IsPathFrom edges s d p) : 1 ≤ p.length := by
  cases p with
  | nil => exact absurd rfl (path_ne_nil h)
  | cons a t => simp

theorem path_extend {edges : List (String × String)} {s v : String} {p : List String}
    (h : IsPathFrom edges s v p) (w : String) (hw : edgeMem edges v w = true) :
    IsPathFrom edges s w (p ++ [w]) := by
  obtain ⟨h1, h2, h3⟩ := h
  refine ⟨?_, ?_, ?_⟩
  · cases p with
    | nil => exact Option.noConfusion h1
    | cons a t => simpa using h1
  · exact List.getLast?_concat _
  · rw [List.chain'_append]
    refine ⟨h3, List.chain'_singleton w, ?_⟩
    intro x hx y hy
    simp only [List.head?_cons, Option.mem_def, Option.some_inj] at hy
    rw [h2] at hx
    simp only [Option.mem_def, Option.some_inj] at hx
    rw [← hx, ← hy]
    exact hw

theorem path_decompose {edges : List (String × String)} {s d : String} {p : List String}
    (h : IsPathFrom edges s d p) (hlen : 2 ≤ p.length) :
    ∃ p₀ v, p = p₀ ++ [d] ∧ IsPathFrom edges s v p₀ ∧ edgeMem edges v d = true ∧
      p₀.length + 1 = p.length := by
  obtain ⟨h1, h2, h3⟩ := h
  rcases List.eq_nil_or_concat p with rfl | ⟨q, a, rfl⟩
  · simp at hlen
  simp only [List.concat_eq_append] at h1 h2 h3 hlen ⊢
  have ha : a = d := by
    rw [List.getLast?_concat] at h2
    exact Option.some_inj.mp h2
  subst ha
  have hq : q ≠ [] := by
    intro he
    rw [he] at hlen
    simp at hlen
  obtain ⟨v, hv⟩ : ∃ v, q.getLast? = some v := by
    cases hg : q.getLast? with
    | none => exact absurd (List.getLast?_eq_none_iff.mp hg) hq
    | some v => exact ⟨v, rfl⟩
  rw [List.chain'_append] at h3
  refine ⟨q, v, rfl, ⟨?_, hv, h3.1⟩, ?_, by simp⟩
  · cases q with
    | nil => exact absurd rfl hq
    | cons b t => simpa using h1
  · have := h3.2.2 v (by rw [hv]; rfl) a (by rfl)
    exact this

end RoutingLemmas

section BfsFoldLemmas

theorem bfsVisit_preserve (pv : List String) (acc : List (String × List String))
    (w k : String) (p : List String) (h : lookupA acc k = some p) :
    lookupA (bfsVisit pv acc w) k = some p := by
  simp only [bfsVisit]
  split
  · exact h
  case _ hns =>
    by_cases hk : k = w
    · subst hk
      rw [h] at hns
      simp at hns
    · rw [lookupA_insertA_ne acc w k _ hk]
      exact h

theorem bfsVisits_preserve (pv : List String) :
    ∀ (L : List String) (acc : List (String × List String)) (k : String) (p : List String),
      lookupA acc k = some p → lookupA (L.foldl (bfsVisit pv) acc) k = some p := by
  intro L
  induction L with
  | nil => intro acc k p h; exact h
  | cons w t ih =>
    intro acc k p h
    exact ih _ k p (bfsVisit_preserve pv acc w k p h)

theorem bfsProcess_preserve (edges : List (String × String))
    (acc : List (String × List String)) (e : String × List String)
    (k : String) (p : List String) (h : lookupA acc k = some p) :
    lookupA (bfsProcess edges acc e) k = some p :=
  bfsVisits_preserve e.2 (nbrs edges e.1) acc k p h

theorem bfsProcessFold_preserve (edges : List (String × String)) :
    ∀ (E : List (String × List String)) (acc : List (String × List String))
      (k : String) (p : List String),
      lookupA acc k = some p → lookupA (E.foldl (bfsProcess edges) acc) k = some p := by
  intro E
  induction E with
  | nil => intro acc k p h; exact h
  | cons e t ih =>
    intro acc k p h
    exact ih _ k p (bfsProcess_preserve edges acc e k p h)

theorem bfsExtend_preserve (edges : List (String × String))
    (cur : List (String × List String)) (k : String) (p : List String)
    (h : lookupA cur k = some p) : lookupA (bfsExtend edges cur) k = some p :=
  bfsProcessFold_preserve edges cur cur k p h

theorem bfsExtend_preserve_isSome (edges : List (String × String))
    (cur : List (String × List String)) (k : String)
    (h : (lookupA cur k).isSome) : (lookupA (bfsExtend edges cur) k).isSome := by
  obtain ⟨p, hp⟩ := Option.isSome_iff_exists.mp h
  rw [bfsExtend_preserve edges cur k p hp]
  rfl

theorem bfsProcessFold_preserve_isSome (edges : List (String × String))
    (E : List (String × List String)) (acc : List (String × List String)) (k : String)
    (h : (lookupA acc k).isSome) :
    (lookupA (E.foldl (bfsProcess edges) acc) k).isSome := by
  obtain ⟨p, hp⟩ := Option.isSome_iff_exists.mp h
  rw [bfsProcessFold_preserve edges E acc k p hp]
  rfl

theorem bfsVisits_preserve_isSome (pv : List String) (L : List String)
    (acc : List (String × List String)) (k : String)
    (h : (lookupA acc k).isSome) : (lookupA (L.foldl (bfsVisit pv) acc) k).isSome := by
  obtain ⟨p, hp⟩ := Option.isSome_iff_exists.mp h
  rw [bfsVisits_preserve pv L acc k p hp]
  rfl

theorem bfsVisit_nodup (pv : List String) (acc : List (String × List String)) (w : String)
    (h : (keysA acc).Nodup) : (keysA (bfsVisit pv acc w)).Nodup := by
  simp only [bfsVisit]
  split
  · exact h
  · exact nodup_keysA_insertA acc w _ h

theorem bfsVisits_nodup (pv : List String) :
    ∀ (L : List String) (acc : List (String × List String)),
      (keysA acc).Nodup → (keysA (L.foldl (bfsVisit pv) acc)).Nodup := by
  intro L
  induction L with
  | nil => intro acc h; exact h
  | cons w t ih => intro acc h; exact ih _ (bfsVisit_nodup pv acc w h)

theorem bfsProcessFold_nodup (edges : List (String × String)) :
    ∀ (E : List (String × List String)) (acc : List (String × List String)),
      (keysA acc).Nodup → (keysA (E.foldl (bfsProcess edges) acc)).Nodup := by
  intro E
  induction E with
  | nil => intro acc h; exact h
  | cons e t ih =>
    intro acc h
    exact ih _ (bfsVisits_nodup e.2 (nbrs edges e.1) acc h)

theorem bfsExtend_nodup (edges : List (String × String))
    (cur : List (String × List String)) (h : (keysA cur).Nodup) :
    (keysA (bfsExtend edges cur)).Nodup :=
  bfsProcessFold_nodup edges cur cur h

theorem bfsVisit_new (pv : List String) (acc : List (String × List String))
    (w k : String) (p : List String) (h : lookupA (bfsVisit pv acc w) k = some p) :
    lookupA acc k = some p ∨ (k = w ∧ p = pv ++ [w]) := by
  simp only [bfsVisit] at h
  split at h
  · exact Or.inl h
  · by_cases hk : k = w
    · subst hk
      rw [lookupA_insertA_self] at h
      exact Or.inr ⟨rfl, (Option.some_inj.mp h).symm⟩
    · rw [lookupA_insertA_ne acc w k _ hk] at h
      exact Or.inl h

theorem bfsVisits_new (pv : List String) :
    ∀ (L : List String) (acc : List (String × List String)) (k : String) (p : List String),
      lookupA (L.foldl (bfsVisit pv) acc) k = some p →
      lookupA acc k = some p ∨ (k ∈ L ∧ p = pv ++ [k]) := by
  intro L
  induction L with
  | nil => intro acc k p h; exact Or.inl h
  | cons w t ih =>
    intro acc k p h
    rcases ih _ k p h with h2 | ⟨hk, hp⟩
    · rcases bfsVisit_new pv acc w k p h2 with h3 | ⟨hk, hp⟩
      · exact Or.inl h3
      · subst hk
        exact Or.inr ⟨List.mem_cons_self _ _, hp⟩
    · exact Or.inr ⟨List.mem_cons.mpr (Or.inr hk), hp⟩

theorem bfsProcess_new (edges : List (String × String))
    (acc : List (String × List String)) (e : String × List String)
    (k : String) (p : List String) (h : lookupA (bfsProcess edges acc e) k = some p) :
    lookupA acc k = some p ∨ (k ∈ nbrs edges e.1 ∧ p = e.2 ++ [k]) :=
  bfsVisits_new e.2 (nbrs edges e.1) acc k p h

theorem bfsProcessFold_new (edges : List (String × String)) :
    ∀ (E : List (String × List String)) (acc : List (String × List String))
      (k : String) (p : List String),
      lookupA (E.foldl (bfsProcess edges) acc) k = some p →
      lookupA acc k = some p ∨ ∃ e ∈ E, k ∈ nbrs edges e.1 ∧ p = e.2 ++ [k] := by
  intro E
  induction E with
  | nil => intro acc k p h; exact Or.inl h
  | cons e t ih =>
    intro acc k p h
    rcases ih _ k p h with h2 | ⟨e', he', hk, hp⟩
    · rcases bfsProcess_new edges acc e k p h2 with h3 | ⟨hk, hp⟩
      · exact Or.inl h3
      · exact Or.inr ⟨e, List.mem_cons_self _ _, hk, hp⟩
    · exact Or.inr ⟨e', List.mem_cons.mpr (Or.inr he'), hk, hp⟩

theorem bfsExtend_new (edges : List (String × String))
    (cur : List (String × List String)) (k : String) (p : List String)
    (h : lookupA (bfsExtend edges cur) k = some p) :
    lookupA cur k = some p ∨ ∃ e ∈ cur, k ∈ nbrs edges e.1 ∧ p = e.2 ++ [k] :=
  bfsProcessFold_new edges cur cur k p h

theorem bfsVisit_cover (pv : List String) (acc : List (String × List String)) (w : String) :
    (lookupA (bfsVisit pv acc w) w).isSome := by
  simp only [bfsVisit]
  split
  case _ h => exact h
  · rw [lookupA_insertA_self]
    rfl

theorem bfsVisits_cover (pv : List String) :
    ∀ (L : List String) (acc : List (String × List String)) (w : String), w ∈ L →
      (lookupA (L.foldl (bfsVisit pv) acc) w).isSome := by
  intro L
  induction L with
  | nil => intro acc w h; simp at h
  | cons x t ih =>
    intro acc w h
    rcases List.mem_cons.mp h with rfl | h2
    · exact bfsVisits_preserve_isSome pv t _ w (bfsVisit_cover pv acc w)
    · exact ih _ w h2

theorem bfsProcess_cover (edges : List (String × String))
    (acc : List (String × List String)) (e : String × List String) (w : String)
    (h : w ∈ nbrs edges e.1) : (lookupA (bfsProcess edges acc e) w).isSome :=
  bfsVisits_cover e.2 (nbrs edges e.1) acc w h

theorem bfsProcessFold_cover (edges : List (String × String)) :
    ∀ (E : List (String × List String)) (acc : List (String × List String))
      (e : String × List String) (w : String), e ∈ E → w ∈ nbrs edges e.1 →
      (lookupA (E.foldl (bfsProcess edges) acc) w).isSome := by
  intro E
  induction E with
  | nil => intro acc e w h; simp at h
  | cons x t ih =>
    intro acc e w h hw
    rcases List.mem_cons.mp h with rfl | h2
    · exact bfsProcessFold_preserve_isSome edges t _ w (bfsProcess_cover edges acc e w hw)
    · exact ih _ e w h2 hw

theorem bfsExtend_cover (edges : List (String × String))
    (cur : List (String × List String)) (e : String × List String) (w : String)
    (he : e ∈ cur) (hw : w ∈ nbrs edges e.1) :
    (lookupA (bfsExtend edges cur) w).isSome :=
  bfsProcessFold_cover edges cur cur e w he hw

end BfsFoldLemmas


section BfsInvLemmas

theorem head_append_cons {α : Type} (a : List α) (x : α) (L L' : List α) :
    (a ++ x :: L).head? = (a ++ x :: L').head? := by
  cases a <;> simp

theorem getLast_append_cons {α : Type} (a : List α) (x : α) (c : List α) :
    (a ++ x :: c).getLast? = (x :: c).getLast? := by
  rw [List.getLast?_append]
  have h : (x :: c).getLast?.isSome := by
    rw [List.getLast?_isSome]
    simp
  exact Option.or_of_isSome h

theorem path_splice {edges : List (String × String)} {s d : String}
    {a b c : List String} {x : String}
    (h : IsPathFrom edges s d (a ++ x :: (b ++ x :: c))) :
    IsPathFrom edges s d (a ++ x :: c) := by
  obtain ⟨h1, h2, h3⟩ := h
  have hsplit : a ++ x :: (b ++ x :: c) = (a ++ x :: b) ++ (x :: c) := by simp
  rw [hsplit] at h2 h3
  rw [List.chain'_append] at h3
  obtain ⟨h3l, h3r, h3link⟩ := h3
  rw [List.chain'_append] at h3l
  obtain ⟨h3a, h3xb, h3ax⟩ := h3l
  refine ⟨?_, ?_, ?_⟩
  · rw [head_append_cons a x c (b ++ x :: c)]
    exact h1
  · rw [getLast_append_cons a x c]
    rw [getLast_append_cons (a ++ x :: b) x c] at h2
    exact h2
  · rw [List.chain'_append]
    refine ⟨h3a, ?_, ?_⟩
    · cases c with
      | nil => exact List.chain'_singleton x
      | cons y t =>
        have hr := List.chain'_cons.mp h3r
        exact List.chain'_cons.mpr ⟨hr.1, hr.2⟩
    · intro z hz y hy
      simp only [List.head?_cons, Option.mem_def, Option.some_inj] at hy
      subst hy
      exact h3ax z hz x (by rfl)

theorem not_nodup_split {α : Type} [DecidableEq α] :
    ∀ (l : List α), ¬l.Nodup → ∃ a x b c, l = a ++ x :: (b ++ x :: c) := by
  intro l
  induction l with
  | nil => intro h; exact absurd List.nodup_nil h
  | cons y t ih =>
    intro h
    by_cases hy : y ∈ t
    · obtain ⟨b, c, hbc⟩ := List.append_of_mem hy
      exact ⟨[], y, b, c, by rw [hbc]; rfl⟩
    · have ht : ¬t.Nodup := fun hnd => h (List.nodup_cons.mpr ⟨hy, hnd⟩)
      obtain ⟨a, x, b, c, habc⟩ := ih ht
      exact ⟨y :: a, x, b, c, by rw [habc]; rfl⟩

theorem exists_nodup_path (edges : List (String × String)) (s d : String) :
    ∀ (n : Nat) (p : List String), p.length ≤ n → IsPathFrom edges s d p →
      ∃ q, IsPathFrom edges s d q ∧ q.Nodup ∧ ∀ x ∈ q, x ∈ p := by
  intro n
  induction n with
  | zero =>
    intro p hlen hp
    have := path_length_pos hp
    omega
  | succ n ih =>
    intro p hlen hp
    by_cases hnd : p.Nodup
    · exact ⟨p, hp, hnd, fun x hx => hx⟩
    · obtain ⟨a, x, b, c, rfl⟩ := not_nodup_split p hnd
      have hsp := path_splice hp
      have hlen2 : (a ++ x :: c).length ≤ n := by
        simp only [List.length_append, List.length_cons] at hlen ⊢
        omega
      obtain ⟨q, hq, hqnd, hqsub⟩ := ih (a ++ x :: c) hlen2 hsp
      refine ⟨q, hq, hqnd, ?_⟩
      intro z hz
      have := hqsub z hz
      simp only [List.mem_append, List.mem_cons] at this ⊢
      tauto

theorem path_mem_gnodes (edges : List (String × String)) (g : List String)
    (hE : ∀ e ∈ edges, e.1 ∈ g ∧ e.2 ∈ g) :
    ∀ (p : List String) (s d : String), IsPathFrom edges s d p → s ∈ g →
      ∀ x ∈ p, x ∈ g := by
  intro p
  induction p with
  | nil =>
    intro s d h
    exact absurd h.1 (by simp)
  | cons a t ih =>
    intro s d h hs x hx
    have ha : a = s := by
      have := h.1
      simp only [List.head?_cons, Option.some_inj] at this
      exact this
    rcases List.mem_cons.mp hx with rfl | hx2
    · exact ha ▸ hs
    · cases t with
      | nil => simp at hx2
      | cons b t' =>
        have hchain := List.chain'_cons.mp h.2.2
        have hedge : edgeMem edges a b = true := hchain.1
        have hb : b ∈ g := (edgeMem_endpoints edges g hE a b hedge).2
        have hlast : (b :: t').getLast? = some d := by
          have := h.2.1
          rwa [List.getLast?_cons_cons] at this
        exact ih b d ⟨rfl, hlast, hchain.2⟩ hb x hx2

theorem nodup_length_le (p g : List String) (hnd : p.Nodup) (hsub : ∀ x ∈ p, x ∈ g) :
    p.length ≤ g.length := by
  have h1 : p.toFinset.card = p.length := List.toFinset_card_of_nodup hnd
  have h2 : p.toFinset ⊆ g.toFinset := by
    intro x hx
    rw [List.mem_toFinset] at hx ⊢
    exact hsub x hx
  calc p.length = p.toFinset.card := h1.symm
    _ ≤ g.toFinset.card := Finset.card_le_card h2
    _ ≤ g.length := List.toFinset_card_le g

end BfsInvLemmas

section BfsInvariant

theorem bfsInv_base (edges : List (String × String)) (src : String) :
    BfsInv edges src 0 [(src, [src])] := by
  refine ⟨by simp [keysA], ?_, ?_⟩
  · intro w p hw
    simp only [lookupA] at hw
    split at hw
    case _ hsw =>
      have hp : p = [src] := (Option.some_inj.mp hw).symm
      subst hp
      subst hsw
      refine ⟨⟨rfl, by simp, List.chain'_singleton src⟩, by simp, ?_⟩
      intro q hq
      have := path_length_pos hq
      simpa using this
    · exact Option.noConfusion hw
  · intro w q hq hlen
    have h1 := path_length_pos hq
    have hlen1 : q.length = 1 := by omega
    obtain ⟨x, hx⟩ := List.length_eq_one.mp hlen1
    subst hx
    have hxs : x = src := by
      have h2 := hq.1
      simp only [List.head?_cons, Option.some_inj] at h2
      exact h2
    have hws : w = x := by
      have h2 := hq.2.1
      simp only [List.getLast?_singleton, Option.some_inj] at h2
      exact h2.symm
    subst hws
    subst hxs
    simp [lookupA]

theorem bfsInv_step (edges : List (String × String)) (src : String) (n : Nat)
    (M : List (String × List String)) (h : BfsInv edges src n M) :
    BfsInv edges src (n + 1) (bfsExtend edges M) := by
  refine ⟨bfsExtend_nodup edges M h.nodup, ?_, ?_⟩
  · intro w p hw
    cases hM : lookupA M w with
    | some p₀ =>
      have hpre := bfsExtend_preserve edges M w p₀ hM
      rw [hw] at hpre
      have hpp : p = p₀ := Option.some_inj.mp hpre
      subst hpp
      obtain ⟨hpath, hlen, hmin⟩ := h.sound w p hM
      exact ⟨hpath, Nat.le_succ_of_le hlen, hmin⟩
    | none =>
      rcases bfsExtend_new edges M w p hw with hold | ⟨e, heM, hnb, hp⟩
      · rw [hM] at hold
        exact Option.noConfusion hold
      · have hev : lookupA M e.1 = some e.2 := mem_lookupA_nodup M h.nodup e.1 e.2 heM
        obtain ⟨hpathv, hlenv, hminv⟩ := h.sound e.1 e.2 hev
        have hedge : edgeMem edges e.1 w = true := (mem_nbrs edges e.1 w).mp hnb
        have hpath : IsPathFrom edges src w p := by
          rw [hp]
          exact path_extend hpathv w hedge
        refine ⟨hpath, ?_, ?_⟩
        · rw [hp]
          simp only [List.length_append, List.length_cons, List.length_nil]
          omega
        · intro q hq
          by_contra hlt
          push_neg at hlt
          have hqlen : q.length ≤ n + 1 := by
            rw [hp] at hlt
            simp only [List.length_append, List.length_cons, List.length_nil] at hlt
            omega
          have hsome := h.complete w q hq hqlen
          rw [hM] at hsome
          simp at hsome
  · intro w q hq hlen
    by_cases hle : q.length ≤ n + 1
    · exact bfsExtend_preserve_isSome edges M w (h.complete w q hq hle)
    · have h2 : 2 ≤ q.length := by
        have := path_length_pos hq
        omega
      obtain ⟨q₀, v, hqe, hq₀, hedge, hq₀len⟩ := path_decompose hq h2
      have hq₀le : q₀.length ≤ n + 1 := by omega
      have hv := h.complete v q₀ hq₀ hq₀le
      obtain ⟨pv, hpv⟩ := Option.isSome_iff_exists.mp hv
      have hmem : (v, pv) ∈ M := lookupA_mem M v pv hpv
      have hnb : w ∈ nbrs edges v := (mem_nbrs edges v w).mpr hedge
      exact bfsExtend_cover edges M (v, pv) w hmem hnb

theorem bfsInv_iter (edges : List (String × String)) (src : String) :
    ∀ (k n : Nat) (M : List (String × List String)), BfsInv edges src n M →
      BfsInv edges src (n + k) (bfsIter edges k M) := by
  intro k
  induction k with
  | zero => intro n M h; exact h
  | succ k ih =>
    intro n M h
    simp only [bfsIter]
    have he : n + (k + 1) = n + 1 + k := by omega
    rw [he]
    exact ih (n + 1) (bfsExtend edges M) (bfsInv_step edges src n M h)

theorem bfsInv_from (edges : List (String × String)) (fuel : Nat) (src : String) :
    BfsInv edges src fuel (bfsFrom edges fuel src) := by
  have h := bfsInv_iter edges src fuel 0 [(src, [src])] (bfsInv_base edges src)
  rw [Nat.zero_add] at h
  exact h

theorem bfs_complete (edges : List (String × String)) (g : List String)
    (hE : ∀ e ∈ edges, e.1 ∈ g ∧ e.2 ∈ g) (src : String) (hsrc : src ∈ g)
    (dst : String) (q : List String) (hq : IsPathFrom edges src dst q) :
    (lookupA (bfsFrom edges g.length src) dst).isSome := by
  obtain ⟨q', hq', hnd, hsub⟩ := exists_nodup_path edges src dst q.length q (le_refl _) hq
  have hmem : ∀ x ∈ q', x ∈ g := by
    intro x hx
    exact path_mem_gnodes edges g hE q src dst hq hsrc x (hsub x hx)
  have hlen : q'.length ≤ g.length := nodup_length_le q' g hnd hmem
  have hinv := bfsInv_from edges g.length src
  exact hinv.complete dst q' hq' (by omega)

end BfsInvariant

section RoutingWF

theorem mem_addHost_self (hs : List String) (h : String) : h ∈ addHost hs h := by
  simp only [addHost]
  split
  case _ hm => exact hm
  · simp

theorem mem_addHost_of_mem (hs : List String) (h n : String) (hn : n ∈ hs) :
    n ∈ addHost hs h := by
  simp only [addHost]
  split
  · exact hn
  · exact List.mem_append.mpr (Or.inl hn)

theorem linkHas_insert (L : List (String × List (String × Nat))) (x y : String) (v : Nat)
    (a b : String) (h : (lookupA ((lookupA L a).getD []) b).isSome) :
    (lookupA ((lookupA (insertA L x (insertA ((lookupA L x).getD []) y v)) a).getD [])
      b).isSome := by
  by_cases hax : a = x
  · subst hax
    rw [lookupA_insertA_self]
    simp only [Option.getD_some]
    by_cases hby : b = y
    · subst hby
      rw [lookupA_insertA_self]
      rfl
    · rw [lookupA_insertA_ne _ y b v hby]
      exact h
  · rw [lookupA_insertA_ne _ x a _ hax]
    exact h

theorem linkHas_insert_self (L : List (String × List (String × Nat))) (x y : String)
    (v : Nat) :
    (lookupA ((lookupA (insertA L x (insertA ((lookupA L x).getD []) y v)) x).getD [])
      y).isSome := by
  rw [lookupA_insertA_self]
  simp only [Option.getD_some]
  rw [lookupA_insertA_self]
  rfl

theorem edgeMem_append_elim (E : List (String × String)) (c1 c2 a b : String)
    (h : edgeMem (E ++ [(c1, c2)]) a b = true) :
    edgeMem E a b = true ∨ (a = c1 ∧ b = c2) ∨ (a = c2 ∧ b = c1) := by
  simp only [edgeMem, List.any_append, List.any_cons, List.any_nil,
    Bool.or_eq_true, Bool.and_eq_true, decide_eq_true_eq, Bool.or_false] at h
  rcases h with h | h
  · exact Or.inl h
  · rcases h with ⟨h1, h2⟩ | ⟨h1, h2⟩
    · exact Or.inr (Or.inl ⟨h1.symm, h2.symm⟩)
    · exact Or.inr (Or.inr ⟨h2.symm, h1.symm⟩)

theorem rwf_addNodeR (name : String) (s : RoutingState) (h : RWF s) :
    RWF (addNodeR name s) := by
  refine ⟨?_, ?_, ?_, ?_⟩
  · intro n hn
    simp only [addNodeR] at hn ⊢
    rcases List.mem_append.mp hn with h2 | h2
    · exact mem_addHost_of_mem _ _ _ (h.nodes_sub n h2)
    · simp only [List.mem_singleton] at h2
      subst h2
      exact mem_addHost_self _ _
  · intro e he
    simp only [addNodeR] at he ⊢
    exact ⟨mem_addHost_of_mem _ _ _ (h.edges_sub e he).1,
      mem_addHost_of_mem _ _ _ (h.edges_sub e he).2⟩
  · intro n hn
    simp only [addNodeR] at hn ⊢
    rcases List.mem_append.mp hn with h2 | h2
    · by_cases hne : n = name
      · subst hne
        exact linkHas_insert_self s.links n n 0
      · rw [lookupA_insertA_ne _ name n _ hne]
        exact h.self_link n h2
    · simp only [List.mem_singleton] at h2
      subst h2
      exact linkHas_insert_self s.links n n 0
  · intro a b hab
    simp only [addNodeR] at hab ⊢
    exact linkHas_insert s.links name name 0 a b (h.edge_link a b hab)

theorem rwf_connectQuantumR (c1 : String) (p1 : Nat) (c2 : String) (p2 : Nat)
    (s : RoutingState) (h : RWF s) : RWF (connectQuantumR c1 p1 c2 p2 s) := by
  refine ⟨?_, ?_, ?_, ?_⟩
  · intro n hn
    simp only [connectQuantumR] at hn ⊢
    exact mem_addHost_of_mem _ _ _ (mem_addHost_of_mem _ _ _ (h.nodes_sub n hn))
  · intro e he
    simp only [connectQuantumR] at he ⊢
    rcases List.mem_append.mp he with h2 | h2
    · exact ⟨mem_addHost_of_mem _ _ _ (mem_addHost_of_mem _ _ _ (h.edges_sub e h2).1),
        mem_addHost_of_mem _ _ _ (mem_addHost_of_mem _ _ _ (h.edges_sub e h2).2)⟩
    · simp only [List.mem_singleton] at h2
      subst h2
      exact ⟨mem_addHost_of_mem _ _ _ (mem_addHost_self _ _),
        mem_addHost_self _ _⟩
  · intro n hn
    simp only [connectQuantumR] at hn ⊢
    exact linkHas_insert _ c2 c1 p2 n n (linkHas_insert s.links c1 c2 p1 n n
      (h.self_link n hn))
  · intro a b hab
    simp only [connectQuantumR] at hab ⊢
    rcases edgeMem_append_elim s.edges c1 c2 a b hab with h2 | ⟨ha, hb⟩ | ⟨ha, hb⟩
    · exact linkHas_insert _ c2 c1 p2 a b (linkHas_insert s.links c1 c2 p1 a b
        (h.edge_link a b h2))
    · subst ha; subst hb
      exact linkHas_insert _ b a p2 a b (linkHas_insert_self s.links a b p1)
    · subst ha; subst hb
      exact linkHas_insert_self _ a b p2

theorem rwf_applyROp (s : RoutingState) (op : ROp) (h : RWF s) : RWF (applyROp s op) := by
  cases op with
  | addRouter n => exact rwf_addNodeR n s h
  | addRepeater n => exact rwf_addNodeR n s h
  | addHeraldingStation n => exact rwf_addNodeR n s h
  | addHostR n => exact rwf_addNodeR n s h
  | connectQuantum c1 p1 c2 p2 => exact rwf_connectQuantumR c1 p1 c2 p2 s h

theorem rwf_applyROps (ops : List ROp) : RWF (applyROps ops) := by
  have hgen : ∀ (l : List ROp) (s : RoutingState), RWF s → RWF (l.foldl applyROp s) := by
    intro l
    induction l with
    | nil => intro s h; exact h
    | cons op t ih => intro s h; exact ih _ (rwf_applyROp s op h)
  refine hgen ops initRouting ⟨?_, ?_, ?_, ?_⟩
  · intro n hn
    simp [initRouting] at hn
  · intro e he
    simp [initRouting] at he
  · intro n hn
    simp [initRouting] at hn
  · intro a b hab
    simp [initRouting, edgeMem] at hab

theorem lookupA_map_self {γ : Type} (f : String → γ) :
    ∀ (l : List String) (k : String), k ∈ l →
      lookupA (l.map (fun v => (v, f v))) k = some (f k) := by
  intro l
  induction l with
  | nil => intro k h; simp at h
  | cons a t ih =>
    intro k h
    simp only [List.map_cons, lookupA]
    by_cases hak : a = k
    · subst hak
      simp
    · rw [if_neg hak]
      exact ih k ((List.mem_cons.mp h).resolve_left (fun he => hak he.symm))

theorem lookupA_routesTable (s : RoutingState) (src : String) (h : src ∈ s.gnodes) :
    lookupA (routesTable s) src = some (bfsFrom s.edges s.gnodes.length src) :=
  lookupA_map_self (fun v => bfsFrom s.edges s.gnodes.length v) s.gnodes src h

end RoutingWF

section RoutingEgress

theorem egressR_eq (s : RoutingState) (src dst : String) (h : src ∈ s.gnodes) :
    egressR (computeRoutesR s) src dst =
      match lookupA (bfsFrom s.edges s.gnodes.length src) dst with
      | none => some none
      | some route =>
        match route.get? (if 1 < route.length then 1 else 0) with
        | none => none
        | some nh =>
          match lookupA ((lookupA s.links src).getD []) nh with
          | none => none
          | some port => some (some port) := by
  simp only [egressR, computeRoutesR]
  rw [lookupA_routesTable s src h]

/-- **C7** — Routing egress lookup: after `compute_routes`, for a node `src`
added to the routing graph and any `dst`: if `dst` is unreachable from `src`
the egress lookup returns the Python `None` "no route" value; if `dst` is
reachable, the cache holds a genuine shortest path `route` from `src` to
`dst` and `egress` returns exactly the port stored in `__links[src]` for the
next hop of that route (`route[1]` when the route has more than one node,
else `route[0]`); and when `dst` is a 1-hop neighbour of `src` the returned
port is the direct port `__links[src][dst]`. -/
theorem routing_egress_lookup (ops : List ROp) (src dst : String)
    (hsrc : src ∈ (applyROps ops).nodes) :
    ((¬∃ q, IsPathFrom (applyROps ops).edges src dst q) →
        egressR (computeRoutesR (applyROps ops)) src dst = some none) ∧
    (∀ q0, IsPathFrom (applyROps ops).edges src dst q0 →
      ∃ route port nh,
        lookupA (bfsFrom (applyROps ops).edges (applyROps ops).gnodes.length src) dst
          = some route ∧
        IsPathFrom (applyROps ops).edges src dst route ∧
        (∀ q, IsPathFrom (applyROps ops).edges src dst q → route.length ≤ q.length) ∧
        route.get? (if 1 < route.length then 1 else 0) = some nh ∧
        lookupA ((lookupA (applyROps ops).links src).getD []) nh = some port ∧
        egressR (computeRoutesR (applyROps ops)) src dst = some (some port)) ∧
    (edgeMem (applyROps ops).edges src dst = true → src ≠ dst →
      ∃ port, lookupA ((lookupA (applyROps ops).links src).getD []) dst = some port ∧
        egressR (computeRoutesR (applyROps ops)) src dst = some (some port)) := by
  have hW := rwf_applyROps ops
  have hg : src ∈ (applyROps ops).gnodes := hW.nodes_sub src hsrc
  have hinv := bfsInv_from (applyROps ops).edges (applyROps ops).gnodes.length src
  have hmain : ∀ q0, IsPathFrom (applyROps ops).edges src dst q0 →
      ∃ route port nh,
        lookupA (bfsFrom (applyROps ops).edges (applyROps ops).gnodes.length src) dst
          = some route ∧
        IsPathFrom (applyROps ops).edges src dst route ∧
        (∀ q, IsPathFrom (applyROps ops).edges src dst q → route.length ≤ q.length) ∧
        route.get? (if 1 < route.length then 1 else 0) = some nh ∧
        lookupA ((lookupA (applyROps ops).links src).getD []) nh = some port ∧
        egressR (computeRoutesR (applyROps ops)) src dst = some (some port) := by
    intro q0 hq0
    have hsome := bfs_complete (applyROps ops).edges (applyROps ops).gnodes
      hW.edges_sub src hg dst q0 hq0
    obtain ⟨route, hL⟩ := Option.isSome_iff_exists.mp hsome
    obtain ⟨hpath, hlen, hmin⟩ := hinv.sound dst route hL
    obtain ⟨a, t, rfl⟩ : ∃ a t, route = a :: t := by
      cases route with
      | nil => exact absurd rfl (path_ne_nil hpath)
      | cons a t => exact ⟨a, t, rfl⟩
    have ha : a = src := by
      have h1 := hpath.1
      simp only [List.head?_cons, Option.some_inj] at h1
      exact h1
    subst ha
    cases t with
    | nil =>
      have hsl := hW.self_link a hsrc
      obtain ⟨port, hport⟩ := Option.isSome_iff_exists.mp hsl
      have hnh : [a].get? (if 1 < ([a] : List String).length then 1 else 0) = some a := by
        simp
      refine ⟨[a], port, a, hL, hpath, hmin, hnh, hport, ?_⟩
      simp only [egressR_eq _ a dst hg, hL, hnh, hport]
    | cons b t' =>
      have hnh : (a :: b :: t').get? (if 1 < (a :: b :: t').length then 1 else 0)
          = some b := by
        rw [if_pos (by simp)]
        rfl
      have hedge : edgeMem (applyROps ops).edges a b = true :=
        (List.chain'_cons.mp hpath.2.2).1
      have hel := hW.edge_link a b hedge
      obtain ⟨port, hport⟩ := Option.isSome_iff_exists.mp hel
      refine ⟨a :: b :: t', port, b, hL, hpath, hmin, hnh, hport, ?_⟩
      simp only [egressR_eq _ a dst hg, hL, hnh, hport]
  refine ⟨?_, hmain, ?_⟩
  · intro hnone
    rw [egressR_eq _ src dst hg]
    cases hL : lookupA (bfsFrom (applyROps ops).edges (applyROps ops).gnodes.length src)
        dst with
    | none => rfl
    | some route =>
      obtain ⟨hpath, -, -⟩ := hinv.sound dst route hL
      exact absurd ⟨route, hpath⟩ hnone
  · intro hedge hne
    have hq2 : IsPathFrom (applyROps ops).edges src dst [src, dst] :=
      ⟨rfl, by simp, List.chain'_cons.mpr ⟨hedge, List.chain'_singleton dst⟩⟩
    obtain ⟨route, port, nh, hL, hpath, hmin, hnh, hport, hegress⟩ := hmain [src, dst] hq2
    have hle := hmin [src, dst] hq2
    have hge : 2 ≤ route.length := by
      by_contra hlt
      push_neg at hlt
      have h1 := path_length_pos hpath
      have hlen1 : route.length = 1 := by omega
      obtain ⟨x, rfl⟩ := List.length_eq_one.mp hlen1
      have hx1 : x = src := by simpa using hpath.1
      have hx2 : x = dst := by simpa using hpath.2.1
      exact hne (hx1 ▸ hx2)
    have hlen2 : route.length = 2 := by
      simp only [List.length_cons, List.length_nil] at hle
      omega
    obtain ⟨x, y, rfl⟩ := List.length_eq_two.mp hlen2
    have hx : x = src := by simpa using hpath.1
    have hy : y = dst := by simpa using hpath.2.1
    subst hx
    subst hy
    have hnhd : nh = y := by
      rw [if_pos (by simp)] at hnh
      exact (Option.some_inj.mp hnh).symm
    subst hnhd
    exact ⟨port, hport, hegress⟩

theorem c7_h9_unreachable : ¬∃ q, IsPathFrom c7base.edges "h1" "h9" q := by
  rintro ⟨q, hq⟩
  have hW := rwf_applyROps c7ops
  have hg : "h1" ∈ c7base.gnodes := by decide
  have hsome := bfs_complete c7base.edges c7base.gnodes hW.edges_sub "h1" hg "h9" q hq
  rw [show lookupA (bfsFrom c7base.edges c7base.gnodes.length "h1") "h9" = none from
    by decide] at hsome
  simp at hsome

theorem routing_egress_lookup_witness :
    egressR (computeRoutesR (applyROps c7ops)) "h1" "h9" = some none ∧
    egressR (computeRoutesR (applyROps c7ops)) "h1" "h2" = some (some 0) ∧
    egressR (computeRoutesR (applyROps c7ops)) "h1" "r1" = some (some 0) := by
  refine ⟨?_, ?_, ?_⟩
  · exact (routing_egress_lookup c7ops "h1" "h9" (by decide)).1 c7_h9_unreachable
  · obtain ⟨route, port, nh, hL, hpath, hmin, hnh, hport, hegress⟩ :=
      (routing_egress_lookup c7ops "h1" "h2" (by decide)).2.1 ["h1", "r1", "h2"]
        ⟨rfl, by decide, List.chain'_cons.mpr ⟨by decide,
          List.chain'_cons.mpr ⟨by decide, List.chain'_singleton _⟩⟩⟩
    have hL0 : lookupA (bfsFrom (applyROps c7ops).edges (applyROps c7ops).gnodes.length
        "h1") "h2" = some ["h1", "r1", "h2"] := by decide
    have hroute : route = ["h1", "r1", "h2"] := Option.some_inj.mp (hL.symm.trans hL0)
    subst hroute
    have hnh0 : nh = "r1" := by
      rw [show (if 1 < (["h1", "r1", "h2"] : List String).length then 1 else 0) = 1 from
        by decide] at hnh
      exact (Option.some_inj.mp hnh).symm
    subst hnh0
    have hp0 : lookupA ((lookupA (applyROps c7ops).links "h1").getD []) "r1"
        = some 0 := by decide
    have hport0 : port = 0 := Option.some_inj.mp (hport.symm.trans hp0)
    subst hport0
    exact hegress
  · obtain ⟨port, hport, hegress⟩ :=
      (routing_egress_lookup c7ops "h1" "r1" (by decide)).2.2 (by decide) (by decide)
    have hp0 : lookupA ((lookupA (applyROps c7ops).links "h1").getD []) "r1"
        = some 0 := by decide
    have hport0 : port = 0 := Option.some_inj.mp (hport.symm.trans hp0)
    subst hport0
    exact hegress

end RoutingEgress

end V1Q
